import Mathlib

set_option maxHeartbeats 1000000

deriving instance DecidableEq for Except

namespace VPlanRV

/-!
Shallow embedding of the vplan-rv divergence analysis
(src/lib/Analysis/DivergenceAnalysis.cpp and
src/lib/Analysis/BranchDependenceAnalysis.cpp).

Blocks of a function are `Fin B`, SSA values (instructions and arguments)
are `Fin V`, loops of the loop info are `Fin L`.  The dominator tree, the
loop info and the branch dependence analysis are external collaborators of
`DivergenceAnalysis`; they enter the model as oracle fields of `DACtx`.
-/

/-- Terminator kinds, as discriminated by `DivergenceAnalysis::updateTerminator`
via `dyn_cast`.  A branch carries `some cond` when conditional (two successor
slots) and `none` when unconditional (one successor); a switch has one
successor per case plus the default. -/
inductive DTermKind (V : Nat) where
  | br (cond : Option (Fin V))
  | cswitch (cond : Fin V) (cases : Nat)
  | invoke (ops : List (Fin V))
  | ret (ops : List (Fin V))
  | unreach
  | other (succs : Nat)
deriving DecidableEq

/-- Number of successor blocks of a terminator (`TerminatorInst::getNumSuccessors`). -/
def DTermKind.numSuccs {V : Nat} : DTermKind V → Nat
  | .br (some _) => 2
  | .br none => 1
  | .cswitch _ k => k + 1
  | .invoke _ => 2
  | .ret _ => 0
  | .unreach => 0
  | .other s => s

/-- Instruction kinds relevant to the analysis: phi nodes (with their
`hasConstantOrUndefValue()` flag and incoming values), terminators, and
ordinary instructions with their operand list. -/
inductive DKind (B V : Nat) where
  | phi (hasConstOrUndef : Bool) (incoming : List (Fin V))
  | term (tk : DTermKind V)
  | normal (ops : List (Fin V))
deriving DecidableEq

/-- An instruction: an SSA value id, a parent block, and a kind. -/
structure DInst (B V : Nat) where
  id : Fin V
  parent : Fin B
  kind : DKind B V
deriving DecidableEq

/-- Operand values of an instruction (`Instruction::operands`). -/
def DInst.operands {B V : Nat} : DInst B V → List (Fin V)
  | ⟨_, _, .phi _ inc⟩ => inc
  | ⟨_, _, .term (.br (some c))⟩ => [c]
  | ⟨_, _, .term (.br none)⟩ => []
  | ⟨_, _, .term (.cswitch c _)⟩ => [c]
  | ⟨_, _, .term (.invoke ops)⟩ => ops
  | ⟨_, _, .term (.ret ops)⟩ => ops
  | ⟨_, _, .term .unreach⟩ => []
  | ⟨_, _, .term (.other _)⟩ => []
  | ⟨_, _, .normal ops⟩ => ops

/-- Whether an instruction is a terminator (`isa<TerminatorInst>`). -/
def DInst.isTerm {B V : Nat} : DInst B V → Bool
  | ⟨_, _, .term _⟩ => true
  | _ => false

/-- Whether an instruction is a phi node (`isa<PHINode>`). -/
def DInst.isPhi {B V : Nat} : DInst B V → Bool
  | ⟨_, _, .phi _ _⟩ => true
  | _ => false

/-- The analysis context: the function under analysis together with the
borrowed collaborators (dominator tree, loop info, region loop, and the
branch dependence analysis `join_blocks` interface). -/
structure DACtx (B V L : Nat) where
  insts : List (DInst B V)
  args : List (Fin V)
  succ : Fin B → List (Fin B)
  dominates : Fin B → Fin B → Bool
  loopOf : Fin B → Option (Fin L)
  header : Fin L → Fin B
  lblocks : Fin L → Finset (Fin B)
  regionLoop : Option (Fin L)
  joinBlocks : DInst B V → List (Fin B)

/-- Value ids of the instructions of the function. -/
def DACtx.instIds {B V L : Nat} (ctx : DACtx B V L) : List (Fin V) :=
  ctx.insts.map DInst.id

/-- Whether a value is an instruction or a function argument
(`isa<Instruction>(v) || isa<Argument>(v)`). -/
def DACtx.instOrArg {B V L : Nat} (ctx : DACtx B V L) (v : Fin V) : Bool :=
  v ∈ ctx.instIds || v ∈ ctx.args

/-- The instructions of a block, in program order. -/
def DACtx.instsOf {B V L : Nat} (ctx : DACtx B V L) (b : Fin B) : List (DInst B V) :=
  ctx.insts.filter (fun I => I.parent = b)

/-- The leading run of phi nodes of a block: the loop
`for (blockInst : *block) { if (!isa<PHINode>(blockInst)) break; ... }`. -/
def DACtx.leadingPhis {B V L : Nat} (ctx : DACtx B V L) (b : Fin B) : List (DInst B V) :=
  (ctx.instsOf b).takeWhile DInst.isPhi

/-- Instruction users of a value (`Value::users` restricted to instructions,
i.e. the surviving results of `dyn_cast<const Instruction>(user)`). -/
def DACtx.users {B V L : Nat} (ctx : DACtx B V L) (v : Fin V) : List (DInst B V) :=
  ctx.insts.filter (fun I => v ∈ I.operands)

/-- The parent block of the instruction defining a value, when the value is
an instruction (`dyn_cast<Instruction>(&Op)` followed by `getParent`). -/
def DACtx.instParent {B V L : Nat} (ctx : DACtx B V L) (v : Fin V) : Option (Fin B) :=
  (ctx.insts.find? (fun I => I.id = v)).map DInst.parent

/-- `DivergenceAnalysis::inRegion`: the whole function when there is no
region loop, otherwise containment in the region loop. -/
def DACtx.inRegion {B V L : Nat} (ctx : DACtx B V L) (I : DInst B V) : Bool :=
  match ctx.regionLoop with
  | none => true
  | some l => I.parent ∈ ctx.lblocks l

/-- Exit blocks of a loop (`Loop::getExitBlocks`): for each block of the
loop, its successors outside the loop, listed per exiting edge. -/
def DACtx.exitList {B V L : Nat} (ctx : DACtx B V L) (l : Fin L) : List (Fin B) :=
  ((List.finRange B).filter (fun b => b ∈ ctx.lblocks l)).flatMap
    (fun b => (ctx.succ b).filter (fun s => s ∉ ctx.lblocks l))

/-- Mutable state of one `DivergenceAnalysis` instance. -/
structure DAState (B V : Nat) where
  uniformOverrides : Finset (Fin V)
  divergentJoinBlocks : Finset (Fin B)
  temporalDivergentBlocks : Finset (Fin B)
  divergentValues : Finset (Fin V)
  worklist : List (DInst B V)
deriving DecidableEq

/-- The empty analysis state, as after the constructor. -/
def initState (B V : Nat) : DAState B V := ⟨∅, ∅, ∅, ∅, []⟩

/-- `DivergenceAnalysis::isDivergent`. -/
def isDivergent {B V : Nat} (s : DAState B V) (v : Fin V) : Bool :=
  v ∈ s.divergentValues

/-- `DivergenceAnalysis::isAlwaysUniform`. -/
def isAlwaysUniform {B V : Nat} (s : DAState B V) (v : Fin V) : Bool :=
  v ∈ s.uniformOverrides

/-- `DivergenceAnalysis::isJoinDivergent`. -/
def isJoinDivergent {B V : Nat} (s : DAState B V) (b : Fin B) : Bool :=
  b ∈ s.divergentJoinBlocks

/-- `DivergenceAnalysis::isTemporalDivergent`. -/
def isTemporalDivergent {B V : Nat} (s : DAState B V) (b : Fin B) : Bool :=
  b ∈ s.temporalDivergentBlocks

/-- `DivergenceAnalysis::markBlockJoinDivergent`. -/
def markBlockJoinDivergent {B V : Nat} (s : DAState B V) (b : Fin B) : DAState B V :=
  { s with divergentJoinBlocks := insert b s.divergentJoinBlocks }

/-- `DivergenceAnalysis::markBlockTemporalDivergent`. -/
def markBlockTemporalDivergent {B V : Nat} (s : DAState B V) (b : Fin B) : DAState B V :=
  { s with temporalDivergentBlocks := insert b s.temporalDivergentBlocks }

/-- `DivergenceAnalysis::markDivergent`.  The two `assert`s guard the entry:
the value must be an instruction or argument and must not be an always
uniform override; a violated assert is a loud failure, modelled as `.error`. -/
def markDivergent {B V L : Nat} (ctx : DACtx B V L) (s : DAState B V) (v : Fin V) :
    Except Unit (DAState B V) :=
  if ctx.instOrArg v && !isAlwaysUniform s v then
    .ok { s with divergentValues := insert v s.divergentValues }
  else
    .error ()

/-- `DivergenceAnalysis::addUniformOverride` (no precondition check). -/
def addUniformOverride {B V : Nat} (s : DAState B V) (v : Fin V) : DAState B V :=
  { s with uniformOverrides := insert v s.uniformOverrides }

/-- `DivergenceAnalysis::updateTerminator`: terminators with at most one
successor are uniform; conditional branches and switches take the divergence
of their condition; invokes are ignored; any other multi-successor
terminator hits `abort()`, modelled as `.error`. -/
def updateTerminator {B V : Nat} (s : DAState B V) (tk : DTermKind V) : Except Unit Bool :=
  if tk.numSuccs ≤ 1 then .ok false
  else
    match tk with
    | .br (some c) => .ok (isDivergent s c)
    | .br none => .error ()
    | .cswitch c _ => .ok (isDivergent s c)
    | .invoke _ => .ok false
    | _ => .error ()

/-- `DivergenceAnalysis::updateNormalInstruction`: any divergent operand. -/
def updateNormalInstruction {B V : Nat} (s : DAState B V) (I : DInst B V) : Bool :=
  I.operands.any (isDivergent s)

/-- `DivergenceAnalysis::updatePHINode`: temporal divergence of the parent
block, join divergence of the parent block unless the phi has a constant or
undef value, or any divergent incoming value. -/
def updatePHINode {B V : Nat} (s : DAState B V) (parent : Fin B) (hasConstOrUndef : Bool)
    (incoming : List (Fin V)) : Bool :=
  if isTemporalDivergent s parent then true
  else if !hasConstOrUndef && isJoinDivergent s parent then true
  else incoming.any (isDivergent s)

/-- Push a list of instructions onto the worklist in order
(`worklist.push_back` for each element; the worklist head is its back). -/
def pushAll {B V : Nat} (l : List (DInst B V)) (wl : List (DInst B V)) : List (DInst B V) :=
  l.foldl (fun acc u => u :: acc) wl

/-- `DivergenceAnalysis::pushUsers`: push all in-region instruction users. -/
def pushUsers {B V L : Nat} (ctx : DACtx B V L) (s : DAState B V) (v : Fin V) : DAState B V :=
  { s with worklist := pushAll ((ctx.users v).filter ctx.inRegion) s.worklist }

/-- One instruction of the inner taint loop of `taintLoopLiveOuts`: skip
always-uniform and already divergent instructions, otherwise mark the
instruction divergent and push its users as soon as one operand is an
instruction defined inside the divergent loop. -/
def taintInstsStep {B V L : Nat} (ctx : DACtx B V L) (l : Fin L) (s : DAState B V)
    (I : DInst B V) : Except Unit (DAState B V) :=
  if isAlwaysUniform s I.id then .ok s
  else if isDivergent s I.id then .ok s
  else if I.operands.any (fun op =>
      match ctx.instParent op with
      | some pb => pb ∈ ctx.lblocks l
      | none => false) then do
    let s' ← markDivergent ctx s I.id
    .ok (pushUsers ctx s' I.id)
  else .ok s

/-- The inner taint loop of `taintLoopLiveOuts` over all instructions of the
popped block. -/
def taintInsts {B V L : Nat} (ctx : DACtx B V L) (l : Fin L) :
    List (DInst B V) → DAState B V → Except Unit (DAState B V)
  | [], s => .ok s
  | I :: rest, s => do
    let s' ← taintInstsStep ctx l s I
    taintInsts ctx l rest s'

/-- The successor loop of `taintLoopLiveOuts`, exactly as written in the
source: for every successor the code runs `visited.insert(userBlock)` (on the
popped block, not the successor) and pushes the successor only when that
insertion freshly succeeds. -/
def taintSuccs {B : Nat} (userBlock : Fin B) :
    List (Fin B) → Finset (Fin B) → List (Fin B) → Finset (Fin B) × List (Fin B)
  | [], visited, stack => (visited, stack)
  | sb :: rest, visited, stack =>
    if userBlock ∈ visited then taintSuccs userBlock rest visited stack
    else taintSuccs userBlock rest (insert userBlock visited) (sb :: stack)

/-- Closed form of the successor loop: an already visited popped block pushes
nothing, and an unvisited popped block pushes exactly its first successor. -/
theorem taintSuccs_spec {B : Nat} (u : Fin B) (sl : List (Fin B)) (vs : Finset (Fin B))
    (st : List (Fin B)) :
    taintSuccs u sl vs st =
      if u ∈ vs then (vs, st)
      else
        match sl with
        | [] => (vs, st)
        | sb :: _ => (insert u vs, sb :: st) := by
  have mem_case : ∀ (sl' : List (Fin B)) (vs' : Finset (Fin B)) (st' : List (Fin B)),
      u ∈ vs' → taintSuccs u sl' vs' st' = (vs', st') := by
    intro sl'
    induction sl' with
    | nil => intro vs' st' _; rfl
    | cons sb rest ih =>
      intro vs' st' hmem
      simp only [taintSuccs, if_pos hmem]
      exact ih vs' st' hmem
  by_cases hu : u ∈ vs
  · rw [if_pos hu]; exact mem_case sl vs st hu
  · rw [if_neg hu]
    cases sl with
    | nil => rfl
    | cons sb rest =>
      simp only [taintSuccs, if_neg hu]
      exact mem_case rest _ _ (Finset.mem_insert_self u vs)

/-- The worklist of `taintLoopLiveOuts`: pop a block from the taint stack,
fail on the irreducibility assert, mark fringe blocks (not dominated by the
loop header) temporal divergent and enqueue their phis, taint the loop
live-out users inside dominated blocks, then run the (buggy) successor loop. -/
def taintLoop {B V L : Nat} (ctx : DACtx B V L) (l : Fin L) (hdr : Fin B) :
    List (Fin B) → Finset (Fin B) → DAState B V → Except Unit (DAState B V)
  | [], _, s => .ok s
  | userBlock :: stack, visited, s =>
    if userBlock ∈ ctx.lblocks l then .error ()
    else if !(ctx.dominates hdr userBlock) then
      let s₁ := markBlockTemporalDivergent s userBlock
      let s₂ := { s₁ with worklist := pushAll (ctx.leadingPhis userBlock) s₁.worklist }
      taintLoop ctx l hdr stack visited s₂
    else
      match taintInsts ctx l (ctx.instsOf userBlock) s with
      | .error e => .error e
      | .ok s' =>
        let vp := taintSuccs userBlock (ctx.succ userBlock) visited stack
        taintLoop ctx l hdr vp.2 vp.1 s'
  termination_by stack visited _ => ((Finset.univ \ visited).card, stack.length)
  decreasing_by
  · exact Prod.Lex.right _ (Nat.lt_succ_self _)
  · rw [taintSuccs_spec]
    by_cases hu : userBlock ∈ visited
    · rw [if_pos hu]
      exact Prod.Lex.right _ (Nat.lt_succ_self _)
    · rw [if_neg hu]
      cases ctx.succ userBlock with
      | nil => exact Prod.Lex.right _ (Nat.lt_succ_self _)
      | cons sb rest =>
        apply Prod.Lex.left
        have h2 : (insert userBlock visited).card = visited.card + 1 :=
          Finset.card_insert_of_not_mem hu
        have h3 : (insert userBlock visited).card ≤ (Finset.univ : Finset (Fin B)).card :=
          Finset.card_le_card (Finset.subset_univ _)
        rw [Finset.card_sdiff (Finset.subset_univ _), Finset.card_sdiff (Finset.subset_univ _), h2]
        omega

/-- `DivergenceAnalysis::taintLoopLiveOuts`: look up the loop of the header
(asserting it exists), start from the exit blocks with the exits and the
header pre-marked visited, and run the taint walk. -/
def taintLoopLiveOuts {B V L : Nat} (ctx : DACtx B V L) (s : DAState B V)
    (loopHeader : Fin B) : Except Unit (DAState B V) :=
  match ctx.loopOf loopHeader with
  | none => .error ()
  | some l =>
    let exits := ctx.exitList l
    let visited : Finset (Fin B) := insert loopHeader (exits.foldl (fun vs b => insert b vs) ∅)
    taintLoop ctx l loopHeader exits.reverse visited s

/-- Modelled from the spec: the successor loop of `taint_loop_live_outs`
(spec §4.4) with the visited test keyed on the successor being pushed, as the
spec's §9 open question says the authors intended (`visited.insert(succBlock)`
instead of `visited.insert(userBlock)`). -/
def taintSuccsSpec {B : Nat} :
    List (Fin B) → Finset (Fin B) → List (Fin B) → Finset (Fin B) × List (Fin B)
  | [], visited, stack => (visited, stack)
  | sb :: rest, visited, stack =>
    if sb ∈ visited then taintSuccsSpec rest visited stack
    else taintSuccsSpec rest (insert sb visited) (sb :: stack)

/-- The successor loop of the spec-modelled walk keeps the size measure of
the taint walk non-increasing: every pushed block is freshly marked visited. -/
theorem taintSuccsSpec_measure {B : Nat} (sl : List (Fin B)) (vs : Finset (Fin B))
    (st : List (Fin B)) :
    2 * (Finset.univ \ (taintSuccsSpec sl vs st).1).card + (taintSuccsSpec sl vs st).2.length ≤
      2 * (Finset.univ \ vs).card + st.length := by
  induction sl generalizing vs st with
  | nil => exact le_refl _
  | cons sb rest ih =>
    by_cases h : sb ∈ vs
    · simp only [taintSuccsSpec, if_pos h]
      exact ih vs st
    · simp only [taintSuccsSpec, if_neg h]
      refine le_trans (ih _ _) ?_
      have h2 : (insert sb vs).card = vs.card + 1 := Finset.card_insert_of_not_mem h
      have h3 : (insert sb vs).card ≤ (Finset.univ : Finset (Fin B)).card :=
        Finset.card_le_card (Finset.subset_univ _)
      rw [Finset.card_sdiff (Finset.subset_univ _), Finset.card_sdiff (Finset.subset_univ _), h2]
      simp only [List.length_cons]
      omega

/-- Modelled from the spec: the `taint_loop_live_outs` walk of spec §4.4 with
the corrected visited discipline of §9 ("key the visited test on the
successor being pushed"); everything else is as in the source walk. -/
def taintLoopSpec {B V L : Nat} (ctx : DACtx B V L) (l : Fin L) (hdr : Fin B) :
    List (Fin B) → Finset (Fin B) → DAState B V → Except Unit (DAState B V)
  | [], _, s => .ok s
  | userBlock :: stack, visited, s =>
    if userBlock ∈ ctx.lblocks l then .error ()
    else if !(ctx.dominates hdr userBlock) then
      let s₁ := markBlockTemporalDivergent s userBlock
      let s₂ := { s₁ with worklist := pushAll (ctx.leadingPhis userBlock) s₁.worklist }
      taintLoopSpec ctx l hdr stack visited s₂
    else
      match taintInsts ctx l (ctx.instsOf userBlock) s with
      | .error e => .error e
      | .ok s' =>
        let vp := taintSuccsSpec (ctx.succ userBlock) visited stack
        taintLoopSpec ctx l hdr vp.2 vp.1 s'
  termination_by stack visited _ => 2 * (Finset.univ \ visited).card + stack.length
  decreasing_by
  · simp only [List.length_cons]; omega
  · have := taintSuccsSpec_measure (ctx.succ userBlock) visited stack
    simp only [List.length_cons]
    omega

/-- Modelled from the spec: `taint_loop_live_outs` (spec §4.4) with the
corrected successor-keyed visited test of §9. -/
def taintLoopLiveOutsSpec {B V L : Nat} (ctx : DACtx B V L) (s : DAState B V)
    (loopHeader : Fin B) : Except Unit (DAState B V) :=
  match ctx.loopOf loopHeader with
  | none => .error ()
  | some l =>
    let exits := ctx.exitList l
    let visited : Finset (Fin B) := insert loopHeader (exits.foldl (fun vs b => insert b vs) ∅)
    taintLoopSpec ctx l loopHeader exits.reverse visited s

/-- The per-join-block loop of `DivergenceAnalysis::compute` once a
terminator has become divergent: same-loop joins become join divergent,
cross-loop joins under LCSSA become temporal divergent, and in both cases
the leading phis of the join are enqueued; otherwise the loop live-outs of
the branch loop are tainted (dereferencing the branch loop, which must
exist). -/
def processJoins {B V L : Nat} (ctx : DACtx B V L) (lcssa : Bool)
    (branchLoop : Option (Fin L)) :
    List (Fin B) → DAState B V → Except Unit (DAState B V)
  | [], s => .ok s
  | jb :: rest, s =>
    let joinLoop := ctx.loopOf jb
    if joinLoop = branchLoop || lcssa then
      let s₁ := if joinLoop = branchLoop then markBlockJoinDivergent s jb else s
      let s₂ := if joinLoop ≠ branchLoop then markBlockTemporalDivergent s₁ jb else s₁
      let s₃ := { s₂ with worklist := pushAll (ctx.leadingPhis jb) s₂.worklist }
      processJoins ctx lcssa branchLoop rest s₃
    else
      match branchLoop with
      | none => .error ()
      | some bl =>
        match taintLoopLiveOuts ctx s (ctx.header bl) with
        | .error e => .error e
        | .ok s' => processJoins ctx lcssa branchLoop rest s'

/-- The phi/normal operand update at the bottom of the `compute` loop body:
compute the new divergence of the popped instruction and, when it became
divergent, mark it and push its users. -/
def updateViaOperands {B V L : Nat} (ctx : DACtx B V L) (s : DAState B V) (I : DInst B V) :
    Except Unit (DAState B V) :=
  let divergentUpd :=
    match I.kind with
    | .phi hc inc => updatePHINode s I.parent hc inc
    | _ => updateNormalInstruction s I
  if divergentUpd then do
    let s' ← markDivergent ctx s I.id
    .ok (pushUsers ctx s' I.id)
  else .ok s

/-- One iteration of the `compute` worklist (the popped instruction `I`; the
state already carries the remaining worklist): skip always-uniform and
already divergent instructions; propagate a divergent terminator through the
join blocks of the branch dependence analysis; otherwise run the operand
update. -/
def computeStep {B V L : Nat} (ctx : DACtx B V L) (lcssa : Bool) (I : DInst B V)
    (s : DAState B V) : Except Unit (DAState B V) :=
  if isAlwaysUniform s I.id then .ok s
  else if isDivergent s I.id then .ok s
  else
    match I.kind with
    | .term tk =>
      match updateTerminator s tk with
      | .error e => .error e
      | .ok true => do
        let s₁ ← markDivergent ctx s I.id
        processJoins ctx lcssa (ctx.loopOf I.parent) (ctx.joinBlocks I) s₁
      | .ok false => updateViaOperands ctx s I
    | _ => updateViaOperands ctx s I

/-- Outcome of a fuelled `compute` run: a final state, a loud failure
(a violated assert, `abort`, or a null dereference), or fuel exhaustion. -/
inductive CRes (B V : Nat) where
  | ok (s : DAState B V)
  | fail
  | fuelOut
deriving DecidableEq

/-- The `compute` worklist loop, with explicit fuel counting iterations. -/
def computeLoop {B V L : Nat} (ctx : DACtx B V L) (lcssa : Bool) :
    Nat → DAState B V → CRes B V
  | fuel, s =>
    match s.worklist with
    | [] => .ok s
    | I :: rest =>
      match fuel with
      | 0 => .fuelOut
      | fuel + 1 =>
        match computeStep ctx lcssa I { s with worklist := rest } with
        | .error _ => .fail
        | .ok s' => computeLoop ctx lcssa fuel s'

/-- The seeding prologue of `compute`: push all instruction users of the
currently divergent values onto the worklist. -/
def seedWorklist {B V L : Nat} (ctx : DACtx B V L) (s : DAState B V) : DAState B V :=
  { s with
    worklist := pushAll
      (((List.finRange V).filter (fun v => v ∈ s.divergentValues)).flatMap ctx.users)
      s.worklist }

/-- `DivergenceAnalysis::compute`: seed the worklist, then run the fixpoint. -/
def computeRun {B V L : Nat} (ctx : DACtx B V L) (lcssa : Bool) (fuel : Nat)
    (s : DAState B V) : CRes B V :=
  computeLoop ctx lcssa fuel (seedWorklist ctx s)

/-- A public operation on a `DivergenceAnalysis` instance. -/
inductive DAOp (B V : Nat) where
  | mark (v : Fin V)
  | uniform (v : Fin V)
  | run (lcssa : Bool) (fuel : Nat)
deriving DecidableEq

/-- Run a sequence of public operations (`markDivergent`,
`addUniformOverride`, `compute`); any loud failure or fuel exhaustion stops
the sequence with an error. -/
def runOps {B V L : Nat} (ctx : DACtx B V L) :
    List (DAOp B V) → DAState B V → Except Unit (DAState B V)
  | [], s => .ok s
  | op :: rest, s =>
    match op with
    | .mark v =>
      match markDivergent ctx s v with
      | .error e => .error e
      | .ok s' => runOps ctx rest s'
    | .uniform v => runOps ctx rest (addUniformOverride s v)
    | .run lcssa fuel =>
      match computeRun ctx lcssa fuel s with
      | .ok s' => runOps ctx rest s'
      | _ => .error ()

/-!
The disjoint-paths engine (`DivPathDecider`) and the branch dependence
analysis of src/lib/Analysis/BranchDependenceAnalysis.cpp.  The CFG has
blocks `Fin G.N`; the node-split network has nodes `b.in = (false, b)` and
`b.out = (true, b)`.
-/

/-- A node of the node-split flow network (`DivPathDecider::Node`):
`(false, b)` is the IN node of block `b`, `(true, b)` its OUT node. -/
abbrev FNode (N : Nat) := Bool × Fin N

/-- The IN node of a block (`getInNode`). -/
def inN {N : Nat} (b : Fin N) : FNode N := (false, b)

/-- The OUT node of a block (`getOutNode`). -/
def outN {N : Nat} (b : Fin N) : FNode N := (true, b)

/-- A directed edge of the node-split network. -/
abbrev FEdge (N : Nat) := FNode N × FNode N

/-- The CFG seen by the disjoint-paths engine. -/
structure BGraph where
  N : Nat
  succ : Fin N → List (Fin N)

/-- Predecessors of a block (`llvm::predecessors`), derived from the
successor lists. -/
def BGraph.preds (G : BGraph) (b : Fin G.N) : List (Fin G.N) :=
  (List.finRange G.N).filter (fun p => b ∈ G.succ p)

/-- A natural loop as seen by the engine: its header and its block set. -/
structure BLoop (N : Nat) where
  header : Fin N
  blocks : Finset (Fin N)

/-- The loop restriction test of `findPath`:
`!TheLoop || TheLoop->contains(&runner)`. -/
def loopContains {N : Nat} (loop : Option (BLoop N)) (b : Fin N) : Bool :=
  match loop with
  | none => true
  | some L => b ∈ L.blocks

/-- The expansion of one popped node in `DivPathDecider::findPath`, listing
the pushed nodes in push order: for an OUT node, unsaturated forward CFG
edges (guarded by the loop restriction on the popped block) followed by the
backwards split edge; for an IN node, the forward split edge followed by
flow-carrying backwards CFG edges. -/
def expandNode (G : BGraph) (flow : Finset (FEdge G.N)) (loop : Option (BLoop G.N))
    (node : FNode G.N) (visited : Finset (FNode G.N)) : List (FNode G.N) :=
  match node with
  | (true, u) =>
    (((G.succ u).filter (fun s =>
        loopContains loop u && !(decide (inN s ∈ visited)) &&
          !(decide (((true, u), inN s) ∈ flow)))).map inN) ++
    (if inN u ∉ visited ∧ (inN u, (true, u)) ∈ flow then [inN u] else [])
  | (false, u) =>
    (if outN u ∉ visited ∧ ((false, u), outN u) ∉ flow then [outN u] else []) ++
    (((G.preds u).filter (fun p =>
        loopContains loop u && !(decide (outN p ∈ visited)) &&
          (decide ((outN p, (false, u)) ∈ flow)))).map outN)

/-- Folding a push list onto a stack models the successive
`stack.push(next)` calls of `findPath`. -/
theorem foldl_cons_eq {α : Type} (l acc : List α) :
    l.foldl (fun st x => x :: st) acc = l.reverse ++ acc := by
  induction l generalizing acc with
  | nil => rfl
  | cons x xs ih =>
    simp only [List.foldl_cons, List.reverse_cons, List.append_assoc, List.singleton_append]
    exact ih (x :: acc)

/-- Every node pushed by the expansion is unvisited at push time. -/
theorem expandNode_not_visited (G : BGraph) (flow : Finset (FEdge G.N))
    (loop : Option (BLoop G.N)) (node : FNode G.N) (vs : Finset (FNode G.N)) :
    ∀ a ∈ expandNode G flow loop node vs, a ∉ vs := by
  obtain ⟨t, u⟩ := node
  cases t
  · intro a ha
    simp only [expandNode, List.mem_append, List.mem_map, List.mem_filter] at ha
    rcases ha with h | h
    · split at h
      · next hc =>
          simp only [List.mem_singleton] at h
          subst h; exact hc.1
      · simp at h
    · obtain ⟨p, hp, rfl⟩ := h
      simp only [Bool.and_eq_true, Bool.not_eq_true', decide_eq_false_iff_not,
        decide_eq_true_eq] at hp
      tauto
  · intro a ha
    simp only [expandNode, List.mem_append, List.mem_map, List.mem_filter] at ha
    rcases ha with h | h
    · obtain ⟨s, hs, rfl⟩ := h
      simp only [Bool.and_eq_true, Bool.not_eq_true', decide_eq_false_iff_not] at hs
      tauto
    · split at h
      · next hc =>
          simp only [List.mem_singleton] at h
          subst h; exact hc.1
      · simp at h

/-- The DFS loop of `DivPathDecider::findPath`: pop a node, mark it visited,
return it with the predecessor map if it is a sink, otherwise push its
residual neighbours (recording the popped node as their parent). -/
def findPathLoop (G : BGraph) (flow : Finset (FEdge G.N)) (loop : Option (BLoop G.N))
    (sinks : List (FNode G.N)) :
    List (FNode G.N) → Finset (FNode G.N) → (FNode G.N → Option (FNode G.N)) →
      Option (FNode G.N × (FNode G.N → Option (FNode G.N)))
  | [], _, _ => none
  | node :: stack, visited, parent =>
    let visited' := insert node visited
    if node ∈ sinks then some (node, parent)
    else
      let pushes := expandNode G flow loop node visited'
      findPathLoop G flow loop sinks (pushes.foldl (fun st x => x :: st) stack) visited'
        (fun x => if x ∈ pushes then some node else parent x)
  termination_by stack visited _ =>
    ((Finset.univ \ visited).card, (stack.filter (fun x => x ∈ visited)).length)
  decreasing_by
  · by_cases hnode : node ∈ visited
    · have hv : insert node visited = visited := Finset.insert_eq_self.mpr hnode
      apply Prod.Lex.right'
      · simp only [hv]; exact le_refl _
      · simp only [hv, foldl_cons_eq, List.filter_append, List.length_append]
        have hpush : (expandNode G flow loop node visited).reverse.filter
            (fun x => x ∈ visited) = [] := by
          rw [List.filter_eq_nil_iff]
          intro a ha
          have ha' := expandNode_not_visited G flow loop node visited a (List.mem_reverse.mp ha)
          simp only [decide_eq_true_eq]
          exact ha'
        rw [hpush]
        simp only [List.length_nil, Nat.zero_add, List.filter_cons,
          decide_eq_true_eq, if_pos hnode, List.length_cons]
        omega
    · apply Prod.Lex.left
      have h2 : (insert node visited).card = visited.card + 1 :=
        Finset.card_insert_of_not_mem hnode
      have h3 : (insert node visited).card ≤ (Finset.univ : Finset (FNode G.N)).card :=
        Finset.card_le_card (Finset.subset_univ _)
      rw [Finset.card_sdiff (Finset.subset_univ _), Finset.card_sdiff (Finset.subset_univ _), h2]
      omega

/-- `DivPathDecider::findPath`: DFS from the source with an empty visited
set and parent map. -/
def findPath (G : BGraph) (flow : Finset (FEdge G.N)) (loop : Option (BLoop G.N))
    (source : FNode G.N) (sinks : List (FNode G.N)) :
    Option (FNode G.N × (FNode G.N → Option (FNode G.N))) :=
  findPathLoop G flow loop sinks [source] ∅ (fun _ => none)

/-- `DivPathDecider::injectFlow`: walk the parent chain from the sink back
to the source, erasing the reversed edge when it carries flow (backwards
edge reset) and inserting the forward edge otherwise.  The fuel dominates
the chain length; the parent chains produced by `findPath` are acyclic, so
the fuel is never exhausted (and a missing parent never looked up). -/
def injectFlow {N : Nat} (parent : FNode N → Option (FNode N)) (start : FNode N) :
    Nat → FNode N → Finset (FEdge N) → Finset (FEdge N)
  | 0, _, flow => flow
  | fuel + 1, tail, flow =>
    if tail = start then flow
    else
      match parent tail with
      | none => flow
      | some prev =>
        injectFlow parent start fuel prev
          (if (tail, prev) ∈ flow then flow.erase (tail, prev) else insert (prev, tail) flow)

/-- The bounded Ford-Fulkerson loop of `DivPathDecider::disjointPaths`:
`n` augmentations, failing as soon as no augmenting path exists. -/
def disjointPathsAux (G : BGraph) (loop : Option (BLoop G.N)) (source : FNode G.N)
    (sinks : List (FNode G.N)) : Nat → Finset (FEdge G.N) → Bool
  | 0, _ => true
  | n + 1, flow =>
    match findPath G flow loop source sinks with
    | none => false
    | some (snk, parent) =>
      disjointPathsAux G loop source sinks n (injectFlow parent source (2 * G.N + 2) snk flow)

/-- `DivPathDecider::disjointPaths(From, To, n)`: `n` vertex-disjoint paths
queried on the node-split network from `From.out` to `To.in`. -/
def disjointPaths (G : BGraph) (u v : Fin G.N) (n : Nat) : Bool :=
  disjointPathsAux G none (outN u) [inN v] n ∅

/-- `BasicBlock::getUniquePredecessor`. -/
def uniquePredecessor (G : BGraph) (b : Fin G.N) : Option (Fin G.N) :=
  match G.preds b with
  | [p] => some p
  | _ => none

/-- `Loop::getLoopLatch`: the unique in-loop predecessor of the header,
if there is exactly one. -/
def getLoopLatch (G : BGraph) (L : BLoop G.N) : Option (Fin G.N) :=
  match (G.preds L.header).filter (fun p => p ∈ L.blocks) with
  | [p] => some p
  | _ => none

/-- `DivPathDecider::inducesDivergentExit`: a latch short-circuits to the
unique-predecessor test; any other block runs a 2-disjoint-paths query from
its OUT node to the exit's OUT node or the header's IN node, restricted to
the loop. -/
def inducesDivergentExit (G : BGraph) (L : BLoop G.N) (From LoopExit : Fin G.N) : Bool :=
  if getLoopLatch G L = some From then uniquePredecessor G LoopExit = some From
  else disjointPathsAux G (some L) (outN From) [outN LoopExit, inN L.header] 2 ∅

/-- `Loop::getExitBlocks`: successors outside the loop of blocks inside it,
listed per exiting edge. -/
def BGraph.exitBlocksOf (G : BGraph) (L : BLoop G.N) : List (Fin G.N) :=
  ((List.finRange G.N).filter (fun b => b ∈ L.blocks)).flatMap
    (fun b => (G.succ b).filter (fun s => s ∉ L.blocks))

/-- The collaborators of `BranchDependenceAnalysis::join_blocks`: leading-phi
discrimination (`isa<PHINode>(phiBlock.begin())`), immediate dominators of
the two trees, the dominance predicate on tree nodes, and the loop info. -/
structure BDACtx (G : BGraph) where
  leadingPhi : Fin G.N → Bool
  domIdom : Fin G.N → Option (Fin G.N)
  pdIdom : Fin G.N → Option (Fin G.N)
  nodeDominates : Fin G.N → Fin G.N → Bool
  loopFor : Fin G.N → Option (BLoop G.N)

/-- The dominator-tree pruning test of `join_blocks`: skip unless the
immediate dominator of the phi block (when present) dominates the
terminator block. -/
def domBoundOK {G : BGraph} (C : BDACtx G) (phiBlock termBlock : Fin G.N) : Bool :=
  match C.domIdom phiBlock with
  | some d => C.nodeDominates d termBlock
  | none => true

/-- The post-dominator-tree pruning test of `join_blocks`: skip unless the
immediate post-dominator of the terminator block (when present) dominates
the phi block. -/
def pdBoundOK {G : BGraph} (C : BDACtx G) (phiBlock termBlock : Fin G.N) : Bool :=
  match C.pdIdom termBlock with
  | some p => C.nodeDominates p phiBlock
  | none => true

/-- `BranchDependenceAnalysis::join_blocks`: blocks led by a phi that pass
the dominance pruning and a 2-disjoint-paths query, together with the loop
exits through which the terminator block induces a divergent exit. -/
def join_blocks (G : BGraph) (C : BDACtx G) (termBlock : Fin G.N) : Finset (Fin G.N) :=
  let phiPart := (Finset.univ : Finset (Fin G.N)).filter (fun phiBlock =>
    C.leadingPhi phiBlock && domBoundOK C phiBlock termBlock &&
      pdBoundOK C phiBlock termBlock && disjointPaths G termBlock phiBlock 2 = true)
  let exitPart :=
    match C.loopFor termBlock with
    | none => (∅ : Finset (Fin G.N))
    | some L =>
      ((G.exitBlocksOf L).filter (fun e => inducesDivergentExit G L termBlock e)).toFinset
  phiPart ∪ exitPart

/-!
Semantic layer for the disjoint-paths engine: edges of the node-split
unit-capacity network, residual steps, integral flows, and vertex-disjoint
block paths.
-/

/-- An edge of the node-split unit-capacity network: the split edge
`b.in → b.out` of every block `b` and the edge `a.out → b.in` of every CFG
edge `a → b`. -/
def BGraph.isEdge (G : BGraph) : FNode G.N → FNode G.N → Bool
  | (false, a), (true, b) => decide (a = b)
  | (true, a), (false, b) => decide (b ∈ G.succ a)
  | _, _ => false

/-- One step of `findPath`'s residual traversal (no loop restriction): an
unsaturated network edge forwards or a flow-carrying network edge
backwards. -/
def residStep (G : BGraph) (flow : Finset (FEdge G.N)) (a b : FNode G.N) : Bool :=
  (G.isEdge a b && !(decide ((a, b) ∈ flow))) ||
    (G.isEdge b a && decide ((b, a) ∈ flow))

/-- Outgoing flow edges of a node. -/
def outdeg {N : Nat} (F : Finset (FEdge N)) (x : FNode N) : Nat :=
  (F.filter (fun e => e.1 = x)).card

/-- Incoming flow edges of a node. -/
def indeg {N : Nat} (F : Finset (FEdge N)) (x : FNode N) : Nat :=
  (F.filter (fun e => e.2 = x)).card

/-- Net outflow of a node under an edge set. -/
def excess {N : Nat} (F : Finset (FEdge N)) (x : FNode N) : Int :=
  (outdeg F x : Int) - (indeg F x : Int)

/-- An integral unit flow of value `k` from `s` towards `t`: a set of
network edges with net outflow `k` at `s` and `0` at every node other than
`s` and `t`. -/
def IsFlow (G : BGraph) (F : Finset (FEdge G.N)) (s t : FNode G.N) (k : Nat) : Prop :=
  (∀ e ∈ F, G.isEdge e.1 e.2 = true) ∧ excess F s = (k : Int) ∧
    ∀ x, x ≠ s → x ≠ t → excess F x = 0

/-- One toggle of `injectFlow`: reset the backwards edge when it carries
flow, insert the forward edge otherwise. -/
def toggleEdge {N : Nat} (F : Finset (FEdge N)) (p t : FNode N) : Finset (FEdge N) :=
  if (t, p) ∈ F then F.erase (t, p) else insert (p, t) F

/-- The toggles `injectFlow` performs along a parent chain, listed from the
sink back to the source. -/
def toggleWalk {N : Nat} : List (FNode N) → Finset (FEdge N) → Finset (FEdge N)
  | [], F => F
  | [_], F => F
  | t :: p :: rest, F => toggleWalk (p :: rest) (toggleEdge F p t)

/-- The consecutive pairs of a node list, as an edge set. -/
def chainEdges {N : Nat} (cs : List (FNode N)) : Finset (FEdge N) :=
  (cs.zip cs.tail).toFinset

/-- The node-split walk of the block path from `u` to `v` with interior
blocks `p`. -/
def splitChain {N : Nat} (u v : Fin N) (p : List (Fin N)) : List (FNode N) :=
  outN u :: (p.flatMap (fun b => [inN b, outN b]) ++ [inN v])

/-- The network edges used by the block path from `u` to `v` with interior
blocks `p`. -/
def pathEdges {N : Nat} (u v : Fin N) (p : List (Fin N)) : Finset (FEdge N) :=
  chainEdges (splitChain u v p)

/-- A CFG path from `u` to `v` with interior blocks `p`: consecutive blocks
are CFG successors, and the interior repeats no block and avoids both
endpoints. -/
def SPath (G : BGraph) (u v : Fin G.N) (p : List (Fin G.N)) : Prop :=
  List.Chain (fun a b => b ∈ G.succ a) u (p ++ [v]) ∧ p.Nodup ∧ u ∉ p ∧ v ∉ p

/-- Modelled from the spec: there exist `n` pairwise vertex-disjoint CFG
paths from `u` to `v` — pairwise distinct paths sharing no block other than
the endpoints. -/
def HasNDisjointPaths (G : BGraph) (u v : Fin G.N) (n : Nat) : Prop :=
  ∃ ps : List (List (Fin G.N)), ps.length = n ∧ (∀ p ∈ ps, SPath G u v p) ∧
    ps.Pairwise (fun p q => p ≠ q ∧ ∀ x ∈ p, x ∉ q)

/-- The invariant of `findPath`'s depth-first search: every visited node,
and every stacked node, is the end of a duplicate-free residual chain from
the source that is recorded in the parent map and stays inside the visited
set (apart from the chain's own endpoint). -/
def DFSInv (G : BGraph) (flow : Finset (FEdge G.N)) (source : FNode G.N)
    (stack : List (FNode G.N)) (visited : Finset (FNode G.N))
    (parent : FNode G.N → Option (FNode G.N)) : Prop :=
  (∀ y ∈ visited, ∃ cs : List (FNode G.N), cs.head? = some source ∧
      cs.getLast? = some y ∧ cs.Nodup ∧
      List.Chain' (fun a b => residStep G flow a b = true) cs ∧
      List.Chain' (fun a b => parent b = some a) cs ∧
      ∀ z ∈ cs, z ∈ visited) ∧
  (∀ y ∈ stack, ∃ cs : List (FNode G.N), cs.head? = some source ∧
      cs.getLast? = some y ∧ cs.Nodup ∧
      List.Chain' (fun a b => residStep G flow a b = true) cs ∧
      List.Chain' (fun a b => parent b = some a) cs ∧
      ∀ z ∈ cs, z ∈ visited ∨ z = y)

/-- A sequence of public operations is guarded when `addUniformOverride` is
never invoked on a value that is divergent at that point (the state is
threaded through the successful prefix of the sequence). -/
def goodOpsB {B V L : Nat} (ctx : DACtx B V L) : List (DAOp B V) → DAState B V → Bool
  | [], _ => true
  | op :: rest, s =>
    match op with
    | .mark v =>
      match markDivergent ctx s v with
      | .ok s' => goodOpsB ctx rest s'
      | .error _ => true
    | .uniform v =>
      !(decide (v ∈ s.divergentValues)) && goodOpsB ctx rest (addUniformOverride s v)
    | .run lcssa fuel =>
      match computeRun ctx lcssa fuel s with
      | .ok s' => goodOpsB ctx rest s'
      | _ => true

/-- Whether a terminator kind is a conditional branch or a multiway switch
(the kinds `updateTerminator` can classify divergent). -/
def DTermKind.isCond {V : Nat} : DTermKind V → Bool
  | .br (some _) => true
  | .cswitch _ (_ + 1) => true
  | _ => false

/-- Whether an instruction is a conditional branch or multiway switch. -/
def DInst.isCondTerm {B V : Nat} (I : DInst B V) : Bool :=
  match I.kind with
  | .term tk => tk.isCond
  | _ => false

/-- The LLVM IR invariant that all phi nodes of a block are grouped at its
top, i.e. belong to the leading phi run. -/
def phisFirst {B V L : Nat} (ctx : DACtx B V L) : Prop :=
  ∀ b : Fin B, ∀ J ∈ ctx.instsOf b, J.isPhi = true → J ∈ ctx.leadingPhis b

/-- The join-consistency invariant of the `compute` fixpoint (LCSSA runs):
for every conditional branch or multiway switch that became divergent during
the run (not part of the seed `D₀`), every join block of the branch
dependence analysis carries a divergence mark, and each of its leading
non-constant, non-override phis is divergent or still pending on the
worklist. -/
def JoinInv {B V L : Nat} (ctx : DACtx B V L) (D₀ : Finset (Fin V)) (s : DAState B V) :
    Prop :=
  ∀ T, T ∈ ctx.insts → T.isCondTerm = true → T.id ∈ s.divergentValues → T.id ∉ D₀ →
    ∀ b ∈ ctx.joinBlocks T,
      (b ∈ s.divergentJoinBlocks ∨ b ∈ s.temporalDivergentBlocks) ∧
      ∀ J, J ∈ ctx.leadingPhis b → ∀ inc, J.kind = DKind.phi false inc →
        J.id ∉ s.uniformOverrides → (J.id ∈ s.divergentValues ∨ J ∈ s.worklist)

/-- How every successful internal transition of `compute` evolves the
state: overrides are untouched, divergent values and block marks only grow,
and every newly divergent value passed the `markDivergent` precondition
(instruction or argument, not a uniform override). -/
def EvCore {B V L : Nat} (ctx : DACtx B V L) (s s' : DAState B V) : Prop :=
  s'.uniformOverrides = s.uniformOverrides ∧
  s.divergentValues ⊆ s'.divergentValues ∧
  s.divergentJoinBlocks ⊆ s'.divergentJoinBlocks ∧
  s.temporalDivergentBlocks ⊆ s'.temporalDivergentBlocks ∧
  (∀ v, v ∈ s'.divergentValues → v ∉ s.divergentValues →
    ctx.instOrArg v = true ∧ v ∉ s.uniformOverrides)

/-!
Concrete instances used by witnesses and counterexamples.
-/

/-- A loop `{H = 0, B1 = 1}` with exit block `E = 2` whose successor is
`S = 3`; instruction `0` lives in the loop, instruction `1` (in `E`) and
instruction `2` (in `S`) use it from outside. -/
def exCtxTaint : DACtx 4 4 1 where
  insts := [⟨0, 1, .normal []⟩, ⟨1, 2, .normal [0]⟩, ⟨2, 3, .normal [0]⟩]
  args := []
  succ := fun b => if b = 0 then [1] else if b = 1 then [0, 2] else if b = 2 then [3] else []
  dominates := fun a _ => a = 0
  loopOf := fun b => if b = 0 ∨ b = 1 then some 0 else none
  header := fun _ => 0
  lblocks := fun _ => {0, 1}
  regionLoop := none
  joinBlocks := fun _ => []

/-- A diamond `A = 0 → {B1 = 1, C1 = 2} → D = 3`: argument `0` is the branch
condition, value `1` is the conditional branch in `A`, value `2` is a phi in
`D` with a constant-or-undef value, value `3` is a phi in `D` without one;
the branch dependence analysis reports `D` as the join of the branch. -/
def exCtxJoin : DACtx 4 5 1 where
  insts := [⟨1, 0, .term (.br (some 0))⟩, ⟨2, 3, .phi true [4]⟩, ⟨3, 3, .phi false [4]⟩]
  args := [0]
  succ := fun b => if b = 0 then [1, 2] else if b = 3 then [] else [3]
  dominates := fun _ _ => true
  loopOf := fun _ => none
  header := fun _ => 0
  lblocks := fun _ => ∅
  regionLoop := none
  joinBlocks := fun I => if I.id = 1 then [3] else []

/-- A minimal context with two argument values and no instructions. -/
def exCtxArgs : DACtx 1 2 1 where
  insts := []
  args := [0, 1]
  succ := fun _ => []
  dominates := fun _ _ => true
  loopOf := fun _ => none
  header := fun _ => 0
  lblocks := fun _ => ∅
  regionLoop := none
  joinBlocks := fun _ => []

/-- A one-block graph with a self loop and an exit block: block `0` is the
header and latch of the loop `{0}`, block `1` its only exit. -/
abbrev exGraphLatch : BGraph where
  N := 2
  succ := fun b => if b = 0 then [0, 1] else []

/-- The loop `{0}` of `exGraphLatch`. -/
abbrev exLoopLatch : BLoop 2 := ⟨0, {0}⟩

/-- Branch dependence collaborators for `exGraphLatch` with no phi blocks. -/
def exBDACtx : BDACtx exGraphLatch where
  leadingPhi := fun _ => false
  domIdom := fun _ => none
  pdIdom := fun _ => none
  nodeDominates := fun _ _ => true
  loopFor := fun b => if b = 0 then some exLoopLatch else none

/-!
Theorems.
-/

/-- `updatePHINode` returns true exactly on temporal divergence of the
parent, join divergence of a non-constant phi, or a divergent incoming
value. -/
theorem updatePHINode_eq_true_iff {B V : Nat} (s : DAState B V) (p : Fin B) (hc : Bool)
    (inc : List (Fin V)) :
    updatePHINode s p hc inc = true ↔
      (isTemporalDivergent s p = true ∨ (hc = false ∧ isJoinDivergent s p = true) ∨
        ∃ v ∈ inc, v ∈ s.divergentValues) := by
  unfold updatePHINode
  by_cases ht : isTemporalDivergent s p = true
  · simp [ht]
  · rw [if_neg ht]
    by_cases hj : (!hc && isJoinDivergent s p) = true
    · rw [if_pos hj]
      simp only [Bool.and_eq_true, Bool.not_eq_true'] at hj
      simp [hj.1, hj.2]

    · rw [if_neg hj]
      simp only [Bool.and_eq_true, Bool.not_eq_true'] at hj
      simp only [List.any_eq_true, isDivergent, decide_eq_true_eq]
      constructor
      · intro h; exact Or.inr (Or.inr h)
      · rintro (h | ⟨h1, h2⟩ | h)
        · exact absurd h ht
        · exact absurd ⟨h1, h2⟩ hj
        · exact h

/-- Claim C4: a phi node popped from the worklist that is neither already
divergent nor a uniform override is marked divergent exactly when its parent
block is temporal divergent, or its parent block is join divergent and the
phi does not have a constant-or-undef value, or some incoming value is
divergent. -/
theorem claim_C4 {B V L : Nat} (ctx : DACtx B V L) (lcssa : Bool) (iid : Fin V) (ip : Fin B)
    (hc : Bool) (inc : List (Fin V)) (s : DAState B V)
    (hdiv : iid ∉ s.divergentValues) (hov : iid ∉ s.uniformOverrides)
    (hinst : ctx.instOrArg iid = true) :
    ∃ s', computeStep ctx lcssa ⟨iid, ip, .phi hc inc⟩ s = .ok s' ∧
      (iid ∈ s'.divergentValues ↔
        (isTemporalDivergent s ip = true ∨ (hc = false ∧ isJoinDivergent s ip = true) ∨
          ∃ v ∈ inc, v ∈ s.divergentValues)) := by
  have hov' : isAlwaysUniform s iid = false := by
    simp [isAlwaysUniform, hov]
  have hdiv' : isDivergent s iid = false := by
    simp [isDivergent, hdiv]
  rw [← updatePHINode_eq_true_iff s ip hc inc]
  simp only [computeStep, hov', hdiv', Bool.false_eq_true, if_false]
  unfold updateViaOperands
  by_cases hup : updatePHINode s ip hc inc = true
  · simp only [hup, if_true]
    unfold markDivergent
    simp only [hinst, hov', Bool.not_false, Bool.and_self, if_true]
    refine ⟨_, rfl, ?_⟩
    simp [pushUsers, Finset.mem_insert, hup]
  · simp only [Bool.not_eq_true] at hup
    simp only [hup, Bool.false_eq_true, if_false]
    exact ⟨s, rfl, by simp [hdiv, hup]⟩

/-- Witness for claim C4 on `exCtxJoin`: the non-constant phi `3` of the
join block becomes divergent through the join divergence of its block. -/
theorem claim_C4_witness :
    ((3 : Fin 5) ∉ (⟨∅, {3}, ∅, {0, 1}, []⟩ : DAState 4 5).divergentValues) ∧
    ((3 : Fin 5) ∉ (⟨∅, {3}, ∅, {0, 1}, []⟩ : DAState 4 5).uniformOverrides) ∧
    (exCtxJoin.instOrArg 3 = true) ∧
    (∃ s', computeStep exCtxJoin false ⟨3, 3, .phi false [4]⟩ ⟨∅, {3}, ∅, {0, 1}, []⟩ = .ok s' ∧
      ((3 : Fin 5) ∈ s'.divergentValues ↔
        (isTemporalDivergent (⟨∅, {3}, ∅, {0, 1}, []⟩ : DAState 4 5) 3 = true ∨
          (false = false ∧
            isJoinDivergent (⟨∅, {3}, ∅, {0, 1}, []⟩ : DAState 4 5) 3 = true) ∨
          ∃ v ∈ [(4 : Fin 5)], v ∈ (⟨∅, {3}, ∅, {0, 1}, []⟩ : DAState 4 5).divergentValues))) :=
  ⟨by decide, by decide, by decide,
    claim_C4 exCtxJoin false 3 3 false [4] ⟨∅, {3}, ∅, {0, 1}, []⟩ (by decide) (by decide)
      (by decide)⟩

/-- Counterexample to claim C5 as stated: a switch with an empty case list
has a single successor, so `updateTerminator` returns false even though the
switch's condition is divergent; the claimed equivalence "divergent iff the
terminator is a conditional branch or a switch with divergent condition"
fails on it. -/
theorem claim_C5_counterexample :
    ¬((updateTerminator (⟨∅, ∅, ∅, {0}, []⟩ : DAState 1 1) (DTermKind.cswitch 0 0) =
        Except.ok true) ↔
      (0 : Fin 1) ∈ (⟨∅, ∅, ∅, {0}, []⟩ : DAState 1 1).divergentValues) := by
  decide

/-- Claim C5, amended: `updateTerminator` classifies a terminator divergent
exactly when it has more than one successor and is a conditional branch or
switch with divergent condition, and it aborts exactly on a terminator with
more than one successor that is neither branch, switch, nor invoke;
everything else (at most one successor, invokes, uniform conditions) is
classified not divergent. -/
theorem claim_C5_amended {B V : Nat} (s : DAState B V) (tk : DTermKind V) :
    (updateTerminator s tk = .ok true ↔
      (1 < tk.numSuccs ∧ ((∃ c, tk = .br (some c) ∧ c ∈ s.divergentValues) ∨
        (∃ c k, tk = .cswitch c k ∧ c ∈ s.divergentValues)))) ∧
    (updateTerminator s tk = .error () ↔
      (1 < tk.numSuccs ∧ (∀ c, tk ≠ .br (some c)) ∧ (∀ c k, tk ≠ .cswitch c k) ∧
        (∀ ops, tk ≠ .invoke ops))) := by
  cases tk with
  | br cond =>
    cases cond with
    | none => simp [updateTerminator, DTermKind.numSuccs]
    | some c =>
      by_cases hc : c ∈ s.divergentValues <;>
        simp [updateTerminator, DTermKind.numSuccs, isDivergent, hc]
  | cswitch c k =>
    cases k with
    | zero => simp [updateTerminator, DTermKind.numSuccs]
    | succ k =>
      by_cases hc : c ∈ s.divergentValues <;>
        simp [updateTerminator, DTermKind.numSuccs, isDivergent, hc]
  | invoke ops => simp [updateTerminator, DTermKind.numSuccs]
  | ret ops => simp [updateTerminator, DTermKind.numSuccs]
  | unreach => simp [updateTerminator, DTermKind.numSuccs]
  | other succs =>
    rcases Nat.lt_or_ge 1 succs with h | h
    · simp [updateTerminator, DTermKind.numSuccs, Nat.not_le_of_lt h, h]
    · simp [updateTerminator, DTermKind.numSuccs, Nat.le_of_succ_le_succ, h,
        Nat.not_lt_of_le h]

/-- Claim C10: every block of `join_blocks` either is led by a phi node or
is an exit block of the loop containing the terminator block. -/
theorem claim_C10 (G : BGraph) (C : BDACtx G) (t : Fin G.N) (b : Fin G.N)
    (hb : b ∈ join_blocks G C t) :
    C.leadingPhi b = true ∨ ∃ L, C.loopFor t = some L ∧ b ∈ G.exitBlocksOf L := by
  unfold join_blocks at hb
  rcases Finset.mem_union.mp hb with h | h
  · left
    have := (Finset.mem_filter.mp h).2
    simp only [Bool.and_eq_true, decide_eq_true_eq] at this
    tauto
  · right
    revert h
    cases hL : C.loopFor t with
    | none => intro h; simp at h
    | some L =>
      intro h
      exact ⟨L, rfl, (List.mem_filter.mp (List.mem_toFinset.mp h)).1⟩

/-- Claim C2 (code bug): on `exCtxTaint` the source walk pops the exit
block `E = 2` (pre-marked visited), taints its live-out user `1`, but the
successor loop keys the visited test on the popped block, so the dominated
successor `S = 3` is never enqueued and its live-out user `2` stays
unmarked; the spec-modelled walk (visited test on the pushed successor)
reaches `S` and taints `2` as well. -/
theorem claim_C2 :
    (taintLoopLiveOuts exCtxTaint (initState 4 4) 0 = .ok ⟨∅, ∅, ∅, {1}, []⟩ ∧
      (2 : Fin 4) ∉ ({1} : Finset (Fin 4))) ∧
    (taintLoopLiveOutsSpec exCtxTaint (initState 4 4) 0 = .ok ⟨∅, ∅, ∅, {2, 1}, []⟩ ∧
      (2 : Fin 4) ∈ ({2, 1} : Finset (Fin 4))) := by
  refine ⟨⟨?_, by decide⟩, ⟨?_, by decide⟩⟩
  · show taintLoop exCtxTaint 0 0 [2] {0, 2} (initState 4 4) = _
    rw [taintLoop.eq_def]
    have h1 : ¬((2 : Fin 4) ∈ exCtxTaint.lblocks 0) := by decide
    have h2 : ¬((!exCtxTaint.dominates 0 2) = true) := by decide
    have hti : taintInsts exCtxTaint 0 (exCtxTaint.instsOf 2) (initState 4 4) =
        .ok ⟨∅, ∅, ∅, {1}, []⟩ := by decide
    have hts : taintSuccs (2 : Fin 4) (exCtxTaint.succ 2) {0, 2} [] = ({0, 2}, []) := by
      decide
    simp only [h1, h2, hti, hts, Bool.false_eq_true, if_false]
    rw [taintLoop.eq_def]
  · show taintLoopSpec exCtxTaint 0 0 [2] {0, 2} (initState 4 4) = _
    rw [taintLoopSpec.eq_def]
    have h1 : ¬((2 : Fin 4) ∈ exCtxTaint.lblocks 0) := by decide
    have h2 : ¬((!exCtxTaint.dominates 0 2) = true) := by decide
    have hti : taintInsts exCtxTaint 0 (exCtxTaint.instsOf 2) (initState 4 4) =
        .ok ⟨∅, ∅, ∅, {1}, []⟩ := by decide
    have hts : taintSuccsSpec (exCtxTaint.succ 2) {0, 2} [] = ({0, 2, 3}, [3]) := by decide
    simp only [h1, h2, hti, hts, Bool.false_eq_true, if_false]
    rw [taintLoopSpec.eq_def]
    have h3 : ¬((3 : Fin 4) ∈ exCtxTaint.lblocks 0) := by decide
    have h4 : ¬((!exCtxTaint.dominates 0 3) = true) := by decide
    have hti2 : taintInsts exCtxTaint 0 (exCtxTaint.instsOf 3)
        (⟨∅, ∅, ∅, {1}, []⟩ : DAState 4 4) = .ok ⟨∅, ∅, ∅, {2, 1}, []⟩ := by decide
    have hts2 : taintSuccsSpec (exCtxTaint.succ 3) {0, 2, 3} [] = ({0, 2, 3}, []) := by
      decide
    simp only [h3, h4, hti2, hts2, Bool.false_eq_true, if_false]
    rw [taintLoopSpec.eq_def]

/-- A nodup list is the singleton of `a` exactly when `a` is a member and
every member equals `a`. -/
theorem nodup_eq_singleton_iff {α : Type} {l : List α} {a : α} (hnd : l.Nodup) :
    l = [a] ↔ a ∈ l ∧ ∀ b ∈ l, b = a := by
  constructor
  · rintro rfl
    exact ⟨List.mem_singleton_self a, fun b hb => List.mem_singleton.mp hb⟩
  · rintro ⟨ha, hall⟩
    match l, ha with
    | [a'], _ =>
      have := hall a' (List.mem_singleton_self a')
      rw [this]
    | a' :: b' :: l', _ =>
      have h1 := hall a' (by simp)
      have h2 := hall b' (by simp)
      rw [h1, h2] at hnd
      simp at hnd

/-- `getUniquePredecessor` returns `p` exactly when `p` is a CFG predecessor
and every CFG predecessor equals `p`. -/
theorem uniquePredecessor_eq_some_iff (G : BGraph) (b p : Fin G.N) :
    uniquePredecessor G b = some p ↔ (b ∈ G.succ p ∧ ∀ q, b ∈ G.succ q → q = p) := by
  have hmem : ∀ q, q ∈ G.preds b ↔ b ∈ G.succ q := by
    intro q
    simp [BGraph.preds, List.mem_filter, List.mem_finRange]
  have hnd : (G.preds b).Nodup := List.Nodup.filter _ (List.nodup_finRange _)
  have hsingle : G.preds b = [p] ↔ (b ∈ G.succ p ∧ ∀ q, b ∈ G.succ q → q = p) := by
    rw [nodup_eq_singleton_iff hnd]
    constructor
    · rintro ⟨h1, h2⟩
      exact ⟨(hmem p).mp h1, fun q hq => h2 q ((hmem q).mpr hq)⟩
    · rintro ⟨h1, h2⟩
      exact ⟨(hmem p).mpr h1, fun q hq => h2 q ((hmem q).mp hq)⟩
  rw [← hsingle]
  unfold uniquePredecessor
  rcases hl : G.preds b with _ | ⟨q, _ | ⟨r, t⟩⟩ <;> simp

/-- Claim C6: for a latch block the divergent-exit test short-circuits to
the unique-predecessor check (no path search), and for any other block it is
the 2-disjoint-paths query from the block's OUT node to the exit's OUT node
or the header's IN node, restricted to the loop. -/
theorem claim_C6 (G : BGraph) (L : BLoop G.N) (From LoopExit : Fin G.N) :
    (getLoopLatch G L = some From →
      (inducesDivergentExit G L From LoopExit = true ↔
        (LoopExit ∈ G.succ From ∧ ∀ q, LoopExit ∈ G.succ q → q = From))) ∧
    (getLoopLatch G L ≠ some From →
      inducesDivergentExit G L From LoopExit =
        disjointPathsAux G (some L) (outN From) [outN LoopExit, inN L.header] 2 ∅) := by
  constructor
  · intro hlatch
    unfold inducesDivergentExit
    rw [if_pos hlatch, ← uniquePredecessor_eq_some_iff]
    simp
  · intro hlatch
    unfold inducesDivergentExit
    rw [if_neg hlatch]

/-- Witness for claim C6 on `exGraphLatch`: block `0` is the latch of the
self loop, and the divergent-exit test for exit `1` reduces to the
unique-predecessor check. -/
theorem claim_C6_witness :
    getLoopLatch exGraphLatch exLoopLatch = some 0 ∧
      (inducesDivergentExit exGraphLatch exLoopLatch 0 1 = true ↔
        ((1 : Fin 2) ∈ exGraphLatch.succ 0 ∧
          ∀ q, (1 : Fin 2) ∈ exGraphLatch.succ q → q = 0)) :=
  ⟨by decide, (claim_C6 exGraphLatch exLoopLatch 0 1).1 (by decide)⟩

/-- Membership in a worklist after pushing a list of instructions. -/
theorem mem_pushAll {B V : Nat} (l wl : List (DInst B V)) (J : DInst B V) :
    J ∈ pushAll l wl ↔ J ∈ l ∨ J ∈ wl := by
  unfold pushAll
  rw [foldl_cons_eq]
  simp [List.mem_append, List.mem_reverse]

/-- `EvCore` is reflexive. -/
theorem EvCore.refl {B V L : Nat} (ctx : DACtx B V L) (s : DAState B V) : EvCore ctx s s :=
  ⟨rfl, Finset.Subset.refl _, Finset.Subset.refl _, Finset.Subset.refl _,
    fun _ hv hnv => absurd hv hnv⟩

/-- `EvCore` is transitive. -/
theorem EvCore.trans {B V L : Nat} {ctx : DACtx B V L} {s₁ s₂ s₃ : DAState B V}
    (h1 : EvCore ctx s₁ s₂) (h2 : EvCore ctx s₂ s₃) : EvCore ctx s₁ s₃ := by
  obtain ⟨o1, d1, j1, t1, n1⟩ := h1
  obtain ⟨o2, d2, j2, t2, n2⟩ := h2
  refine ⟨o2.trans o1, d1.trans d2, j1.trans j2, t1.trans t2, ?_⟩
  intro v hv hnv
  by_cases hmid : v ∈ s₂.divergentValues
  · exact n1 v hmid hnv
  · have h := n2 v hv hmid
    rw [o1] at h
    exact h

/-- A successful `markDivergent` call only inserts the value, which passed
the precondition, into the divergent set. -/
theorem markDivergent_ev {B V L : Nat} (ctx : DACtx B V L) {s s' : DAState B V} {v : Fin V}
    (h : markDivergent ctx s v = .ok s') :
    EvCore ctx s s' ∧ s'.worklist = s.worklist ∧ v ∈ s'.divergentValues := by
  unfold markDivergent at h
  split at h
  · next hcond =>
    simp only [Except.ok.injEq] at h
    subst h
    simp only [Bool.and_eq_true, Bool.not_eq_true'] at hcond
    refine ⟨⟨rfl, Finset.subset_insert _ _, Finset.Subset.refl _, Finset.Subset.refl _, ?_⟩,
      rfl, Finset.mem_insert_self _ _⟩
    intro w hw hnw
    rcases Finset.mem_insert.mp hw with rfl | hmem
    · exact ⟨hcond.1, by simpa [isAlwaysUniform] using hcond.2⟩
    · exact absurd hmem hnw
  · exact absurd h (by simp)

/-- `pushUsers` only extends the worklist. -/
theorem pushUsers_ev {B V L : Nat} (ctx : DACtx B V L) (s : DAState B V) (v : Fin V) :
    EvCore ctx s (pushUsers ctx s v) ∧
      ∀ J, J ∈ s.worklist → J ∈ (pushUsers ctx s v).worklist := by
  refine ⟨⟨rfl, Finset.Subset.refl _, Finset.Subset.refl _, Finset.Subset.refl _,
    fun _ hv hnv => absurd hv hnv⟩, ?_⟩
  intro J hJ
  exact (mem_pushAll _ _ _).mpr (Or.inr hJ)

/-- One instruction of the inner taint loop evolves the state monotonically. -/
theorem taintInstsStep_ev {B V L : Nat} (ctx : DACtx B V L) (l : Fin L)
    {s s' : DAState B V} {I : DInst B V} (h : taintInstsStep ctx l s I = .ok s') :
    EvCore ctx s s' ∧ ∀ J, J ∈ s.worklist → J ∈ s'.worklist := by
  unfold taintInstsStep at h
  split at h
  · simp only [Except.ok.injEq] at h
    subst h
    exact ⟨EvCore.refl ctx s, fun _ hJ => hJ⟩
  · split at h
    · simp only [Except.ok.injEq] at h
      subst h
      exact ⟨EvCore.refl ctx s, fun _ hJ => hJ⟩
    · split at h
      · rcases hmk : markDivergent ctx s I.id with e | s₁ <;> rw [hmk] at h
        · exact Except.noConfusion h
        · have h' : Except.ok (pushUsers ctx s₁ I.id) = Except.ok s' := h
          simp only [Except.ok.injEq] at h'
          subst h'
          obtain ⟨ev1, hw1, _⟩ := markDivergent_ev ctx hmk
          obtain ⟨ev2, hw2⟩ := pushUsers_ev ctx s₁ I.id
          refine ⟨ev1.trans ev2, fun J hJ => hw2 J ?_⟩
          rw [hw1]
          exact hJ
      · simp only [Except.ok.injEq] at h
        subst h
        exact ⟨EvCore.refl ctx s, fun _ hJ => hJ⟩

/-- The inner taint loop evolves the state monotonically. -/
theorem taintInsts_ev {B V L : Nat} (ctx : DACtx B V L) (l : Fin L) :
    ∀ (Is : List (DInst B V)) (s s' : DAState B V), taintInsts ctx l Is s = .ok s' →
      EvCore ctx s s' ∧ ∀ J, J ∈ s.worklist → J ∈ s'.worklist := by
  intro Is
  induction Is with
  | nil =>
    intro s s' h
    simp only [taintInsts, Except.ok.injEq] at h
    subst h
    exact ⟨EvCore.refl ctx s, fun _ hJ => hJ⟩
  | cons I rest ih =>
    intro s s' h
    simp only [taintInsts] at h
    rcases hstep : taintInstsStep ctx l s I with e | s₁ <;> rw [hstep] at h
    · exact Except.noConfusion h
    · have h' : taintInsts ctx l rest s₁ = .ok s' := h
      obtain ⟨ev1, hw1⟩ := taintInstsStep_ev ctx l hstep
      obtain ⟨ev2, hw2⟩ := ih s₁ s' h'
      exact ⟨ev1.trans ev2, fun J hJ => hw2 J (hw1 J hJ)⟩

/-- The taint walk evolves the state monotonically. -/
theorem taintLoop_ev {B V L : Nat} (ctx : DACtx B V L) (l : Fin L) (hdr : Fin B) :
    ∀ (stack : List (Fin B)) (visited : Finset (Fin B)) (s s' : DAState B V),
      taintLoop ctx l hdr stack visited s = .ok s' →
      EvCore ctx s s' ∧ ∀ J, J ∈ s.worklist → J ∈ s'.worklist := by
  intro stack visited s
  induction stack, visited, s using taintLoop.induct ctx l hdr with
  | case1 visited s =>
    intro s' h
    rw [taintLoop.eq_def] at h
    simp only [Except.ok.injEq] at h
    subst h
    exact ⟨EvCore.refl ctx s, fun _ hJ => hJ⟩
  | case2 userBlock stack visited s hin =>
    intro s' h
    rw [taintLoop.eq_def] at h
    simp only [if_pos hin] at h
    exact Except.noConfusion h
  | case3 userBlock stack visited s hin hdom s₁ s₂ ih =>
    intro s' h
    rw [taintLoop.eq_def] at h
    simp only [if_neg hin, if_pos hdom] at h
    obtain ⟨ev2, w2⟩ := ih s' h
    have ev1 : EvCore ctx s s₂ :=
      ⟨rfl, Finset.Subset.refl _, Finset.Subset.refl _,
        Finset.subset_insert _ _, fun _ hv hnv => absurd hv hnv⟩
    refine ⟨EvCore.trans ev1 ev2, fun J hJ => w2 J ?_⟩
    show J ∈ s₂.worklist
    exact (mem_pushAll _ _ _).mpr (Or.inr hJ)
  | case4 userBlock stack visited s hin hdom e htaint =>
    intro s' h
    rw [taintLoop.eq_def] at h
    simp only [if_neg hin, if_neg hdom, htaint] at h
    exact Except.noConfusion h
  | case5 userBlock stack visited s hin hdom s₁ htaint vp ih =>
    intro s' h
    rw [taintLoop.eq_def] at h
    simp only [if_neg hin, if_neg hdom, htaint] at h
    obtain ⟨ev1, w1⟩ := taintInsts_ev ctx l (ctx.instsOf userBlock) s s₁ htaint
    obtain ⟨ev2, w2⟩ := ih s' h
    exact ⟨ev1.trans ev2, fun J hJ => w2 J (w1 J hJ)⟩

/-- `taintLoopLiveOuts` evolves the state monotonically. -/
theorem taintLoopLiveOuts_ev {B V L : Nat} (ctx : DACtx B V L) {s s' : DAState B V}
    {hdr : Fin B} (h : taintLoopLiveOuts ctx s hdr = .ok s') :
    EvCore ctx s s' ∧ ∀ J, J ∈ s.worklist → J ∈ s'.worklist := by
  unfold taintLoopLiveOuts at h
  rcases hL : ctx.loopOf hdr with _ | l <;> rw [hL] at h
  · exact Except.noConfusion h
  · exact taintLoop_ev ctx l hdr _ _ s s' h

/-- The join-block propagation of a divergent terminator evolves the state
monotonically. -/
theorem processJoins_ev {B V L : Nat} (ctx : DACtx B V L) (lcssa : Bool)
    (branchLoop : Option (Fin L)) :
    ∀ (jbs : List (Fin B)) (s s' : DAState B V),
      processJoins ctx lcssa branchLoop jbs s = .ok s' →
      EvCore ctx s s' ∧ ∀ J, J ∈ s.worklist → J ∈ s'.worklist := by
  intro jbs
  induction jbs with
  | nil =>
    intro s s' h
    simp only [processJoins, Except.ok.injEq] at h
    subst h
    exact ⟨EvCore.refl ctx s, fun _ hJ => hJ⟩
  | cons jb rest ih =>
    intro s s' h
    simp only [processJoins] at h
    split at h
    · obtain ⟨ev2, w2⟩ := ih _ s' h
      refine ⟨EvCore.trans ?_ ev2, fun J hJ => w2 J ?_⟩
      · refine ⟨?_, ?_, ?_, ?_, ?_⟩ <;>
          split_ifs <;>
          simp only [markBlockJoinDivergent, markBlockTemporalDivergent] <;>
          first
            | rfl
            | exact Finset.Subset.refl _
            | exact Finset.subset_insert _ _
            | exact Finset.Subset.trans (Finset.subset_insert _ _) (Finset.subset_insert _ _)
            | exact fun _ hv hnv => absurd hv hnv
      · have hwl : ∀ (t : DAState B V), t.worklist = s.worklist →
            J ∈ pushAll (ctx.leadingPhis jb) t.worklist := by
          intro t ht
          rw [ht]
          exact (mem_pushAll _ _ _).mpr (Or.inr hJ)
        split_ifs <;>
          exact hwl _ (by simp [markBlockJoinDivergent, markBlockTemporalDivergent])
    · rcases branchLoop with _ | bl
      · exact Except.noConfusion h
      · have h2 : (match taintLoopLiveOuts ctx s (ctx.header bl) with
            | Except.error e => (Except.error e : Except Unit (DAState B V))
            | Except.ok s₁ => processJoins ctx lcssa (some bl) rest s₁) = Except.ok s' := h
        rcases htl : taintLoopLiveOuts ctx s (ctx.header bl) with e | s₁ <;> rw [htl] at h2
        · exact Except.noConfusion h2
        · obtain ⟨ev1, w1⟩ := taintLoopLiveOuts_ev ctx htl
          obtain ⟨ev2, w2⟩ := ih s₁ s' h2
          exact ⟨ev1.trans ev2, fun J hJ => w2 J (w1 J hJ)⟩

/-- The mark-and-push tail shared by the update cases evolves the state
monotonically. -/
theorem markPush_ev {B V L : Nat} (ctx : DACtx B V L) {s s' : DAState B V} {v : Fin V}
    {c : Bool}
    (h : (if c = true then do
            let s₁ ← markDivergent ctx s v
            Except.ok (pushUsers ctx s₁ v)
          else Except.ok s) = .ok s') :
    EvCore ctx s s' ∧ ∀ J, J ∈ s.worklist → J ∈ s'.worklist := by
  cases c
  · simp only [Bool.false_eq_true, if_false, Except.ok.injEq] at h
    subst h
    exact ⟨EvCore.refl ctx s, fun _ hJ => hJ⟩
  · rw [if_pos rfl] at h
    rcases hmk : markDivergent ctx s v with e | s₁ <;> rw [hmk] at h
    · exact Except.noConfusion h
    · have h' : Except.ok (pushUsers ctx s₁ v) = Except.ok s' := h
      simp only [Except.ok.injEq] at h'
      subst h'
      obtain ⟨ev1, hw1, _⟩ := markDivergent_ev ctx hmk
      obtain ⟨ev2, hw2⟩ := pushUsers_ev ctx s₁ v
      refine ⟨ev1.trans ev2, fun J hJ => hw2 J ?_⟩
      rw [hw1]
      exact hJ

/-- The operand update evolves the state monotonically. -/
theorem updateViaOperands_ev {B V L : Nat} (ctx : DACtx B V L) {s s' : DAState B V}
    {I : DInst B V} (h : updateViaOperands ctx s I = .ok s') :
    EvCore ctx s s' ∧ ∀ J, J ∈ s.worklist → J ∈ s'.worklist := by
  unfold updateViaOperands at h
  split at h
  · exact markPush_ev ctx h
  · exact markPush_ev ctx h

/-- One `compute` iteration evolves the state monotonically. -/
theorem computeStep_ev {B V L : Nat} (ctx : DACtx B V L) (lcssa : Bool) {I : DInst B V}
    {s s' : DAState B V} (h : computeStep ctx lcssa I s = .ok s') :
    EvCore ctx s s' ∧ ∀ J, J ∈ s.worklist → J ∈ s'.worklist := by
  unfold computeStep at h
  split at h
  · simp only [Except.ok.injEq] at h
    subst h
    exact ⟨EvCore.refl ctx s, fun _ hJ => hJ⟩
  · split at h
    · simp only [Except.ok.injEq] at h
      subst h
      exact ⟨EvCore.refl ctx s, fun _ hJ => hJ⟩
    · split at h
      · next tk _ =>
        split at h
        · exact Except.noConfusion h
        · rcases hmk : markDivergent ctx s I.id with e | s₁ <;> rw [hmk] at h
          · exact Except.noConfusion h
          · have h' : processJoins ctx lcssa (ctx.loopOf I.parent) (ctx.joinBlocks I) s₁ =
                .ok s' := h
            obtain ⟨ev1, hw1, _⟩ := markDivergent_ev ctx hmk
            obtain ⟨ev2, w2⟩ := processJoins_ev ctx lcssa _ _ s₁ s' h'
            refine ⟨ev1.trans ev2, fun J hJ => w2 J ?_⟩
            rw [hw1]
            exact hJ
        · exact updateViaOperands_ev ctx h
      · exact updateViaOperands_ev ctx h

/-- An empty worklist finishes the `compute` loop with the current state. -/
theorem computeLoop_nil {B V L : Nat} (ctx : DACtx B V L) (lcssa : Bool) (fuel : Nat)
    {s : DAState B V} (h : s.worklist = []) : computeLoop ctx lcssa fuel s = .ok s := by
  rw [computeLoop, h]

/-- A non-empty worklist with no fuel runs out. -/
theorem computeLoop_zero_cons {B V L : Nat} (ctx : DACtx B V L) (lcssa : Bool)
    {s : DAState B V} {I : DInst B V} {rest : List (DInst B V)}
    (h : s.worklist = I :: rest) : computeLoop ctx lcssa 0 s = .fuelOut := by
  rw [computeLoop, h]

/-- One unfolding of the `compute` loop on a non-empty worklist. -/
theorem computeLoop_cons {B V L : Nat} (ctx : DACtx B V L) (lcssa : Bool) (fuel : Nat)
    {s : DAState B V} {I : DInst B V} {rest : List (DInst B V)}
    (h : s.worklist = I :: rest) :
    computeLoop ctx lcssa (fuel + 1) s =
      match computeStep ctx lcssa I { s with worklist := rest } with
      | .error _ => .fail
      | .ok s₁ => computeLoop ctx lcssa fuel s₁ := by
  rw [computeLoop, h]

/-- Dropping the popped worklist head evolves the state trivially. -/
theorem EvCore_pop {B V L : Nat} (ctx : DACtx B V L) (s : DAState B V)
    (rest : List (DInst B V)) : EvCore ctx s { s with worklist := rest } :=
  ⟨rfl, Finset.Subset.refl _, Finset.Subset.refl _, Finset.Subset.refl _,
    fun _ hv hnv => absurd hv hnv⟩

/-- The `compute` worklist loop evolves the state monotonically (the
worklist itself is consumed). -/
theorem computeLoop_ev {B V L : Nat} (ctx : DACtx B V L) (lcssa : Bool) :
    ∀ (fuel : Nat) (s s' : DAState B V), computeLoop ctx lcssa fuel s = .ok s' →
      EvCore ctx s s' := by
  intro fuel
  induction fuel with
  | zero =>
    intro s s' h
    rcases hwl : s.worklist with _ | ⟨I, rest⟩
    · rw [computeLoop_nil ctx lcssa 0 hwl] at h
      cases h
      exact EvCore.refl ctx s
    · rw [computeLoop_zero_cons ctx lcssa hwl] at h
      exact CRes.noConfusion h
  | succ fuel ih =>
    intro s s' h
    rcases hwl : s.worklist with _ | ⟨I, rest⟩
    · rw [computeLoop_nil ctx lcssa _ hwl] at h
      cases h
      exact EvCore.refl ctx s
    · rw [computeLoop_cons ctx lcssa fuel hwl] at h
      rcases hstep : computeStep ctx lcssa I { s with worklist := rest } with e | s₁ <;>
        rw [hstep] at h
      · exact CRes.noConfusion h
      · have ev1 := (computeStep_ev ctx lcssa hstep).1
        exact EvCore.trans (EvCore.trans (EvCore_pop ctx s rest) ev1) (ih s₁ s' h)

/-- `compute` (seeding plus fixpoint loop) evolves the state monotonically. -/
theorem computeRun_ev {B V L : Nat} (ctx : DACtx B V L) (lcssa : Bool) {fuel : Nat}
    {s s' : DAState B V} (h : computeRun ctx lcssa fuel s = .ok s') : EvCore ctx s s' := by
  unfold computeRun at h
  have ev := computeLoop_ev ctx lcssa fuel _ s' h
  exact EvCore.trans ⟨rfl, Finset.Subset.refl _, Finset.Subset.refl _, Finset.Subset.refl _,
    fun _ hv hnv => absurd hv hnv⟩ ev

/-- A successful `markDivergent` is exactly the insertion of the value. -/
theorem markDivergent_ok_eq {B V L : Nat} (ctx : DACtx B V L) {s s' : DAState B V}
    {v : Fin V} (h : markDivergent ctx s v = .ok s') :
    s' = { s with divergentValues := insert v s.divergentValues } := by
  unfold markDivergent at h
  split at h
  · simp only [Except.ok.injEq] at h
    exact h.symm
  · exact Except.noConfusion h

/-- The mark-and-push tail either leaves the state unchanged or strictly
grows the divergent set. -/
theorem markPush_cases {B V L : Nat} (ctx : DACtx B V L) {s s' : DAState B V} {v : Fin V}
    {c : Bool} (hndiv : v ∉ s.divergentValues)
    (h : (if c = true then do
            let s₁ ← markDivergent ctx s v
            Except.ok (pushUsers ctx s₁ v)
          else Except.ok s) = .ok s') :
    s' = s ∨ s.divergentValues ⊂ s'.divergentValues := by
  cases c
  · simp only [Bool.false_eq_true, if_false, Except.ok.injEq] at h
    exact Or.inl h.symm
  · rw [if_pos rfl] at h
    rcases hmk : markDivergent ctx s v with e | s₁ <;> rw [hmk] at h
    · exact Except.noConfusion h
    · have h' : Except.ok (pushUsers ctx s₁ v) = Except.ok s' := h
      simp only [Except.ok.injEq] at h'
      subst h'
      right
      have heq := markDivergent_ok_eq ctx hmk
      subst heq
      exact Finset.ssubset_insert hndiv

/-- One `compute` iteration either leaves the state unchanged or strictly
grows the divergent set. -/
theorem computeStep_cases {B V L : Nat} (ctx : DACtx B V L) (lcssa : Bool) {I : DInst B V}
    {s s' : DAState B V} (h : computeStep ctx lcssa I s = .ok s') :
    s' = s ∨ s.divergentValues ⊂ s'.divergentValues := by
  unfold computeStep at h
  split at h
  · simp only [Except.ok.injEq] at h
    exact Or.inl h.symm
  · split at h
    · simp only [Except.ok.injEq] at h
      exact Or.inl h.symm
    · next hndiv =>
      have hndiv' : I.id ∉ s.divergentValues := by
        simpa [isDivergent] using hndiv
      split at h
      · split at h
        · exact Except.noConfusion h
        · rcases hmk : markDivergent ctx s I.id with e | s₁ <;> rw [hmk] at h
          · exact Except.noConfusion h
          · have h' : processJoins ctx lcssa (ctx.loopOf I.parent) (ctx.joinBlocks I) s₁ =
                .ok s' := h
            right
            have heq := markDivergent_ok_eq ctx hmk
            have hsub := (processJoins_ev ctx lcssa _ _ s₁ s' h').1.2.1
            rw [heq] at hsub
            refine Finset.ssubset_of_ssubset_of_subset ?_ hsub
            exact Finset.ssubset_insert hndiv'
        · unfold updateViaOperands at h
          split at h
          · exact markPush_cases ctx hndiv' h
          · exact markPush_cases ctx hndiv' h
      · unfold updateViaOperands at h
        split at h
        · exact markPush_cases ctx hndiv' h
        · exact markPush_cases ctx hndiv' h

/-- The `compute` loop reaches its fixpoint (or a loud failure) in finitely
many iterations: a fuel bound exists for every state. -/
theorem computeLoop_total {B V L : Nat} (ctx : DACtx B V L) (lcssa : Bool) :
    ∀ (n : Nat) (wl : List (DInst B V)) (s : DAState B V),
      (Finset.univ \ s.divergentValues).card ≤ n → s.worklist = wl →
      ∃ fuel, computeLoop ctx lcssa fuel s ≠ .fuelOut := by
  intro n
  induction n with
  | zero =>
    intro wl
    induction wl with
    | nil =>
      intro s _ hwl
      exact ⟨0, by rw [computeLoop_nil ctx lcssa 0 hwl]; simp⟩
    | cons I rest ihw =>
      intro s hcard hwl
      have huniv : ∀ v : Fin V, v ∈ s.divergentValues := by
        intro v
        have h0 : (Finset.univ \ s.divergentValues).card = 0 := Nat.le_zero.mp hcard
        have hempty := Finset.card_eq_zero.mp h0
        by_contra hv
        have hmem : v ∈ Finset.univ \ s.divergentValues :=
          Finset.mem_sdiff.mpr ⟨Finset.mem_univ v, hv⟩
        rw [hempty] at hmem
        exact absurd hmem (Finset.not_mem_empty v)
      have hstep : computeStep ctx lcssa I { s with worklist := rest } =
          .ok { s with worklist := rest } := by
        unfold computeStep
        by_cases hu : isAlwaysUniform { s with worklist := rest } I.id = true
        · rw [if_pos hu]
        · rw [if_neg hu, if_pos (by simp [isDivergent, huniv])]
      obtain ⟨fuel, hf⟩ := ihw { s with worklist := rest } hcard rfl
      refine ⟨fuel + 1, ?_⟩
      rw [computeLoop_cons ctx lcssa fuel hwl, hstep]
      exact hf
  | succ n ihn =>
    intro wl
    induction wl with
    | nil =>
      intro s _ hwl
      exact ⟨0, by rw [computeLoop_nil ctx lcssa 0 hwl]; simp⟩
    | cons I rest ihw =>
      intro s hcard hwl
      rcases hstep : computeStep ctx lcssa I { s with worklist := rest } with e | s₁
      · refine ⟨1, ?_⟩
        rw [computeLoop_cons ctx lcssa 0 hwl, hstep]
        simp
      · rcases computeStep_cases ctx lcssa hstep with heq | hlt
        · obtain ⟨fuel, hf⟩ := ihw s₁ (by rw [heq]; exact hcard) (by rw [heq])
          refine ⟨fuel + 1, ?_⟩
          rw [computeLoop_cons ctx lcssa fuel hwl, hstep]
          exact hf
        · have hc : (Finset.univ \ s₁.divergentValues).card ≤ n := by
            have h1 : s.divergentValues.card < s₁.divergentValues.card :=
              Finset.card_lt_card hlt
            have h2 : s₁.divergentValues.card ≤ (Finset.univ : Finset (Fin V)).card :=
              Finset.card_le_card (Finset.subset_univ _)
            rw [Finset.card_sdiff (Finset.subset_univ _)] at hcard ⊢
            omega
          obtain ⟨fuel, hf⟩ := ihn s₁.worklist s₁ hc rfl
          refine ⟨fuel + 1, ?_⟩
          rw [computeLoop_cons ctx lcssa fuel hwl, hstep]
          exact hf

/-- Claim C9: `compute` terminates on every finite function model and every
initial state: some fuel (iteration bound) suffices for the worklist loop to
reach its fixpoint or stop at a loud failure, because each value enters
`divergentValues` at most once (iterations that mark nothing only shrink the
worklist). -/
theorem claim_C9 {B V L : Nat} (ctx : DACtx B V L) (lcssa : Bool) (s : DAState B V) :
    ∃ fuel, computeRun ctx lcssa fuel s ≠ CRes.fuelOut := by
  unfold computeRun
  exact computeLoop_total ctx lcssa _ _ _ (le_refl _) rfl

/-- `EvCore` transitions keep the override and divergent sets disjoint. -/
theorem EvCore_disjoint {B V L : Nat} {ctx : DACtx B V L} {s s' : DAState B V}
    (ev : EvCore ctx s s') (hd : Disjoint s.uniformOverrides s.divergentValues) :
    Disjoint s'.uniformOverrides s'.divergentValues := by
  obtain ⟨ho, _, _, _, hnew⟩ := ev
  rw [ho]
  rw [Finset.disjoint_left] at hd ⊢
  intro v hv hv'
  by_cases hvs : v ∈ s.divergentValues
  · exact hd hv hvs
  · exact (hnew v hv' hvs).2 hv

/-- `EvCore` transitions never admit an override into the divergent set. -/
theorem EvCore_override_stable {B V L : Nat} {ctx : DACtx B V L} {s s' : DAState B V}
    {v : Fin V} (ev : EvCore ctx s s') (hov : v ∈ s.uniformOverrides)
    (hnd : v ∉ s.divergentValues) : v ∈ s'.uniformOverrides ∧ v ∉ s'.divergentValues := by
  obtain ⟨ho, _, _, _, hnew⟩ := ev
  rw [ho]
  refine ⟨hov, fun hv => ?_⟩
  exact (hnew v hv hnd).2 hov

/-- Counterexample to claim C7 as stated: calling `markDivergent(v)` and
then `addUniformOverride(v)` (which has no precondition check) leaves `v` in
both sets, so the sets are not disjoint after that operation sequence. -/
theorem claim_C7_counterexample :
    runOps exCtxArgs [.mark 0, .uniform 0] (initState 1 2) = .ok ⟨{0}, ∅, ∅, {0}, []⟩ ∧
      ¬Disjoint (({0} : Finset (Fin 2))) (({0} : Finset (Fin 2))) := by
  constructor
  · decide
  · intro hd
    exact (Finset.disjoint_left.mp hd (Finset.mem_singleton_self 0))
      (Finset.mem_singleton_self 0)

/-- Claim C7, amended: after any sequence of `markDivergent`,
`addUniformOverride` and `compute` calls in which `addUniformOverride` is
never invoked on an already divergent value, the override and divergent sets
stay disjoint; and `markDivergent` fails loudly on a value in
`uniformOverrides` or on a value that is neither instruction nor argument. -/
theorem claim_C7_amended {B V L : Nat} (ctx : DACtx B V L) :
    (∀ (ops : List (DAOp B V)) (s s' : DAState B V),
      Disjoint s.uniformOverrides s.divergentValues →
      goodOpsB ctx ops s = true → runOps ctx ops s = .ok s' →
      Disjoint s'.uniformOverrides s'.divergentValues) ∧
    (∀ (s : DAState B V) (v : Fin V),
      v ∈ s.uniformOverrides ∨ ctx.instOrArg v = false →
      markDivergent ctx s v = .error ()) := by
  constructor
  · intro ops
    induction ops with
    | nil =>
      intro s s' hd _ hrun
      simp only [runOps, Except.ok.injEq] at hrun
      subst hrun
      exact hd
    | cons op rest ih =>
      intro s s' hd hgood hrun
      cases op with
      | mark v =>
        simp only [runOps] at hrun
        simp only [goodOpsB] at hgood
        rcases hmk : markDivergent ctx s v with e | s₁ <;> rw [hmk] at hrun hgood
        · exact Except.noConfusion hrun
        · exact ih s₁ s' (EvCore_disjoint (markDivergent_ev ctx hmk).1 hd) hgood hrun
      | uniform v =>
        simp only [runOps] at hrun
        simp only [goodOpsB, Bool.and_eq_true, Bool.not_eq_true',
          decide_eq_false_iff_not] at hgood
        refine ih _ s' ?_ hgood.2 hrun
        show Disjoint (insert v s.uniformOverrides) s.divergentValues
        exact Finset.disjoint_insert_left.mpr ⟨hgood.1, hd⟩
      | run lcssa fuel =>
        simp only [runOps] at hrun
        simp only [goodOpsB] at hgood
        rcases hcr : computeRun ctx lcssa fuel s with s₁ | _ | _ <;> rw [hcr] at hrun hgood
        · exact ih s₁ s' (EvCore_disjoint (computeRun_ev ctx lcssa hcr) hd) hgood hrun
        · exact Except.noConfusion hrun
        · exact Except.noConfusion hrun
  · intro s v hv
    unfold markDivergent
    rcases hv with hv | hv
    · rw [if_neg]
      simp [isAlwaysUniform, hv]
    · rw [if_neg]
      simp [hv]

/-- Witness for claim C7 (amended) on `exCtxArgs`: a guarded sequence keeps
the sets disjoint, and `markDivergent` on an override fails loudly. -/
theorem claim_C7_witness :
    (Disjoint (initState 1 2).uniformOverrides (initState 1 2).divergentValues ∧
      goodOpsB exCtxArgs [.mark 0, .uniform 1] (initState 1 2) = true ∧
      runOps exCtxArgs [.mark 0, .uniform 1] (initState 1 2) = .ok ⟨{1}, ∅, ∅, {0}, []⟩ ∧
      Disjoint (⟨{1}, ∅, ∅, {0}, []⟩ : DAState 1 2).uniformOverrides
        (⟨{1}, ∅, ∅, {0}, []⟩ : DAState 1 2).divergentValues) ∧
    markDivergent exCtxArgs ⟨{0}, ∅, ∅, ∅, []⟩ 0 = .error () :=
  ⟨⟨by simp [initState], by decide, by decide,
      (claim_C7_amended exCtxArgs).1 [.mark 0, .uniform 1] (initState 1 2) _
        (by simp [initState]) (by decide) (by decide)⟩,
    (claim_C7_amended exCtxArgs).2 ⟨{0}, ∅, ∅, ∅, []⟩ 0 (Or.inl (by decide))⟩

/-- Counterexample to claim C8 as stated: `addUniformOverride(v)` invoked
after `markDivergent(v)` does not retract the divergence of `v`, so `v` is
reported divergent even though `addUniformOverride(v)` was called. -/
theorem claim_C8_counterexample :
    runOps exCtxArgs [.mark 1, .uniform 1] (initState 1 2) = .ok ⟨{1}, ∅, ∅, {1}, []⟩ ∧
      isDivergent (⟨{1}, ∅, ∅, {1}, []⟩ : DAState 1 2) 1 = true ∧
      (1 : Fin 2) ∈ (⟨{1}, ∅, ∅, {1}, []⟩ : DAState 1 2).uniformOverrides :=
  ⟨by decide, by decide, by decide⟩

/-- Claim C8, amended: a value that is a uniform override and not already
divergent when the overriding takes effect is never reported divergent by
any later sequence of public operations. -/
theorem claim_C8_amended {B V L : Nat} (ctx : DACtx B V L) :
    ∀ (ops : List (DAOp B V)) (s s' : DAState B V) (v : Fin V),
      v ∈ s.uniformOverrides → v ∉ s.divergentValues →
      runOps ctx ops s = .ok s' →
      isDivergent s' v = false ∧ v ∈ s'.uniformOverrides := by
  intro ops
  induction ops with
  | nil =>
    intro s s' v hov hnd hrun
    simp only [runOps, Except.ok.injEq] at hrun
    subst hrun
    exact ⟨by simp [isDivergent, hnd], hov⟩
  | cons op rest ih =>
    intro s s' v hov hnd hrun
    cases op with
    | mark w =>
      simp only [runOps] at hrun
      rcases hmk : markDivergent ctx s w with e | s₁ <;> rw [hmk] at hrun
      · exact Except.noConfusion hrun
      · obtain ⟨h1, h2⟩ := EvCore_override_stable (markDivergent_ev ctx hmk).1 hov hnd
        exact ih s₁ s' v h1 h2 hrun
    | uniform w =>
      simp only [runOps] at hrun
      exact ih (addUniformOverride s w) s' v (Finset.mem_insert_of_mem hov) hnd hrun
    | run lcssa fuel =>
      simp only [runOps] at hrun
      rcases hcr : computeRun ctx lcssa fuel s with s₁ | _ | _ <;> rw [hcr] at hrun
      · obtain ⟨h1, h2⟩ := EvCore_override_stable (computeRun_ev ctx lcssa hcr) hov hnd
        exact ih s₁ s' v h1 h2 hrun
      · exact Except.noConfusion hrun
      · exact Except.noConfusion hrun

/-- Witness for claim C8 (amended) on `exCtxArgs`: the override `0` stays
non-divergent across a `markDivergent(1)` and a `compute` run. -/
theorem claim_C8_witness :
    ((0 : Fin 2) ∈ (⟨{0}, ∅, ∅, ∅, []⟩ : DAState 1 2).uniformOverrides) ∧
    ((0 : Fin 2) ∉ (⟨{0}, ∅, ∅, ∅, []⟩ : DAState 1 2).divergentValues) ∧
    (runOps exCtxArgs [.mark 1, .run false 3] ⟨{0}, ∅, ∅, ∅, []⟩ =
      .ok ⟨{0}, ∅, ∅, {1}, []⟩) ∧
    (isDivergent (⟨{0}, ∅, ∅, {1}, []⟩ : DAState 1 2) 0 = false ∧
      (0 : Fin 2) ∈ (⟨{0}, ∅, ∅, {1}, []⟩ : DAState 1 2).uniformOverrides) :=
  ⟨by decide, by decide, by decide,
    claim_C8_amended exCtxArgs [.mark 1, .run false 3] ⟨{0}, ∅, ∅, ∅, []⟩ _ 0
      (by decide) (by decide) (by decide)⟩

/-- Witness for claim C10 on `exGraphLatch`: the loop exit `1` is in the
join set of the latch block `0` and is reported as a loop exit (no block of
the graph is led by a phi). -/
theorem claim_C10_witness :
    (1 : Fin 2) ∈ join_blocks exGraphLatch exBDACtx 0 ∧
      (exBDACtx.leadingPhi 1 = true ∨
        ∃ L, exBDACtx.loopFor 0 = some L ∧ (1 : Fin 2) ∈ exGraphLatch.exitBlocksOf L) :=
  ⟨by decide, claim_C10 exGraphLatch exBDACtx 0 1 (by decide)⟩

/-- A member of the leading phi run of a block is an instruction of the
function, lives in that block, and is a phi. -/
theorem mem_leadingPhis_facts {B V L : Nat} (ctx : DACtx B V L) {b : Fin B} {J : DInst B V}
    (hJ : J ∈ ctx.leadingPhis b) : J ∈ ctx.insts ∧ J.parent = b ∧ J.isPhi = true := by
  unfold DACtx.leadingPhis at hJ
  have hphi := List.mem_takeWhile_imp hJ
  have hmem : J ∈ ctx.instsOf b := (List.takeWhile_sublist _).subset hJ
  unfold DACtx.instsOf at hmem
  obtain ⟨h1, h2⟩ := List.mem_filter.mp hmem
  exact ⟨h1, by simpa using h2, hphi⟩

/-- Users are instructions of the function. -/
theorem mem_users_insts {B V L : Nat} (ctx : DACtx B V L) {v : Fin V} {J : DInst B V}
    (hJ : J ∈ ctx.users v) : J ∈ ctx.insts :=
  (List.mem_filter.mp hJ).1

/-- Instruction ids determine instructions when the id list has no
duplicates. -/
theorem id_inj {B V L : Nat} (ctx : DACtx B V L)
    (hids : (ctx.insts.map DInst.id).Nodup) {T J : DInst B V}
    (hT : T ∈ ctx.insts) (hJ : J ∈ ctx.insts) (h : T.id = J.id) : T = J :=
  List.inj_on_of_nodup_map hids hT hJ h

/-- Characterization of the mark-and-push tail: either the condition was
false and the state untouched, or the value was inserted and its in-region
users pushed. -/
theorem markPush_chars {B V L : Nat} (ctx : DACtx B V L) {s s' : DAState B V} {v : Fin V}
    {c : Bool}
    (h : (if c = true then do
            let s₁ ← markDivergent ctx s v
            Except.ok (pushUsers ctx s₁ v)
          else Except.ok s) = .ok s') :
    (c = false ∧ s' = s) ∨
      (c = true ∧ s'.divergentValues = insert v s.divergentValues ∧
        s'.uniformOverrides = s.uniformOverrides ∧
        s'.divergentJoinBlocks = s.divergentJoinBlocks ∧
        s'.temporalDivergentBlocks = s.temporalDivergentBlocks ∧
        (∀ J, J ∈ s'.worklist → J ∈ ctx.users v ∨ J ∈ s.worklist) ∧
        (∀ J, J ∈ s.worklist → J ∈ s'.worklist)) := by
  cases c
  · simp only [Bool.false_eq_true, if_false, Except.ok.injEq] at h
    exact Or.inl ⟨rfl, h.symm⟩
  · rw [if_pos rfl] at h
    rcases hmk : markDivergent ctx s v with e | s₁ <;> rw [hmk] at h
    · exact Except.noConfusion h
    · have h' : Except.ok (pushUsers ctx s₁ v) = Except.ok s' := h
      simp only [Except.ok.injEq] at h'
      subst h'
      have heq := markDivergent_ok_eq ctx hmk
      subst heq
      right
      refine ⟨rfl, rfl, rfl, rfl, rfl, ?_, ?_⟩
      · intro J hJ
        rcases (mem_pushAll _ _ _).mp hJ with h | h
        · exact Or.inl (List.mem_filter.mp h).1
        · exact Or.inr h
      · intro J hJ
        exact (mem_pushAll _ _ _).mpr (Or.inr hJ)

/-- Only a conditional branch or multiway switch is classified divergent. -/
theorem updateTerminator_ok_true_isCond {B V : Nat} (s : DAState B V) (tk : DTermKind V)
    (h : updateTerminator s tk = .ok true) : tk.isCond = true := by
  unfold updateTerminator at h
  split at h
  · simp at h
  · next hgt =>
    match tk, h with
    | .br (some c), _ => rfl
    | .br none, h => exact Except.noConfusion h
    | .cswitch c (k + 1), _ => rfl
    | .cswitch c 0, h => exact absurd (by simp [DTermKind.numSuccs]) hgt
    | .invoke ops, h => simp at h
    | .ret ops, h => exact absurd (by simp [DTermKind.numSuccs]) hgt
    | .unreach, h => exact absurd (by simp [DTermKind.numSuccs]) hgt
    | .other k, h => exact Except.noConfusion h

/-- A conditional branch or multiway switch whose `updateTerminator` verdict
is false has no divergent operands either (its only operand is the
condition). -/
theorem condTerm_false_noUpdate {B V : Nat} (s : DAState B V) (i : Fin V) (p : Fin B)
    (tk : DTermKind V) (hcond : tk.isCond = true) (h : updateTerminator s tk = .ok false) :
    updateNormalInstruction s ⟨i, p, .term tk⟩ = false := by
  match tk, hcond with
  | .br (some c), _ =>
    unfold updateTerminator at h
    rw [if_neg (by simp [DTermKind.numSuccs])] at h
    simp only [Except.ok.injEq] at h
    simp [updateNormalInstruction, DInst.operands, h]
  | .cswitch c (k + 1), _ =>
    unfold updateTerminator at h
    rw [if_neg (by simp [DTermKind.numSuccs])] at h
    simp only [Except.ok.injEq] at h
    simp [updateNormalInstruction, DInst.operands, h]

/-- In an LCSSA run the join propagation never touches the divergent set. -/
theorem processJoins_true_div {B V L : Nat} (ctx : DACtx B V L) (bl : Option (Fin L)) :
    ∀ (jbs : List (Fin B)) (s s' : DAState B V),
      processJoins ctx true bl jbs s = .ok s' → s'.divergentValues = s.divergentValues := by
  intro jbs
  induction jbs with
  | nil =>
    intro s s' h
    simp only [processJoins, Except.ok.injEq] at h
    subst h
    rfl
  | cons jb rest ih =>
    intro s s' h
    simp only [processJoins, Bool.or_true, if_true] at h
    rw [ih _ _ h]
    split_ifs <;> rfl

/-- In an LCSSA run every join block receives a divergence mark and all of
its leading phis are pushed onto the worklist. -/
theorem processJoins_true_marks {B V L : Nat} (ctx : DACtx B V L) (bl : Option (Fin L)) :
    ∀ (jbs : List (Fin B)) (s s' : DAState B V),
      processJoins ctx true bl jbs s = .ok s' →
      ∀ b ∈ jbs, (b ∈ s'.divergentJoinBlocks ∨ b ∈ s'.temporalDivergentBlocks) ∧
        ∀ J ∈ ctx.leadingPhis b, J ∈ s'.worklist := by
  intro jbs
  induction jbs with
  | nil =>
    intro s s' _ b hb
    exact absurd hb (List.not_mem_nil b)
  | cons jb rest ih =>
    intro s s' h b hb
    simp only [processJoins, Bool.or_true, if_true] at h
    rcases List.mem_cons.mp hb with rfl | hb'
    · obtain ⟨⟨_, _, hj, ht, _⟩, hwl⟩ := processJoins_ev ctx true bl rest _ s' h
      constructor
      · by_cases hx : ctx.loopOf b = bl
        · left
          apply hj
          simp [hx, markBlockJoinDivergent, markBlockTemporalDivergent]
        · right
          apply ht
          simp [hx, markBlockJoinDivergent, markBlockTemporalDivergent]
      · intro J hJ
        apply hwl
        exact (mem_pushAll _ _ _).mpr (Or.inl hJ)
    · exact ih _ s' h b hb'

/-- In an LCSSA run worklist entries after the join propagation are old
entries or instructions of the function. -/
theorem processJoins_true_wlwf {B V L : Nat} (ctx : DACtx B V L) (bl : Option (Fin L)) :
    ∀ (jbs : List (Fin B)) (s s' : DAState B V),
      processJoins ctx true bl jbs s = .ok s' →
      ∀ J, J ∈ s'.worklist → J ∈ s.worklist ∨ J ∈ ctx.insts := by
  intro jbs
  induction jbs with
  | nil =>
    intro s s' h J hJ
    simp only [processJoins, Except.ok.injEq] at h
    subst h
    exact Or.inl hJ
  | cons jb rest ih =>
    intro s s' h J hJ
    simp only [processJoins, Bool.or_true, if_true] at h
    rcases ih _ s' h J hJ with h1 | h1
    · rcases (mem_pushAll _ _ _).mp h1 with h2 | h2
      · exact Or.inr (mem_leadingPhis_facts ctx h2).1
      · left
        revert h2
        split_ifs <;> exact fun h2 => h2
    · exact Or.inr h1

/-- An instruction whose kind is not a terminator kind is no conditional
branch or multiway switch. -/
theorem isCondTerm_false_of_not_term {B V : Nat} (iid : Fin V) (ip : Fin B) (ik : DKind B V)
    (h : ∀ tk : DTermKind V, ik ≠ DKind.term tk) :
    DInst.isCondTerm ⟨iid, ip, ik⟩ = false := by
  cases ik with
  | term tk => exact absurd rfl (h tk)
  | phi hc inc => rfl
  | normal ops => rfl

/-- Transfer of the join-consistency invariant across an iteration that
leaves the state unchanged apart from popping the worklist head, when the
popped head cannot be one of the pending clause phis. -/
theorem joinInv_pop {B V L : Nat} (ctx : DACtx B V L) {D₀ : Finset (Fin V)}
    {I : DInst B V} {rest : List (DInst B V)} {s : DAState B V}
    (hswl : s.worklist = I :: rest)
    (hinv : JoinInv ctx D₀ s)
    (hexc : ∀ b inc, I ∈ ctx.leadingPhis b → I.kind = DKind.phi false inc →
      I.id ∉ s.uniformOverrides →
      (b ∈ s.divergentJoinBlocks ∨ b ∈ s.temporalDivergentBlocks) →
      I.id ∈ s.divergentValues) :
    JoinInv ctx D₀ { s with worklist := rest } := by
  intro T hT hTc hTd hTD b hb
  obtain ⟨hm, hph⟩ := hinv T hT hTc hTd hTD b hb
  refine ⟨hm, fun J hJ inc hk hov => ?_⟩
  rcases hph J hJ inc hk hov with hd | hw
  · exact Or.inl hd
  · rw [hswl] at hw
    rcases List.mem_cons.mp hw with rfl | hw'
    · exact Or.inl (hexc b inc hJ hk hov hm)
    · exact Or.inr hw'

/-- One LCSSA `compute` iteration preserves the join-consistency invariant
and the wellformedness of the worklist. -/
theorem computeStep_joininv {B V L : Nat} (ctx : DACtx B V L) {D₀ : Finset (Fin V)}
    (hids : (ctx.insts.map DInst.id).Nodup)
    {I : DInst B V} {rest : List (DInst B V)} {s s' : DAState B V}
    (hIin : I ∈ ctx.insts)
    (hswl : s.worklist = I :: rest)
    (hwf : ∀ J ∈ s.worklist, J ∈ ctx.insts)
    (hinv : JoinInv ctx D₀ s)
    (hstep : computeStep ctx true I { s with worklist := rest } = .ok s') :
    JoinInv ctx D₀ s' ∧ ∀ J ∈ s'.worklist, J ∈ ctx.insts := by
  have hwfrest : ∀ J ∈ rest, J ∈ ctx.insts := fun J hJ =>
    hwf J (by rw [hswl]; exact List.mem_cons_of_mem I hJ)
  obtain ⟨iid, ip, ik⟩ := I
  unfold computeStep at hstep
  split at hstep
  · next hOVI =>
    simp only [Except.ok.injEq] at hstep
    subst hstep
    refine ⟨joinInv_pop ctx hswl hinv ?_, hwfrest⟩
    intro b inc hlead hk hov _
    exact absurd (by simpa [isAlwaysUniform] using hOVI) hov
  · split at hstep
    · next hDIV =>
      simp only [Except.ok.injEq] at hstep
      subst hstep
      refine ⟨joinInv_pop ctx hswl hinv ?_, hwfrest⟩
      intro b inc hlead hk hov _
      simpa [isDivergent] using hDIV
    · next hNDIV =>
      have hndiv : iid ∉ s.divergentValues := by
        simpa [isDivergent] using hNDIV
      split at hstep
      · next tk heq =>
        subst heq
        split at hstep
        · exact Except.noConfusion hstep
        · next hut =>
          rcases hmk : markDivergent ctx { s with worklist := rest }
              (⟨iid, ip, DKind.term tk⟩ : DInst B V).id with e | s₁ <;> rw [hmk] at hstep
          · exact Except.noConfusion hstep
          · have hpj : processJoins ctx true
                (ctx.loopOf (⟨iid, ip, DKind.term tk⟩ : DInst B V).parent)
                (ctx.joinBlocks ⟨iid, ip, DKind.term tk⟩) s₁ = .ok s' := hstep
            have heq₁ := markDivergent_ok_eq ctx hmk
            have hdivs' : s'.divergentValues = insert iid s.divergentValues := by
              rw [processJoins_true_div ctx _ _ _ _ hpj, heq₁]
            obtain ⟨⟨hovEq, hdsub, hjsub, htsub, _⟩, hwlmono⟩ :=
              processJoins_ev ctx true _ _ s₁ s' hpj
            constructor
            · intro T hT hTc hTd hTD b hb
              by_cases hTI : T.id = iid
              · have hTIeq : T = ⟨iid, ip, DKind.term tk⟩ := id_inj ctx hids hT hIin hTI
                subst hTIeq
                obtain ⟨hm, hph⟩ := processJoins_true_marks ctx _ _ s₁ s' hpj b hb
                exact ⟨hm, fun J hJ inc hk hov => Or.inr (hph J hJ)⟩
              · have hTd0 : T.id ∈ s.divergentValues := by
                  rw [hdivs'] at hTd
                  rcases Finset.mem_insert.mp hTd with h | h
                  · exact absurd h hTI
                  · exact h
                obtain ⟨hm, hph⟩ := hinv T hT hTc hTd0 hTD b hb
                constructor
                · rcases hm with h | h
                  · exact Or.inl (hjsub (by rw [heq₁]; exact h))
                  · exact Or.inr (htsub (by rw [heq₁]; exact h))
                · intro J hJ inc hk hov
                  have hov0 : J.id ∉ s.uniformOverrides := by
                    rw [hovEq, heq₁] at hov
                    exact hov
                  rcases hph J hJ inc hk hov0 with hd | hw
                  · refine Or.inl (hdsub ?_)
                    rw [heq₁]
                    exact Finset.mem_insert_of_mem hd
                  · rw [hswl] at hw
                    rcases List.mem_cons.mp hw with rfl | hw'
                    · exact DKind.noConfusion hk
                    · refine Or.inr (hwlmono J ?_)
                      rw [heq₁]
                      exact hw'
            · intro J hJ
              rcases processJoins_true_wlwf ctx _ _ s₁ s' hpj J hJ with h | h
              · rw [heq₁] at h
                exact hwfrest J h
              · exact h
        · next hutf =>
          unfold updateViaOperands at hstep
          by_cases hcond : tk.isCond = true
          · have hnone : updateNormalInstruction { s with worklist := rest }
                (⟨iid, ip, DKind.term tk⟩ : DInst B V) = false :=
              condTerm_false_noUpdate { s with worklist := rest } iid ip tk hcond hutf
            rcases markPush_chars ctx hstep with ⟨_, hs⟩ | ⟨hc, _⟩
            · subst hs
              refine ⟨joinInv_pop ctx hswl hinv ?_, hwfrest⟩
              intro b inc hlead hk hov _
              exact DKind.noConfusion hk
            · have hc' : updateNormalInstruction { s with worklist := rest }
                  (⟨iid, ip, DKind.term tk⟩ : DInst B V) = true := hc
              rw [hnone] at hc'
              exact Bool.noConfusion hc'
          · rcases markPush_chars ctx hstep with ⟨_, hs⟩ | ⟨_, hdv, hove, hjv, htv, hwl1, hwl2⟩
            · subst hs
              refine ⟨joinInv_pop ctx hswl hinv ?_, hwfrest⟩
              intro b inc hlead hk hov _
              exact DKind.noConfusion hk
            · constructor
              · intro T hT hTc hTd hTD b hb
                by_cases hTI : T.id = iid
                · have hTIeq : T = ⟨iid, ip, DKind.term tk⟩ := id_inj ctx hids hT hIin hTI
                  rw [hTIeq] at hTc
                  have : DInst.isCondTerm (⟨iid, ip, DKind.term tk⟩ : DInst B V) =
                      tk.isCond := rfl
                  rw [this] at hTc
                  exact absurd hTc hcond
                · have hTd0 : T.id ∈ s.divergentValues := by
                    rw [hdv] at hTd
                    rcases Finset.mem_insert.mp hTd with h | h
                    · exact absurd h hTI
                    · exact h
                  obtain ⟨hm, hph⟩ := hinv T hT hTc hTd0 hTD b hb
                  constructor
                  · rw [hjv, htv]
                    exact hm
                  · intro J hJ inc hk hov
                    have hov0 : J.id ∉ s.uniformOverrides := by
                      rw [hove] at hov
                      exact hov
                    rcases hph J hJ inc hk hov0 with hd | hw
                    · rw [hdv]
                      exact Or.inl (Finset.mem_insert_of_mem hd)
                    · rw [hswl] at hw
                      rcases List.mem_cons.mp hw with rfl | hw'
                      · exact DKind.noConfusion hk
                      · exact Or.inr (hwl2 J hw')
              · intro J hJ
                rcases hwl1 J hJ with h | h
                · exact mem_users_insts ctx h
                · exact hwfrest J h
      · next hnterm =>
        unfold updateViaOperands at hstep
        split at hstep
        · next hc0 inc0 heqp =>
          subst heqp
          rcases markPush_chars ctx hstep with ⟨hcfalse, hs⟩ | ⟨_, hdv, hove, hjv, htv, hwl1, hwl2⟩
          · subst hs
            refine ⟨joinInv_pop ctx hswl hinv ?_, hwfrest⟩
            intro b inc hlead hk hov hm
            exfalso
            have hk' : DKind.phi hc0 inc0 = DKind.phi false inc := hk
            obtain ⟨hk1, hk2⟩ := DKind.phi.inj hk'
            subst hk1
            obtain ⟨_, hpar, _⟩ := mem_leadingPhis_facts ctx hlead
            have hpar' : ip = b := hpar
            subst hpar'
            have hupd : updatePHINode { s with worklist := rest } ip false inc0 = false :=
              hcfalse
            unfold updatePHINode at hupd
            split_ifs at hupd with h1 h2
            rcases hm with h | h
            · exact h2 (by simp [isJoinDivergent, h])
            · exact h1 (by simp [isTemporalDivergent, h])
          · constructor
            · intro T hT hTc hTd hTD b hb
              by_cases hTI : T.id = iid
              · have hTIeq : T = ⟨iid, ip, DKind.phi hc0 inc0⟩ := id_inj ctx hids hT hIin hTI
                rw [hTIeq] at hTc
                exact Bool.noConfusion hTc
              · have hTd0 : T.id ∈ s.divergentValues := by
                  rw [hdv] at hTd
                  rcases Finset.mem_insert.mp hTd with h | h
                  · exact absurd h hTI
                  · exact h
                obtain ⟨hm, hph⟩ := hinv T hT hTc hTd0 hTD b hb
                constructor
                · rw [hjv, htv]
                  exact hm
                · intro J hJ inc hk hov
                  have hov0 : J.id ∉ s.uniformOverrides := by
                    rw [hove] at hov
                    exact hov
                  rcases hph J hJ inc hk hov0 with hd | hw
                  · rw [hdv]
                    exact Or.inl (Finset.mem_insert_of_mem hd)
                  · rw [hswl] at hw
                    rcases List.mem_cons.mp hw with rfl | hw'
                    · rw [hdv]
                      exact Or.inl (Finset.mem_insert_self _ _)
                    · exact Or.inr (hwl2 J hw')
            · intro J hJ
              rcases hwl1 J hJ with h | h
              · exact mem_users_insts ctx h
              · exact hwfrest J h
        · next hnphi =>
          rcases markPush_chars ctx hstep with ⟨_, hs⟩ | ⟨_, hdv, hove, hjv, htv, hwl1, hwl2⟩
          · subst hs
            refine ⟨joinInv_pop ctx hswl hinv ?_, hwfrest⟩
            intro b inc hlead hk hov _
            exact absurd hk (hnphi false inc)
          · constructor
            · intro T hT hTc hTd hTD b hb
              by_cases hTI : T.id = iid
              · have hTIeq : T = ⟨iid, ip, ik⟩ := id_inj ctx hids hT hIin hTI
                rw [hTIeq] at hTc
                rw [isCondTerm_false_of_not_term iid ip ik ?_] at hTc
                · exact Bool.noConfusion hTc
                · intro tk htk
                  exact hnterm tk htk
              · have hTd0 : T.id ∈ s.divergentValues := by
                  rw [hdv] at hTd
                  rcases Finset.mem_insert.mp hTd with h | h
                  · exact absurd h hTI
                  · exact h
                obtain ⟨hm, hph⟩ := hinv T hT hTc hTd0 hTD b hb
                constructor
                · rw [hjv, htv]
                  exact hm
                · intro J hJ inc hk hov
                  have hov0 : J.id ∉ s.uniformOverrides := by
                    rw [hove] at hov
                    exact hov
                  rcases hph J hJ inc hk hov0 with hd | hw
                  · rw [hdv]
                    exact Or.inl (Finset.mem_insert_of_mem hd)
                  · rw [hswl] at hw
                    rcases List.mem_cons.mp hw with rfl | hw'
                    · rw [hdv]
                      exact Or.inl (Finset.mem_insert_self _ _)
                    · exact Or.inr (hwl2 J hw')
            · intro J hJ
              rcases hwl1 J hJ with h | h
              · exact mem_users_insts ctx h
              · exact hwfrest J h

/-- A `compute` worklist run that returns a state has drained the
worklist. -/
theorem computeLoop_ok_wl {B V L : Nat} (ctx : DACtx B V L) (lcssa : Bool) :
    ∀ (fuel : Nat) (s s' : DAState B V),
      computeLoop ctx lcssa fuel s = .ok s' → s'.worklist = [] := by
  intro fuel
  induction fuel with
  | zero =>
    intro s s' h
    rcases hwl : s.worklist with _ | ⟨I, rest⟩
    · rw [computeLoop_nil ctx lcssa 0 hwl] at h
      cases h
      exact hwl
    · rw [computeLoop_zero_cons ctx lcssa hwl] at h
      exact CRes.noConfusion h
  | succ fuel ih =>
    intro s s' h
    rcases hwl : s.worklist with _ | ⟨I, rest⟩
    · rw [computeLoop_nil ctx lcssa (fuel + 1) hwl] at h
      cases h
      exact hwl
    · rw [computeLoop_cons ctx lcssa fuel hwl] at h
      rcases hstep : computeStep ctx lcssa I { s with worklist := rest } with e | s₁ <;>
        rw [hstep] at h
      · exact CRes.noConfusion h
      · exact ih s₁ s' h

/-- The join-consistency invariant is preserved along a whole LCSSA
`compute` worklist run. -/
theorem computeLoop_joininv {B V L : Nat} (ctx : DACtx B V L) {D₀ : Finset (Fin V)}
    (hids : (ctx.insts.map DInst.id).Nodup) :
    ∀ (fuel : Nat) (s s' : DAState B V),
      (∀ J ∈ s.worklist, J ∈ ctx.insts) →
      JoinInv ctx D₀ s →
      computeLoop ctx true fuel s = .ok s' →
      JoinInv ctx D₀ s' := by
  intro fuel
  induction fuel with
  | zero =>
    intro s s' hwf hinv h
    rcases hwl : s.worklist with _ | ⟨I, rest⟩
    · rw [computeLoop_nil ctx true 0 hwl] at h
      cases h
      exact hinv
    · rw [computeLoop_zero_cons ctx true hwl] at h
      exact CRes.noConfusion h
  | succ fuel ih =>
    intro s s' hwf hinv h
    rcases hwl : s.worklist with _ | ⟨I, rest⟩
    · rw [computeLoop_nil ctx true (fuel + 1) hwl] at h
      cases h
      exact hinv
    · rw [computeLoop_cons ctx true fuel hwl] at h
      rcases hstep : computeStep ctx true I { s with worklist := rest } with e | s₁ <;>
        rw [hstep] at h
      · exact CRes.noConfusion h
      · have hIin : I ∈ ctx.insts := hwf I (by rw [hwl]; exact List.mem_cons_self I rest)
        obtain ⟨hinv₁, hwf₁⟩ := computeStep_joininv ctx hids hIin hwl hwf hinv hstep
        exact ih s₁ s' hwf₁ hinv₁ h

/-- **C3** (amended).  At the fixpoint of an LCSSA `compute` run
(`compute(is_lcssa = true)`, the case in which the claim's side condition
holds for every join block), every conditional branch or multiway switch
that the run newly classified divergent has all of its join blocks marked
join- or temporal-divergent, and every leading phi of such a join block
that has no constant-or-undef incoming value and is not a uniform override
is in `divergentValues`.  The claim's unqualified "every phi node of b is
in divergentValues" is refuted by `claim_C3_counterexample`. -/
theorem claim_C3_amended {B V L : Nat} (ctx : DACtx B V L)
    (hids : (ctx.insts.map DInst.id).Nodup)
    {fuel : Nat} {s₀ s' : DAState B V}
    (hwl0 : s₀.worklist = [])
    (hrun : computeRun ctx true fuel s₀ = CRes.ok s') :
    ∀ T ∈ ctx.insts, T.isCondTerm = true → T.id ∈ s'.divergentValues →
      T.id ∉ s₀.divergentValues →
      ∀ b ∈ ctx.joinBlocks T,
        (b ∈ s'.divergentJoinBlocks ∨ b ∈ s'.temporalDivergentBlocks) ∧
        ∀ J ∈ ctx.leadingPhis b, ∀ inc, J.kind = DKind.phi false inc →
          J.id ∉ s'.uniformOverrides → J.id ∈ s'.divergentValues := by
  intro T hT hTc hTd hTD b hb
  unfold computeRun at hrun
  have hwfseed : ∀ J ∈ (seedWorklist ctx s₀).worklist, J ∈ ctx.insts := by
    intro J hJ
    unfold seedWorklist at hJ
    rcases (mem_pushAll _ _ _).mp hJ with h | h
    · rcases List.mem_flatMap.mp h with ⟨v, _, hv⟩
      exact mem_users_insts ctx hv
    · rw [hwl0] at h
      exact absurd h (List.not_mem_nil J)
  have hinv0 : JoinInv ctx s₀.divergentValues (seedWorklist ctx s₀) := by
    intro T' _ _ hTd' hTD' b' hb'
    exact absurd hTd' hTD'
  have hinv' := computeLoop_joininv ctx hids fuel _ s' hwfseed hinv0 hrun
  have hwl' := computeLoop_ok_wl ctx true fuel _ s' hrun
  obtain ⟨hm, hph⟩ := hinv' T hT hTc hTd hTD b hb
  refine ⟨hm, fun J hJ inc hk hov => ?_⟩
  rcases hph J hJ inc hk hov with hd | hw
  · exact hd
  · rw [hwl'] at hw
    exact absurd hw (List.not_mem_nil J)

/-- Witness for `claim_C3_amended` on the diamond `exCtxJoin`: the branch
on the divergent condition (value `1`) is newly divergent, its join block
`3` is marked, and the leading phi without constant-or-undef incoming
value (value `3`) ends up divergent. -/
theorem claim_C3_witness :
    ∃ s', computeRun exCtxJoin true 4 ⟨∅, ∅, ∅, {0}, []⟩ = CRes.ok s' ∧
      ((3 : Fin 4) ∈ s'.divergentJoinBlocks ∨ (3 : Fin 4) ∈ s'.temporalDivergentBlocks) ∧
      (3 : Fin 5) ∈ s'.divergentValues := by
  have hrun : computeRun exCtxJoin true 4 ⟨∅, ∅, ∅, {0}, []⟩ =
      CRes.ok ⟨∅, {3}, ∅, insert 3 (insert 1 {0}), []⟩ := by decide
  have h := claim_C3_amended exCtxJoin (by decide) rfl hrun
    ⟨1, 0, .term (.br (some 0))⟩ (by decide) (by decide) (by decide) (by decide) 3 (by decide)
  obtain ⟨hm, hph⟩ := h
  exact ⟨_, hrun, hm, hph ⟨3, 3, .phi false [4]⟩ (by decide) [4] rfl (by decide)⟩

/-- **C3** (counterexample to the literal claim).  On the diamond
`exCtxJoin` the LCSSA fixpoint has the conditional branch (value `1`)
divergent and block `3` in its join set, yet the phi `2` of block `3`,
which has a constant-or-undef incoming value, is not in `divergentValues`:
"every phi node of b is in divergentValues" fails. -/
theorem claim_C3_counterexample :
    ∃ s', computeRun exCtxJoin true 4 ⟨∅, ∅, ∅, {0}, []⟩ = CRes.ok s' ∧
      (1 : Fin 5) ∈ s'.divergentValues ∧
      (⟨1, 0, .term (.br (some 0))⟩ : DInst 4 5) ∈ exCtxJoin.insts ∧
      (3 : Fin 4) ∈ exCtxJoin.joinBlocks ⟨1, 0, .term (.br (some 0))⟩ ∧
      (⟨2, 3, .phi true [4]⟩ : DInst 4 5) ∈ exCtxJoin.insts ∧
      DInst.isPhi (⟨2, 3, .phi true [4]⟩ : DInst 4 5) = true ∧
      (⟨2, 3, .phi true [4]⟩ : DInst 4 5).parent = 3 ∧
      (2 : Fin 5) ∉ s'.divergentValues :=
  ⟨⟨∅, {3}, ∅, insert 3 (insert 1 {0}), []⟩, by decide, by decide, by decide,
    by decide, by decide, by decide, by decide, by decide⟩

/-- The node-split network has no self loops. -/
theorem isEdge_irrefl (G : BGraph) (x : FNode G.N) : G.isEdge x x = false := by
  obtain ⟨t, a⟩ := x
  cases t <;> rfl

/-- A residual step decomposes into an unsaturated forward network edge or
a flow-carrying backward network edge. -/
theorem residStep_cases {G : BGraph} {F : Finset (FEdge G.N)} {a b : FNode G.N}
    (h : residStep G F a b = true) :
    (G.isEdge a b = true ∧ (a, b) ∉ F) ∨ (G.isEdge b a = true ∧ (b, a) ∈ F) := by
  unfold residStep at h
  simp only [Bool.or_eq_true, Bool.and_eq_true, Bool.not_eq_true', decide_eq_false_iff_not,
    decide_eq_true_eq] at h
  exact h

/-- A residual step never stays in place. -/
theorem residStep_ne {G : BGraph} {F : Finset (FEdge G.N)} {a b : FNode G.N}
    (h : residStep G F a b = true) : a ≠ b := by
  intro heq
  subst heq
  rcases residStep_cases h with ⟨he, _⟩ | ⟨he, _⟩ <;>
    rw [isEdge_irrefl] at he <;> exact Bool.noConfusion he

/-- Membership in the derived predecessor lists. -/
theorem mem_preds {G : BGraph} {u p : Fin G.N} : p ∈ G.preds u ↔ u ∈ G.succ p := by
  unfold BGraph.preds
  simp [List.mem_filter, List.mem_finRange]

/-- Erasing a present element removes exactly its own contribution from a
filter count. -/
theorem filter_erase_card {α : Type} [DecidableEq α] (F : Finset α) (e : α)
    (P : α → Prop) [DecidablePred P] (he : e ∈ F) :
    (F.filter P).card = ((F.erase e).filter P).card + (if P e then 1 else 0) := by
  rw [Finset.filter_erase]
  by_cases hP : P e
  · rw [if_pos hP, Finset.card_erase_of_mem (Finset.mem_filter.mpr ⟨he, hP⟩)]
    have h0 : 0 < (F.filter P).card :=
      Finset.card_pos.mpr ⟨e, Finset.mem_filter.mpr ⟨he, hP⟩⟩
    omega
  · rw [if_neg hP, Finset.erase_eq_of_not_mem (fun hmem => hP (Finset.mem_filter.mp hmem).2)]
    omega

/-- Inserting a fresh element adds exactly its own contribution to a filter
count. -/
theorem filter_insert_card {α : Type} [DecidableEq α] (F : Finset α) (e : α)
    (P : α → Prop) [DecidablePred P] (he : e ∉ F) :
    ((insert e F).filter P).card = (F.filter P).card + (if P e then 1 else 0) := by
  rw [Finset.filter_insert]
  by_cases hP : P e
  · rw [if_pos hP, if_pos hP,
      Finset.card_insert_of_not_mem (fun hmem => he (Finset.mem_filter.mp hmem).1)]
  · rw [if_neg hP, if_neg hP]
    omega

/-- The flow toggle of a residual step changes the net outflow by `+1` at
the step's source and `-1` at its target. -/
theorem toggleEdge_excess {G : BGraph} {F : Finset (FEdge G.N)} {p t : FNode G.N}
    (hres : residStep G F p t = true) (x : FNode G.N) :
    excess (toggleEdge F p t) x =
      excess F x + (if x = p then 1 else 0) - (if x = t then 1 else 0) := by
  by_cases hmem : (t, p) ∈ F
  · unfold toggleEdge
    rw [if_pos hmem]
    have h1 : (F.filter (fun e => e.1 = x)).card =
        ((F.erase (t, p)).filter (fun e => e.1 = x)).card + (if t = x then 1 else 0) :=
      filter_erase_card F (t, p) (fun e => e.1 = x) hmem
    have h2 : (F.filter (fun e => e.2 = x)).card =
        ((F.erase (t, p)).filter (fun e => e.2 = x)).card + (if p = x then 1 else 0) :=
      filter_erase_card F (t, p) (fun e => e.2 = x) hmem
    unfold excess outdeg indeg
    by_cases hxt : x = t <;> by_cases hxp : x = p
    · exact absurd (hxp.symm.trans hxt) (residStep_ne hres)
    · rw [if_pos hxt.symm] at h1
      rw [if_neg (fun h => hxp h.symm)] at h2
      rw [if_neg hxp, if_pos hxt]
      omega
    · rw [if_neg (fun h => hxt h.symm)] at h1
      rw [if_pos hxp.symm] at h2
      rw [if_pos hxp, if_neg hxt]
      omega
    · rw [if_neg (fun h => hxt h.symm)] at h1
      rw [if_neg (fun h => hxp h.symm)] at h2
      rw [if_neg hxp, if_neg hxt]
      omega
  · unfold toggleEdge
    rw [if_neg hmem]
    have hnot : (p, t) ∉ F := by
      rcases residStep_cases hres with ⟨_, hn⟩ | ⟨_, hi⟩
      · exact hn
      · exact absurd hi hmem
    have h1 : ((insert (p, t) F).filter (fun e => e.1 = x)).card =
        (F.filter (fun e => e.1 = x)).card + (if p = x then 1 else 0) :=
      filter_insert_card F (p, t) (fun e => e.1 = x) hnot
    have h2 : ((insert (p, t) F).filter (fun e => e.2 = x)).card =
        (F.filter (fun e => e.2 = x)).card + (if t = x then 1 else 0) :=
      filter_insert_card F (p, t) (fun e => e.2 = x) hnot
    unfold excess outdeg indeg
    by_cases hxt : x = t <;> by_cases hxp : x = p
    · exact absurd (hxp.symm.trans hxt) (residStep_ne hres)
    · rw [if_neg (fun h => hxp h.symm)] at h1
      rw [if_pos hxt.symm] at h2
      rw [if_neg hxp, if_pos hxt]
      omega
    · rw [if_pos hxp.symm] at h1
      rw [if_neg (fun h => hxt h.symm)] at h2
      rw [if_pos hxp, if_neg hxt]
      omega
    · rw [if_neg (fun h => hxp h.symm)] at h1
      rw [if_neg (fun h => hxt h.symm)] at h2
      rw [if_neg hxp, if_neg hxt]
      omega

/-- The flow toggle of a residual step keeps every edge a network edge. -/
theorem toggleEdge_valid {G : BGraph} {F : Finset (FEdge G.N)} {p t : FNode G.N}
    (hval : ∀ e ∈ F, G.isEdge e.1 e.2 = true) (hres : residStep G F p t = true) :
    ∀ e ∈ toggleEdge F p t, G.isEdge e.1 e.2 = true := by
  unfold toggleEdge
  split_ifs with hmem
  · exact fun e he => hval e (Finset.mem_of_mem_erase he)
  · intro e he
    rcases Finset.mem_insert.mp he with rfl | he'
    · rcases residStep_cases hres with ⟨he1, _⟩ | ⟨_, hi⟩
      · exact he1
      · exact absurd hi hmem
    · exact hval e he'

/-- Membership away from the toggled pair is untouched. -/
theorem toggleEdge_mem_iff {N : Nat} (F : Finset (FEdge N)) (p t : FNode N) {e : FEdge N}
    (h1 : e ≠ (t, p)) (h2 : e ≠ (p, t)) : e ∈ toggleEdge F p t ↔ e ∈ F := by
  unfold toggleEdge
  split_ifs with hmem
  · rw [Finset.mem_erase]
    exact ⟨fun h => h.2, fun h => ⟨h1, h⟩⟩
  · rw [Finset.mem_insert]
    exact ⟨fun h => h.resolve_left (fun hc => absurd hc h2), Or.inr⟩

/-- Residual steps not involving the toggled target are untouched. -/
theorem residStep_toggleEdge {G : BGraph} {F : Finset (FEdge G.N)} {p t a b : FNode G.N}
    (ha : t ≠ a) (hb : t ≠ b) :
    residStep G (toggleEdge F p t) a b = residStep G F a b := by
  have e1 : decide ((a, b) ∈ toggleEdge F p t) = decide ((a, b) ∈ F) :=
    decide_eq_decide.mpr (toggleEdge_mem_iff F p t
      (fun hc => ha (congrArg Prod.fst hc).symm)
      (fun hc => hb (congrArg Prod.snd hc).symm))
  have e2 : decide ((b, a) ∈ toggleEdge F p t) = decide ((b, a) ∈ F) :=
    decide_eq_decide.mpr (toggleEdge_mem_iff F p t
      (fun hc => hb (congrArg Prod.fst hc).symm)
      (fun hc => ha (congrArg Prod.snd hc).symm))
  unfold residStep
  rw [e1, e2]

/-- Transfer a chain along an implication that holds on the chain's
elements. -/
theorem chain'_congr_mem {α : Type} {R S : α → α → Prop} :
    ∀ {l : List α}, (∀ a ∈ l, ∀ b ∈ l, R a b → S a b) → List.Chain' R l →
      List.Chain' S l := by
  intro l
  induction l with
  | nil => exact fun _ _ => List.chain'_nil
  | cons a l ih =>
    intro himp hch
    cases l with
    | nil => exact List.chain'_singleton a
    | cons b l' =>
      rw [List.chain'_cons] at hch ⊢
      refine ⟨himp a (by simp) b (by simp) hch.1, ih ?_ hch.2⟩
      intro x hx y hy
      exact himp x (List.mem_cons_of_mem a hx) y (List.mem_cons_of_mem a hy)

/-- Along a duplicate-free reversed residual chain, the walk of toggles
keeps every edge a network edge and changes the net outflow by `+1` at the
chain's last node and `-1` at its head. -/
theorem toggleWalk_props {G : BGraph} :
    ∀ (rs : List (FNode G.N)) (F : Finset (FEdge G.N)),
      rs.Nodup →
      List.Chain' (fun a b => residStep G F b a = true) rs →
      (∀ e ∈ F, G.isEdge e.1 e.2 = true) →
      (∀ e ∈ toggleWalk rs F, G.isEdge e.1 e.2 = true) ∧
      ∀ x, excess (toggleWalk rs F) x =
        excess F x + (if rs.getLast? = some x then 1 else 0) -
          (if rs.head? = some x then 1 else 0) := by
  intro rs
  induction rs with
  | nil =>
    intro F _ _ hval
    exact ⟨by simpa [toggleWalk] using hval, fun x => by simp [toggleWalk]⟩
  | cons t rest ih =>
    intro F hnd hch hval
    cases rest with
    | nil =>
      refine ⟨by simpa [toggleWalk] using hval, fun x => ?_⟩
      simp only [toggleWalk, List.getLast?_singleton, List.head?_cons]
      omega
    | cons p rest' =>
      have hstep : residStep G F p t = true := (List.chain'_cons.mp hch).1
      have htnotl : t ∉ p :: rest' := (List.nodup_cons.mp hnd).1
      have hnd' : (p :: rest').Nodup := (List.nodup_cons.mp hnd).2
      have hch' : List.Chain'
          (fun a b => residStep G (toggleEdge F p t) b a = true) (p :: rest') := by
        refine chain'_congr_mem ?_ (List.chain'_cons.mp hch).2
        intro a ha b hb hr
        rw [residStep_toggleEdge (fun hc => htnotl (by rw [hc]; exact hb))
          (fun hc => htnotl (by rw [hc]; exact ha))]
        exact hr
      obtain ⟨hval', hex'⟩ :=
        ih (toggleEdge F p t) hnd' hch' (toggleEdge_valid hval hstep)
      have e : toggleWalk (t :: p :: rest') F = toggleWalk (p :: rest') (toggleEdge F p t) :=
        rfl
      refine ⟨by rw [e]; exact hval', fun x => ?_⟩
      rw [e, hex' x, toggleEdge_excess hstep x]
      simp only [List.getLast?_cons_cons, List.head?_cons, Option.some.injEq]
      generalize (if (p :: rest').getLast? = some x then (1 : Int) else 0) = c
      by_cases hp : x = p <;> by_cases ht : x = t
      · rw [if_pos hp, if_pos ht, if_pos hp.symm, if_pos ht.symm]
        omega
      · rw [if_pos hp, if_neg ht, if_pos hp.symm, if_neg (fun h => ht h.symm)]
        omega
      · rw [if_neg hp, if_pos ht, if_neg (fun h => hp h.symm), if_pos ht.symm]
        omega
      · rw [if_neg hp, if_neg ht, if_neg (fun h => hp h.symm), if_neg (fun h => ht h.symm)]
        omega

/-- Toggling along a duplicate-free residual chain from the sink back to
the source augments the flow value by one. -/
theorem toggleWalk_isFlow {G : BGraph} {F : Finset (FEdge G.N)} {s t : FNode G.N} {k : Nat}
    (hF : IsFlow G F s t k) (hst : s ≠ t) {rs : List (FNode G.N)}
    (hnd : rs.Nodup)
    (hch : List.Chain' (fun a b => residStep G F b a = true) rs)
    (hhead : rs.head? = some t) (hlast : rs.getLast? = some s) :
    IsFlow G (toggleWalk rs F) s t (k + 1) := by
  obtain ⟨hval, hex_s, hex0⟩ := hF
  obtain ⟨hval', hex'⟩ := toggleWalk_props rs F hnd hch hval
  refine ⟨hval', ?_, ?_⟩
  · rw [hex' s, hex_s, hlast, hhead, if_pos rfl,
      if_neg (fun hc => hst (Option.some.inj hc).symm)]
    push_cast
    ring
  · intro x hxs hxt
    rw [hex' x, hex0 x hxs hxt, hlast, hhead,
      if_neg (fun hc => hxs (Option.some.inj hc).symm),
      if_neg (fun hc => hxt (Option.some.inj hc).symm)]
    ring

/-- Everything the expansion pushes is one residual step away (no loop
restriction). -/
theorem expandNode_residStep {G : BGraph} {flow : Finset (FEdge G.N)}
    {node a : FNode G.N} {vs : Finset (FNode G.N)}
    (h : a ∈ expandNode G flow none node vs) : residStep G flow node a = true := by
  obtain ⟨tb, u⟩ := node
  cases tb
  · simp only [expandNode, List.mem_append, List.mem_map, List.mem_filter] at h
    rcases h with h | h
    · split at h
      · next hc =>
        simp only [List.mem_singleton] at h
        subst h
        simp only [residStep, BGraph.isEdge, inN, outN, Bool.or_eq_true, Bool.and_eq_true,
          Bool.not_eq_true', decide_eq_false_iff_not, decide_eq_true_eq, decide_eq_true_eq]
        exact Or.inl (by simpa using hc.2)
      · simp at h
    · obtain ⟨p, hp, rfl⟩ := h
      simp only [List.mem_filter, loopContains, Bool.true_and, Bool.and_eq_true,
        Bool.not_eq_true', decide_eq_false_iff_not, decide_eq_true_eq] at hp
      have hsucc : u ∈ G.succ p := mem_preds.mp hp.1
      simp only [residStep, BGraph.isEdge, inN, outN, Bool.or_eq_true, Bool.and_eq_true,
        Bool.not_eq_true', decide_eq_false_iff_not, decide_eq_true_eq, hsucc]
      right
      exact ⟨by simp, hp.2.2⟩
  · simp only [expandNode, List.mem_append, List.mem_map, List.mem_filter] at h
    rcases h with h | h
    · obtain ⟨s, hs, rfl⟩ := h
      simp only [List.mem_filter, loopContains, Bool.true_and, Bool.and_eq_true,
        Bool.not_eq_true', decide_eq_false_iff_not] at hs
      simp only [residStep, BGraph.isEdge, inN, outN, Bool.or_eq_true, Bool.and_eq_true,
        Bool.not_eq_true', decide_eq_false_iff_not, decide_eq_true_eq, hs.1]
      left
      exact ⟨by simp [hs.1], hs.2.2⟩
    · split at h
      · next hc =>
        simp only [List.mem_singleton] at h
        subst h
        simp only [residStep, BGraph.isEdge, inN, outN, Bool.or_eq_true, Bool.and_eq_true,
          Bool.not_eq_true', decide_eq_false_iff_not, decide_eq_true_eq]
        right
        exact ⟨by simp, hc.2⟩
      · simp at h

/-- Every unvisited residual neighbour is pushed by the expansion (no loop
restriction). -/
theorem residStep_mem_expandNode {G : BGraph} {flow : Finset (FEdge G.N)}
    {node a : FNode G.N} {vs : Finset (FNode G.N)}
    (hres : residStep G flow node a = true) (hnv : a ∉ vs) :
    a ∈ expandNode G flow none node vs := by
  obtain ⟨tb, u⟩ := node
  obtain ⟨ta, w⟩ := a
  rcases residStep_cases hres with ⟨he, hnf⟩ | ⟨he, hf⟩
  · cases tb <;> cases ta
    · exact absurd he (by simp [BGraph.isEdge])
    · have hw : u = w := by simpa [BGraph.isEdge] using he
      subst hw
      simp only [expandNode, List.mem_append]
      left
      rw [if_pos ⟨by simpa [outN] using hnv, by simpa [outN] using hnf⟩]
      simp [outN]
    · have hw : w ∈ G.succ u := by simpa [BGraph.isEdge] using he
      simp only [expandNode, List.mem_append, List.mem_map, List.mem_filter]
      left
      refine ⟨w, ?_, rfl⟩
      simp only [List.mem_filter, loopContains, Bool.true_and, Bool.and_eq_true,
        Bool.not_eq_true', decide_eq_false_iff_not]
      exact ⟨hw, by simpa [inN] using hnv, by simpa [inN] using hnf⟩
    · exact absurd he (by simp [BGraph.isEdge])
  · cases tb <;> cases ta
    · exact absurd he (by simp [BGraph.isEdge])
    · have hw : u ∈ G.succ w := by simpa [BGraph.isEdge] using he
      simp only [expandNode, List.mem_append, List.mem_map, List.mem_filter]
      right
      refine ⟨w, ?_, rfl⟩
      simp only [List.mem_filter, loopContains, Bool.true_and, Bool.and_eq_true,
        Bool.not_eq_true', decide_eq_false_iff_not, decide_eq_true_eq]
      exact ⟨mem_preds.mpr hw, by simpa [outN] using hnv, by simpa [outN] using hf⟩
    · have hw : w = u := by simpa [BGraph.isEdge] using he
      subst hw
      simp only [expandNode, List.mem_append]
      right
      rw [if_pos ⟨by simpa [inN] using hnv, by simpa [inN] using hf⟩]
      simp [inN]
    · exact absurd he (by simp [BGraph.isEdge])

/-- Popping an unsettled node preserves the depth-first-search invariant:
the popped node moves into the visited set and every pushed neighbour gets
it as parent. -/
theorem DFSInv_step (G : BGraph) (flow : Finset (FEdge G.N)) (source : FNode G.N)
    {node : FNode G.N} {stack : List (FNode G.N)} {visited : Finset (FNode G.N)}
    {parent : FNode G.N → Option (FNode G.N)}
    (hinv : DFSInv G flow source (node :: stack) visited parent) :
    DFSInv G flow source
      (List.foldl (fun st x => x :: st) stack
        (expandNode G flow none node (insert node visited)))
      (insert node visited)
      (fun x => if x ∈ expandNode G flow none node (insert node visited) then some node
        else parent x) := by
  obtain ⟨hvis, hstk⟩ := hinv
  have hpush : ∀ a ∈ expandNode G flow none node (insert node visited),
      a ∉ insert node visited :=
    expandNode_not_visited G flow none node (insert node visited)
  have htransfer : ∀ (cs : List (FNode G.N)),
      (∀ z ∈ cs, z ∈ insert node visited) →
      List.Chain' (fun a b => parent b = some a) cs →
      List.Chain' (fun a b =>
        (if b ∈ expandNode G flow none node (insert node visited) then some node
          else parent b) = some a) cs := by
    intro cs hsub hch
    refine chain'_congr_mem ?_ hch
    intro a _ b hb hab
    rw [if_neg (fun hc => hpush b hc (hsub b hb))]
    exact hab
  have hnode := hstk node (List.mem_cons_self node stack)
  obtain ⟨cs₀, hh₀, hl₀, hnd₀, hr₀, hp₀, hm₀⟩ := hnode
  have hm₀' : ∀ z ∈ cs₀, z ∈ insert node visited := by
    intro z hz
    rcases hm₀ z hz with h | h
    · exact Finset.mem_insert_of_mem h
    · rw [h]
      exact Finset.mem_insert_self _ _
  constructor
  · intro y hy
    rcases Finset.mem_insert.mp hy with rfl | hy'
    · exact ⟨cs₀, hh₀, hl₀, hnd₀, hr₀, htransfer cs₀ hm₀' hp₀, hm₀'⟩
    · obtain ⟨cs, hh, hl, hnd, hr, hp, hm⟩ := hvis y hy'
      have hm' : ∀ z ∈ cs, z ∈ insert node visited :=
        fun z hz => Finset.mem_insert_of_mem (hm z hz)
      exact ⟨cs, hh, hl, hnd, hr, htransfer cs hm' hp, hm'⟩
  · intro y hy
    rw [foldl_cons_eq, List.mem_append, List.mem_reverse] at hy
    by_cases hyp : y ∈ expandNode G flow none node (insert node visited)
    · refine ⟨cs₀ ++ [y], ?_, List.getLast?_concat _, ?_, ?_, ?_, ?_⟩
      · cases cs₀ with
        | nil => exact Option.noConfusion hh₀
        | cons c cs₀' => simpa using hh₀
      · rw [List.nodup_append]
        exact ⟨hnd₀, List.nodup_singleton y,
          fun a ha hay => hpush y hyp
            (by rw [← List.mem_singleton.mp hay]; exact hm₀' a ha)⟩
      · rw [List.chain'_append]
        refine ⟨hr₀, List.chain'_singleton y, ?_⟩
        intro x hx z hz
        rw [hl₀] at hx
        rw [List.head?_singleton] at hz
        cases Option.some.inj hx
        cases Option.some.inj hz
        exact expandNode_residStep hyp
      · rw [List.chain'_append]
        refine ⟨htransfer cs₀ hm₀' hp₀, List.chain'_singleton y, ?_⟩
        intro x hx z hz
        rw [hl₀] at hx
        rw [List.head?_singleton] at hz
        cases Option.some.inj hx
        cases Option.some.inj hz
        exact if_pos hyp
      · intro z hz
        rcases List.mem_append.mp hz with h | h
        · exact Or.inl (hm₀' z h)
        · exact Or.inr (List.mem_singleton.mp h)
    · rcases hy with hyp' | hys
      · exact absurd hyp' hyp
      · obtain ⟨cs, hh, hl, hnd, hr, hp, hm⟩ := hstk y (List.mem_cons_of_mem node hys)
        refine ⟨cs, hh, hl, hnd, hr, ?_, ?_⟩
        · refine chain'_congr_mem ?_ hp
          intro a _ b hb hab
          have hbn : b ∉ expandNode G flow none node (insert node visited) := by
            intro hc
            rcases hm b hb with h | h
            · exact hpush b hc (Finset.mem_insert_of_mem h)
            · rw [h] at hc
              exact hyp hc
          show (if b ∈ expandNode G flow none node (insert node visited) then some node
            else parent b) = some a
          rw [if_neg hbn]
          exact hab
        · intro z hz
          rcases hm z hz with h | h
          · exact Or.inl (Finset.mem_insert_of_mem h)
          · exact Or.inr h

/-- When the depth-first search of `findPath` returns a sink, the parent
map records a duplicate-free residual chain from the source to it. -/
theorem findPathLoop_some_chain (G : BGraph) (flow : Finset (FEdge G.N))
    (sinks : List (FNode G.N)) (source : FNode G.N) :
    ∀ (stack : List (FNode G.N)) (visited : Finset (FNode G.N))
      (parent : FNode G.N → Option (FNode G.N)),
      DFSInv G flow source stack visited parent →
      ∀ snk par, findPathLoop G flow none sinks stack visited parent = some (snk, par) →
        snk ∈ sinks ∧ ∃ cs : List (FNode G.N), cs.head? = some source ∧
          cs.getLast? = some snk ∧ cs.Nodup ∧
          List.Chain' (fun a b => residStep G flow a b = true) cs ∧
          List.Chain' (fun a b => par b = some a) cs := by
  intro stack visited parent
  induction stack, visited, parent using findPathLoop.induct G flow none sinks with
  | case1 visited parent =>
    intro _ snk par hstep
    rw [findPathLoop.eq_def] at hstep
    exact Option.noConfusion hstep
  | case2 node stack visited parent hsink =>
    intro hinv snk par hstep
    rw [findPathLoop.eq_def] at hstep
    have hstep2 : (if node ∈ sinks then some (node, parent)
        else findPathLoop G flow none sinks
          (List.foldl (fun st x => x :: st) stack
            (expandNode G flow none node (insert node visited)))
          (insert node visited)
          (fun x => if x ∈ expandNode G flow none node (insert node visited) then some node
            else parent x)) = some (snk, par) := hstep
    rw [if_pos hsink] at hstep2
    have h3 := Option.some.inj hstep2
    have hsnk : snk = node := (congrArg Prod.fst h3).symm
    have hpar : par = parent := (congrArg Prod.snd h3).symm
    subst hsnk
    subst hpar
    obtain ⟨cs, hh, hl, hnd, hr, hp, _⟩ := hinv.2 snk (List.mem_cons_self snk stack)
    exact ⟨hsink, cs, hh, hl, hnd, hr, hp⟩
  | case3 node stack visited parent visited' hns pushes ih =>
    intro hinv snk par hstep
    rw [findPathLoop.eq_def] at hstep
    have hstep2 : findPathLoop G flow none sinks
        (List.foldl (fun st x => x :: st) stack
          (expandNode G flow none node (insert node visited)))
        (insert node visited)
        (fun x => if x ∈ expandNode G flow none node (insert node visited) then some node
          else parent x) = some (snk, par) := by
      have h' : (if node ∈ sinks then some (node, parent)
          else findPathLoop G flow none sinks
            (List.foldl (fun st x => x :: st) stack
              (expandNode G flow none node (insert node visited)))
            (insert node visited)
            (fun x => if x ∈ expandNode G flow none node (insert node visited) then some node
              else parent x)) = some (snk, par) := hstep
      rw [if_neg hns] at h'
      exact h'
    exact ih (DFSInv_step G flow source hinv) snk par hstep2

/-- When the depth-first search of `findPath` returns empty-handed, some
residually closed set contains the stack and the visited set and avoids
every sink. -/
theorem findPathLoop_none_closure (G : BGraph) (flow : Finset (FEdge G.N))
    (sinks : List (FNode G.N)) :
    ∀ (stack : List (FNode G.N)) (visited : Finset (FNode G.N))
      (parent : FNode G.N → Option (FNode G.N)),
      (∀ x ∈ visited, ∀ y, residStep G flow x y = true → y ∈ visited ∨ y ∈ stack) →
      (∀ k ∈ sinks, k ∉ visited) →
      findPathLoop G flow none sinks stack visited parent = none →
      ∃ S : Finset (FNode G.N), visited ⊆ S ∧ (∀ x ∈ stack, x ∈ S) ∧
        (∀ k ∈ sinks, k ∉ S) ∧
        ∀ x ∈ S, ∀ y, residStep G flow x y = true → y ∈ S := by
  intro stack visited parent
  induction stack, visited, parent using findPathLoop.induct G flow none sinks with
  | case1 visited parent =>
    intro hclosed hsk _
    exact ⟨visited, Finset.Subset.refl _, fun x hx => absurd hx (List.not_mem_nil x),
      hsk, fun x hx y hy => (hclosed x hx y hy).resolve_right (List.not_mem_nil y)⟩
  | case2 node stack visited parent hsink =>
    intro _ _ hstep
    rw [findPathLoop.eq_def] at hstep
    have hstep2 : (if node ∈ sinks then some (node, parent)
        else findPathLoop G flow none sinks
          (List.foldl (fun st x => x :: st) stack
            (expandNode G flow none node (insert node visited)))
          (insert node visited)
          (fun x => if x ∈ expandNode G flow none node (insert node visited) then some node
            else parent x)) = none := hstep
    rw [if_pos hsink] at hstep2
    exact Option.noConfusion hstep2
  | case3 node stack visited parent visited' hns pushes ih =>
    intro hclosed hsk hstep
    rw [findPathLoop.eq_def] at hstep
    have hstep2 : findPathLoop G flow none sinks
        (List.foldl (fun st x => x :: st) stack
          (expandNode G flow none node (insert node visited)))
        (insert node visited)
        (fun x => if x ∈ expandNode G flow none node (insert node visited) then some node
          else parent x) = none := by
      have h' : (if node ∈ sinks then some (node, parent)
          else findPathLoop G flow none sinks
            (List.foldl (fun st x => x :: st) stack
              (expandNode G flow none node (insert node visited)))
            (insert node visited)
            (fun x => if x ∈ expandNode G flow none node (insert node visited) then some node
              else parent x)) = none := hstep
      rw [if_neg hns] at h'
      exact h'
    have hclosed' : ∀ x ∈ insert node visited, ∀ y, residStep G flow x y = true →
        y ∈ insert node visited ∨
          y ∈ List.foldl (fun st x => x :: st) stack
            (expandNode G flow none node (insert node visited)) := by
      intro x hx y hy
      rw [foldl_cons_eq, List.mem_append, List.mem_reverse]
      rcases Finset.mem_insert.mp hx with rfl | hx'
      · by_cases hyv : y ∈ insert x visited
        · exact Or.inl hyv
        · exact Or.inr (Or.inl (residStep_mem_expandNode hy hyv))
      · rcases hclosed x hx' y hy with h | h
        · exact Or.inl (Finset.mem_insert_of_mem h)
        · rcases List.mem_cons.mp h with rfl | h'
          · exact Or.inl (Finset.mem_insert_self _ _)
          · exact Or.inr (Or.inr h')
    have hsk' : ∀ k ∈ sinks, k ∉ insert node visited := by
      intro k hk hmem
      rcases Finset.mem_insert.mp hmem with rfl | h
      · exact hns hk
      · exact hsk k hk h
    obtain ⟨S, hS1, hS2, hS3, hS4⟩ := ih hclosed' hsk' hstep2
    refine ⟨S, ?_, ?_, hS3, hS4⟩
    · exact fun x hx => hS1 (Finset.mem_insert_of_mem hx)
    · intro x hx
      rcases List.mem_cons.mp hx with rfl | hx'
      · exact hS1 (Finset.mem_insert_self _ _)
      · refine hS2 x ?_
        rw [foldl_cons_eq, List.mem_append]
        exact Or.inr hx'

/-- A successful `findPath` returns a sink and a parent map recording a
duplicate-free residual chain from the source to it. -/
theorem findPath_some_chain {G : BGraph} {flow : Finset (FEdge G.N)}
    {source : FNode G.N} {sinks : List (FNode G.N)} {snk : FNode G.N}
    {par : FNode G.N → Option (FNode G.N)}
    (h : findPath G flow none source sinks = some (snk, par)) :
    snk ∈ sinks ∧ ∃ cs : List (FNode G.N), cs.head? = some source ∧
      cs.getLast? = some snk ∧ cs.Nodup ∧
      List.Chain' (fun a b => residStep G flow a b = true) cs ∧
      List.Chain' (fun a b => par b = some a) cs := by
  unfold findPath at h
  refine findPathLoop_some_chain G flow sinks source [source] ∅ (fun _ => none) ?_ snk par h
  constructor
  · intro y hy
    exact absurd hy (Finset.not_mem_empty y)
  · intro y hy
    rw [List.mem_singleton] at hy
    subst hy
    exact ⟨[y], rfl, rfl, List.nodup_singleton y, List.chain'_singleton y,
      List.chain'_singleton y, fun z hz => Or.inr (List.mem_singleton.mp hz)⟩

/-- A failing `findPath` exhibits a residually closed set containing the
source and avoiding every sink. -/
theorem findPath_none_closure {G : BGraph} {flow : Finset (FEdge G.N)}
    {source : FNode G.N} {sinks : List (FNode G.N)}
    (h : findPath G flow none source sinks = none) :
    ∃ S : Finset (FNode G.N), source ∈ S ∧ (∀ k ∈ sinks, k ∉ S) ∧
      ∀ x ∈ S, ∀ y, residStep G flow x y = true → y ∈ S := by
  unfold findPath at h
  obtain ⟨S, _, hS2, hS3, hS4⟩ := findPathLoop_none_closure G flow sinks [source] ∅
    (fun _ => none) (fun x hx => absurd hx (Finset.not_mem_empty x))
    (fun k _ => Finset.not_mem_empty k) h
  exact ⟨S, hS2 source (List.mem_singleton_self source), hS3, hS4⟩

/-- `injectFlow` walks the recorded parent chain and performs exactly the
toggles of the reversed chain, provided the fuel covers the chain. -/
theorem injectFlow_eq_toggleWalk {N : Nat} (parent : FNode N → Option (FNode N))
    (source : FNode N) :
    ∀ (rs : List (FNode N)) (F : Finset (FEdge N)) (fuel : Nat) (hd : FNode N),
      rs.head? = some hd →
      rs.Nodup →
      List.Chain' (fun a b => parent a = some b) rs →
      rs.getLast? = some source →
      rs.length ≤ fuel + 1 →
      injectFlow parent source fuel hd F = toggleWalk rs F := by
  intro rs
  induction rs with
  | nil =>
    intro F fuel hd h
    exact absurd h (by simp)
  | cons t rest ih =>
    intro F fuel hd hhd hnd hch hlast hlen
    have hdt : t = hd := Option.some.inj hhd
    subst hdt
    cases rest with
    | nil =>
      have hts : t = source := Option.some.inj hlast
      subst hts
      cases fuel with
      | zero => rfl
      | succ f =>
        have e1 : injectFlow parent t (f + 1) t F =
            (if t = t then F else
              match parent t with
              | none => F
              | some prev =>
                injectFlow parent t f prev
                  (if (t, prev) ∈ F then F.erase (t, prev) else insert (prev, t) F)) := rfl
        rw [e1, if_pos rfl]
        rfl
    | cons p rest' =>
      have hlast' : (p :: rest').getLast? = some source := by
        rw [List.getLast?_cons_cons] at hlast
        exact hlast
      have hsrc_mem : source ∈ p :: rest' := by
        obtain ⟨hne, heq⟩ := List.mem_getLast?_eq_getLast (Option.mem_def.mpr hlast')
        rw [heq]
        exact List.getLast_mem hne
      have hts : t ≠ source := by
        intro h
        rw [h] at hnd
        exact (List.nodup_cons.mp hnd).1 hsrc_mem
      have hpar : parent t = some p := (List.chain'_cons.mp hch).1
      cases fuel with
      | zero =>
        exfalso
        simp only [List.length_cons] at hlen
        omega
      | succ f =>
        have e1 : injectFlow parent source (f + 1) t F =
            (if t = source then F else
              match parent t with
              | none => F
              | some prev =>
                injectFlow parent source f prev
                  (if (t, prev) ∈ F then F.erase (t, prev) else insert (prev, t) F)) := rfl
        rw [e1, if_neg hts, hpar]
        have e2 : toggleWalk (t :: p :: rest') F = toggleWalk (p :: rest') (toggleEdge F p t) :=
          rfl
        rw [e2]
        refine ih (toggleEdge F p t) f p rfl (List.nodup_cons.mp hnd).2
          (List.chain'_cons.mp hch).2 hlast' ?_
        simp only [List.length_cons] at hlen ⊢
        omega

/-- Summing the net outflow over a node set counts the edges leaving the
set minus the edges entering it. -/
theorem sum_excess {N : Nat} (F : Finset (FEdge N)) (S : Finset (FNode N)) :
    ∑ x ∈ S, excess F x =
      ((F.filter (fun e => e.1 ∈ S ∧ e.2 ∉ S)).card : Int) -
        ((F.filter (fun e => e.1 ∉ S ∧ e.2 ∈ S)).card : Int) := by
  have hfib1 : (F.filter (fun e => e.1 ∈ S)).card = ∑ x ∈ S, outdeg F x := by
    have hmaps1 : ∀ e ∈ F.filter (fun e => e.1 ∈ S), e.1 ∈ S := by
      intro e he
      exact (Finset.mem_filter.mp he).2
    have h1 : (F.filter (fun e => e.1 ∈ S)).card =
        ∑ x ∈ S, ((F.filter (fun e => e.1 ∈ S)).filter (fun e => e.1 = x)).card :=
      Finset.card_eq_sum_card_fiberwise hmaps1
    rw [h1]
    refine Finset.sum_congr rfl ?_
    intro x hx
    unfold outdeg
    rw [Finset.filter_filter]
    refine congrArg Finset.card (Finset.filter_congr ?_)
    intro e _
    constructor
    · exact fun h => h.2
    · intro h
      refine ⟨?_, h⟩
      rw [h]
      exact hx
  have hfib2 : (F.filter (fun e => e.2 ∈ S)).card = ∑ x ∈ S, indeg F x := by
    have hmaps2 : ∀ e ∈ F.filter (fun e => e.2 ∈ S), e.2 ∈ S := by
      intro e he
      exact (Finset.mem_filter.mp he).2
    have h1 : (F.filter (fun e => e.2 ∈ S)).card =
        ∑ x ∈ S, ((F.filter (fun e => e.2 ∈ S)).filter (fun e => e.2 = x)).card :=
      Finset.card_eq_sum_card_fiberwise hmaps2
    rw [h1]
    refine Finset.sum_congr rfl ?_
    intro x hx
    unfold indeg
    rw [Finset.filter_filter]
    refine congrArg Finset.card (Finset.filter_congr ?_)
    intro e _
    constructor
    · exact fun h => h.2
    · intro h
      refine ⟨?_, h⟩
      rw [h]
      exact hx
  have hsplit1 : (F.filter (fun e => e.1 ∈ S ∧ e.2 ∈ S)).card +
      (F.filter (fun e => e.1 ∈ S ∧ e.2 ∉ S)).card =
        (F.filter (fun e => e.1 ∈ S)).card := by
    rw [← Finset.filter_filter, ← Finset.filter_filter]
    exact Finset.filter_card_add_filter_neg_card_eq_card (fun (e : FEdge N) => e.2 ∈ S)
  have hsplit2 : (F.filter (fun e => e.1 ∈ S ∧ e.2 ∈ S)).card +
      (F.filter (fun e => e.1 ∉ S ∧ e.2 ∈ S)).card =
        (F.filter (fun e => e.2 ∈ S)).card := by
    have hc1 : F.filter (fun e => e.1 ∈ S ∧ e.2 ∈ S) =
        F.filter (fun e => e.2 ∈ S ∧ e.1 ∈ S) := by
      refine Finset.filter_congr ?_
      intro e _
      exact and_comm
    have hc2 : F.filter (fun e => e.1 ∉ S ∧ e.2 ∈ S) =
        F.filter (fun e => e.2 ∈ S ∧ e.1 ∉ S) := by
      refine Finset.filter_congr ?_
      intro e _
      exact and_comm
    rw [hc1, hc2, ← Finset.filter_filter, ← Finset.filter_filter]
    exact Finset.filter_card_add_filter_neg_card_eq_card (fun (e : FEdge N) => e.1 ∈ S)
  have hsum : ∑ x ∈ S, excess F x =
      ((∑ x ∈ S, outdeg F x : Nat) : Int) - ((∑ x ∈ S, indeg F x : Nat) : Int) := by
    unfold excess
    rw [Finset.sum_sub_distrib]
    push_cast
    rfl
  rw [hsum, ← hfib1, ← hfib2]
  omega

/-- Over a set containing the source and missing the sink, the net outflow
sums to the flow's value. -/
theorem sum_excess_value {G : BGraph} {F : Finset (FEdge G.N)} {source t : FNode G.N}
    {k : Nat} (hF : IsFlow G F source t k) {S : Finset (FNode G.N)}
    (hs : source ∈ S) (ht : t ∉ S) :
    ∑ x ∈ S, excess F x = (k : Int) := by
  rw [Finset.sum_eq_single source
    (fun b hb hbs => hF.2.2 b hbs (fun hbt => ht (hbt ▸ hb)))
    (fun hns => absurd hs hns)]
  exact hF.2.1

/-- The max-flow min-cut comparison: a residually closed set containing the
source and missing the sink bounds the value of every flow by the value of
the current one. -/
theorem cut_bound {G : BGraph} {F : Finset (FEdge G.N)} {source t : FNode G.N} {k : Nat}
    (hF : IsFlow G F source t k) {S : Finset (FNode G.N)}
    (hs : source ∈ S) (ht : t ∉ S)
    (hcl : ∀ x ∈ S, ∀ y, residStep G F x y = true → y ∈ S) :
    ∀ (F' : Finset (FEdge G.N)) (n : Nat), IsFlow G F' source t n → n ≤ k := by
  intro F' n hF'
  have hv := sum_excess_value hF hs ht
  have hv' := sum_excess_value hF' hs ht
  rw [sum_excess] at hv hv'
  -- the current flow saturates the cut and nothing enters the set
  have hsat : F.filter (fun e => e.1 ∈ S ∧ e.2 ∉ S) =
      Finset.univ.filter (fun e : FEdge G.N =>
        G.isEdge e.1 e.2 = true ∧ e.1 ∈ S ∧ e.2 ∉ S) := by
    apply Finset.ext
    intro e
    simp only [Finset.mem_filter, Finset.mem_univ, true_and]
    constructor
    · intro ⟨heF, h1, h2⟩
      exact ⟨hF.1 e heF, h1, h2⟩
    · intro ⟨hedge, h1, h2⟩
      refine ⟨?_, h1, h2⟩
      by_contra hnot
      have hr : residStep G F e.1 e.2 = true := by
        unfold residStep
        rw [hedge]
        simp only [Bool.true_and, Bool.or_eq_true, Bool.and_eq_true, Bool.not_eq_true',
          decide_eq_false_iff_not, decide_eq_true_eq]
        left
        simpa using hnot
      exact h2 (hcl e.1 h1 e.2 hr)
  have hempty : F.filter (fun e => e.1 ∉ S ∧ e.2 ∈ S) = ∅ := by
    apply Finset.eq_empty_of_forall_not_mem
    intro e he
    obtain ⟨heF, h1, h2⟩ := Finset.mem_filter.mp he
    have hr : residStep G F e.2 e.1 = true := by
      unfold residStep
      have hedge : G.isEdge e.1 e.2 = true := hF.1 e heF
      rw [hedge]
      simp only [Bool.true_and, Bool.or_eq_true, Bool.and_eq_true, decide_eq_true_eq]
      right
      exact heF
    exact h1 (hcl e.2 h2 e.1 hr)
  have hsub : F'.filter (fun e => e.1 ∈ S ∧ e.2 ∉ S) ⊆
      Finset.univ.filter (fun e : FEdge G.N =>
        G.isEdge e.1 e.2 = true ∧ e.1 ∈ S ∧ e.2 ∉ S) := by
    intro e he
    obtain ⟨heF, h1, h2⟩ := Finset.mem_filter.mp he
    simp only [Finset.mem_filter, Finset.mem_univ, true_and]
    exact ⟨hF'.1 e heF, h1, h2⟩
  have hcard := Finset.card_le_card hsub
  rw [hempty] at hv
  rw [hsat] at hv
  simp only [Finset.card_empty] at hv
  omega

/-- One successful `findPath` followed by `injectFlow` augments the flow
value by one. -/
theorem augment_step {G : BGraph} {source t : FNode G.N} (hst : source ≠ t)
    {F : Finset (FEdge G.N)} {k : Nat} {snk : FNode G.N}
    {par : FNode G.N → Option (FNode G.N)}
    (hF : IsFlow G F source t k)
    (hfp : findPath G F none source [t] = some (snk, par)) :
    IsFlow G (injectFlow par source (2 * G.N + 2) snk F) source t (k + 1) := by
  obtain ⟨hsnk, cs, hh, hl, hnd, hres, hpar⟩ := findPath_some_chain hfp
  rw [List.mem_singleton] at hsnk
  subst hsnk
  have hrs_hd : cs.reverse.head? = some snk := by
    rw [List.head?_reverse]
    exact hl
  have hrs_last : cs.reverse.getLast? = some source := by
    rw [List.getLast?_reverse]
    exact hh
  have hrs_nd : cs.reverse.Nodup := List.nodup_reverse.mpr hnd
  have hrs_par : List.Chain' (fun a b => par a = some b) cs.reverse := by
    rw [List.chain'_reverse]
    exact hpar
  have hrs_res : List.Chain' (fun a b => residStep G F b a = true) cs.reverse := by
    rw [List.chain'_reverse]
    exact hres
  have hcard : Fintype.card (FNode G.N) = 2 * G.N := by
    simp [FNode]
  have hlen : cs.reverse.length ≤ (2 * G.N + 2) + 1 := by
    have h1 := List.Nodup.length_le_card hrs_nd
    rw [hcard] at h1
    omega
  rw [injectFlow_eq_toggleWalk par source cs.reverse F (2 * G.N + 2) snk hrs_hd hrs_nd
    hrs_par hrs_last hlen]
  exact toggleWalk_isFlow hF hst hrs_nd hrs_res hrs_hd hrs_last

/-- A successful augmentation run extends any flow by the run's length. -/
theorem disjointPathsAux_true_flow {G : BGraph} {source t : FNode G.N} (hst : source ≠ t) :
    ∀ (m : Nat) (F : Finset (FEdge G.N)) (k : Nat), IsFlow G F source t k →
      disjointPathsAux G none source [t] m F = true →
      ∃ F', IsFlow G F' source t (k + m) := by
  intro m
  induction m with
  | zero =>
    intro F k hF _
    exact ⟨F, by simpa using hF⟩
  | succ m ih =>
    intro F k hF haux
    have e1 : disjointPathsAux G none source [t] (m + 1) F =
        (match findPath G F none source [t] with
         | none => false
         | some (snk, parent) =>
           disjointPathsAux G none source [t] m
             (injectFlow parent source (2 * G.N + 2) snk F)) := rfl
    rw [e1] at haux
    rcases hfp : findPath G F none source [t] with _ | ⟨snk, par⟩ <;> rw [hfp] at haux
    · exact Bool.noConfusion haux
    · obtain ⟨F', hF'⟩ := ih _ (k + 1) (augment_step hst hF hfp) haux
      refine ⟨F', ?_⟩
      rw [show k + (m + 1) = k + 1 + m by omega]
      exact hF'

/-- A failing augmentation run bounds the value of every flow below the
current value plus the remaining iterations. -/
theorem disjointPathsAux_false_bound {G : BGraph} {source t : FNode G.N} (hst : source ≠ t) :
    ∀ (m : Nat) (F : Finset (FEdge G.N)) (k : Nat), IsFlow G F source t k →
      disjointPathsAux G none source [t] m F = false →
      ∀ (F' : Finset (FEdge G.N)) (n : Nat), IsFlow G F' source t n → n < k + m := by
  intro m
  induction m with
  | zero =>
    intro F k hF haux
    exact Bool.noConfusion haux
  | succ m ih =>
    intro F k hF haux
    have e1 : disjointPathsAux G none source [t] (m + 1) F =
        (match findPath G F none source [t] with
         | none => false
         | some (snk, parent) =>
           disjointPathsAux G none source [t] m
             (injectFlow parent source (2 * G.N + 2) snk F)) := rfl
    rw [e1] at haux
    rcases hfp : findPath G F none source [t] with _ | ⟨snk, par⟩ <;> rw [hfp] at haux
    · obtain ⟨S, hs, hks, hcl⟩ := findPath_none_closure hfp
      have ht : t ∉ S := hks t (List.mem_singleton_self t)
      intro F' n hF'
      have hb := cut_bound hF hs ht hcl F' n hF'
      omega
    · intro F' n hF'
      have hb := ih _ (k + 1) (augment_step hst hF hfp) haux F' n hF'
      omega

/-- Inserting a fresh edge changes the net outflow by `+1` at its source
and `-1` at its target. -/
theorem excess_insert {N : Nat} {E : Finset (FEdge N)} {e : FEdge N} (he : e ∉ E)
    (x : FNode N) :
    excess (insert e E) x =
      excess E x + (if e.1 = x then 1 else 0) - (if e.2 = x then 1 else 0) := by
  have h1 : ((insert e E).filter (fun d => d.1 = x)).card =
      (E.filter (fun d => d.1 = x)).card + (if e.1 = x then 1 else 0) :=
    filter_insert_card E e (fun d => d.1 = x) he
  have h2 : ((insert e E).filter (fun d => d.2 = x)).card =
      (E.filter (fun d => d.2 = x)).card + (if e.2 = x then 1 else 0) :=
    filter_insert_card E e (fun d => d.2 = x) he
  unfold excess outdeg indeg
  by_cases hx1 : e.1 = x <;> by_cases hx2 : e.2 = x
  · rw [if_pos hx1] at h1
    rw [if_pos hx2] at h2
    rw [if_pos hx1, if_pos hx2]
    omega
  · rw [if_pos hx1] at h1
    rw [if_neg hx2] at h2
    rw [if_pos hx1, if_neg hx2]
    omega
  · rw [if_neg hx1] at h1
    rw [if_pos hx2] at h2
    rw [if_neg hx1, if_pos hx2]
    omega
  · rw [if_neg hx1] at h1
    rw [if_neg hx2] at h2
    rw [if_neg hx1, if_neg hx2]
    omega

/-- A consecutive pair of a list has its first component away from the end
and its second in the tail. -/
theorem mem_zip_tail {α : Type} :
    ∀ {cs : List α} {e : α × α}, e ∈ cs.zip cs.tail →
      e.1 ∈ cs.dropLast ∧ e.2 ∈ cs.tail := by
  intro cs
  induction cs with
  | nil =>
    intro e he
    exact absurd he (by simp)
  | cons a l ih =>
    intro e he
    cases l with
    | nil => exact absurd he (by simp)
    | cons b l' =>
      rw [List.tail_cons, List.zip_cons_cons, List.mem_cons] at he
      rcases he with rfl | he'
      · constructor
        · rw [List.dropLast_cons₂]
          exact List.mem_cons_self _ _
        · exact List.mem_cons_self _ _
      · have he'' : e ∈ (b :: l').zip (b :: l').tail := by
          rw [List.tail_cons]
          exact he'
        obtain ⟨h1, h2⟩ := ih he''
        constructor
        · rw [List.dropLast_cons₂]
          exact List.mem_cons_of_mem a h1
        · exact List.mem_cons_of_mem b h2

/-- The edge set of a two-step-or-longer chain. -/
theorem chainEdges_cons_cons {N : Nat} (a b : FNode N) (l : List (FNode N)) :
    chainEdges (a :: b :: l) = insert (a, b) (chainEdges (b :: l)) := by
  unfold chainEdges
  rw [List.tail_cons, List.zip_cons_cons, List.toFinset_cons, List.tail_cons]

/-- The edges of a chain whose steps lie in `F` form a subset of `F`. -/
theorem chainEdges_subset {N : Nat} {F : Finset (FEdge N)} :
    ∀ {cs : List (FNode N)}, List.Chain' (fun a b => (a, b) ∈ F) cs →
      chainEdges cs ⊆ F := by
  intro cs
  induction cs with
  | nil =>
    intro _ e he
    exact absurd he (by simp [chainEdges])
  | cons a l ih =>
    intro hch e he
    cases l with
    | nil => exact absurd he (by simp [chainEdges])
    | cons b l' =>
      rw [chainEdges_cons_cons] at he
      rcases Finset.mem_insert.mp he with rfl | he'
      · exact (List.chain'_cons.mp hch).1
      · exact ih (List.chain'_cons.mp hch).2 he'

/-- The net outflow of a duplicate-free chain's edge set: `+1` at the head,
`-1` at the last node, `0` elsewhere. -/
theorem chainEdges_excess {N : Nat} :
    ∀ {cs : List (FNode N)}, cs.Nodup → ∀ x,
      excess (chainEdges cs) x =
        (if cs.head? = some x then 1 else 0) -
          (if cs.getLast? = some x then 1 else 0) := by
  intro cs
  induction cs with
  | nil =>
    intro _ x
    simp [chainEdges, excess, outdeg, indeg]
  | cons a l ih =>
    intro hnd x
    cases l with
    | nil =>
      simp only [chainEdges, List.tail_cons, List.zip_nil_right, List.toFinset_nil,
        List.head?_cons, List.getLast?_singleton]
      simp [excess, outdeg, indeg]
    | cons b l' =>
      have hani : (a, b) ∉ chainEdges (b :: l') := by
        intro hc
        have h1 := (mem_zip_tail (List.mem_toFinset.mp hc)).1
        have h2 : (a, b).1 ∈ b :: l' := (List.dropLast_sublist _).subset h1
        exact (List.nodup_cons.mp hnd).1 h2
      have hins : excess (insert ((a : FNode N), b) (chainEdges (b :: l'))) x =
          excess (chainEdges (b :: l')) x + (if a = x then 1 else 0) -
            (if b = x then 1 else 0) :=
        excess_insert hani x
      rw [chainEdges_cons_cons, hins, ih (List.nodup_cons.mp hnd).2 x]
      simp only [List.head?_cons, List.getLast?_cons_cons, Option.some.injEq]
      generalize (if (b :: l').getLast? = some x then (1 : Int) else 0) = c
      by_cases hax : a = x <;> by_cases hbx : b = x
      · simp only [if_pos hax, if_pos hbx]
        omega
      · simp only [if_pos hax, if_neg hbx]
        omega
      · simp only [if_neg hax, if_pos hbx]
        omega
      · simp only [if_neg hax, if_neg hbx]
        omega

/-- Removing a subset of edges subtracts its net outflow. -/
theorem excess_sdiff {N : Nat} {F E : Finset (FEdge N)} (hsub : E ⊆ F) (x : FNode N) :
    excess (F \ E) x = excess F x - excess E x := by
  have e1 : ∀ (p : FEdge N → Prop) [DecidablePred p],
      (F \ E).filter p = F.filter p \ E.filter p := by
    intro p hp
    apply Finset.ext
    intro e
    simp only [Finset.mem_filter, Finset.mem_sdiff]
    tauto
  have s1 : E.filter (fun d => d.1 = x) ⊆ F.filter (fun d => d.1 = x) :=
    Finset.filter_subset_filter _ hsub
  have s2 : E.filter (fun d => d.2 = x) ⊆ F.filter (fun d => d.2 = x) :=
    Finset.filter_subset_filter _ hsub
  have c1 := Finset.card_le_card s1
  have c2 := Finset.card_le_card s2
  unfold excess outdeg indeg
  rw [e1, e1, Finset.card_sdiff s1, Finset.card_sdiff s2]
  omega

/-- A chain of two or more nodes relates some member to its last node. -/
theorem chain'_getLast_rel {α : Type} {R : α → α → Prop} :
    ∀ {cs : List α} {x : α}, List.Chain' R cs → cs.getLast? = some x →
      2 ≤ cs.length → ∃ w, w ∈ cs ∧ R w x := by
  intro cs
  induction cs with
  | nil =>
    intro x _ hl
    exact Option.noConfusion hl
  | cons a l ih =>
    intro x hch hl hlen
    cases l with
    | nil => simp at hlen
    | cons b l' =>
      cases l' with
      | nil =>
        have hx : b = x := by simpa using hl
        subst hx
        exact ⟨a, List.mem_cons_self _ _, (List.chain'_cons.mp hch).1⟩
      | cons c l'' =>
        have hl' : (b :: c :: l'').getLast? = some x := by
          rw [List.getLast?_cons_cons] at hl
          exact hl
        obtain ⟨w, hw, hr⟩ := ih (List.chain'_cons.mp hch).2 hl' (by simp)
        exact ⟨w, List.mem_cons_of_mem a hw, hr⟩

/-- Extending a duplicate-free walk along flow edges eventually reaches the
sink or closes a cycle. -/
theorem flow_walk {G : BGraph} {F : Finset (FEdge G.N)} {s t : FNode G.N} {k : Nat}
    (hF : IsFlow G F s t k) (hk : 0 < k) :
    ∀ (fuel : Nat) (cs : List (FNode G.N)) (x : FNode G.N),
      cs.Nodup → cs.head? = some s → cs.getLast? = some x →
      List.Chain' (fun a b => (a, b) ∈ F) cs →
      2 * G.N + 1 ≤ fuel + cs.length →
      (∃ ps : List (FNode G.N), ps.head? = some s ∧ ps.getLast? = some t ∧ ps.Nodup ∧
        List.Chain' (fun a b => (a, b) ∈ F) ps) ∨
      (∃ (cy : List (FNode G.N)) (w z : FNode G.N), cy.Nodup ∧
        List.Chain' (fun a b => (a, b) ∈ F) cy ∧
        cy.head? = some w ∧ cy.getLast? = some z ∧ (z, w) ∈ F) := by
  intro fuel
  induction fuel with
  | zero =>
    intro cs x hnd hh hl hch hlen
    exfalso
    have h1 := List.Nodup.length_le_card hnd
    have hcard : Fintype.card (FNode G.N) = 2 * G.N := by simp [FNode]
    rw [hcard] at h1
    omega
  | succ fuel ih =>
    intro cs x hnd hh hl hch hlen
    by_cases hxt : x = t
    · subst hxt
      exact Or.inl ⟨cs, hh, hl, hnd, hch⟩
    · have hout : 0 < outdeg F x := by
        by_cases hxs : x = s
        · subst hxs
          have hex := hF.2.1
          unfold excess at hex
          omega
        · have hlen2 : 2 ≤ cs.length := by
            rcases cs with _ | ⟨a, l⟩
            · exact Option.noConfusion hh
            · rcases l with _ | ⟨b, l'⟩
              · exfalso
                have h1 : a = s := Option.some.inj hh
                have h2 : a = x := by simpa using hl
                exact hxs (h2 ▸ h1)
              · simp
          obtain ⟨w, _, hw⟩ := chain'_getLast_rel hch hl hlen2
          have hin : 0 < indeg F x := by
            unfold indeg
            refine Finset.card_pos.mpr ⟨(w, x), ?_⟩
            rw [Finset.mem_filter]
            exact ⟨hw, rfl⟩
          have hcons := hF.2.2 x hxs hxt
          unfold excess at hcons
          omega
      obtain ⟨e, he⟩ := Finset.card_pos.mp hout
      obtain ⟨heF, hex1⟩ := Finset.mem_filter.mp he
      obtain ⟨e1, y⟩ := e
      have he1 : e1 = x := hex1
      subst he1
      by_cases hy : y ∈ cs
      · obtain ⟨l1, l2, rfl⟩ := List.append_of_mem hy
        refine Or.inr ⟨y :: l2, y, e1, ?_, hch.right_of_append, rfl, ?_, heF⟩
        · exact (List.nodup_append.mp hnd).2.1
        · rw [List.getLast?_append] at hl
          rcases hgl : (y :: l2).getLast? with _ | z
          · exact absurd hgl (by simp)
          · rw [hgl] at hl
            exact hl
      · refine ih (cs ++ [y]) y ?_ ?_ (List.getLast?_concat cs) ?_ ?_
        · rw [List.nodup_append]
          exact ⟨hnd, List.nodup_singleton y,
            fun a ha hay => hy (by rw [List.mem_singleton.mp hay] at ha; exact ha)⟩
        · rcases cs with _ | ⟨a, l⟩
          · exact Option.noConfusion hh
          · simpa using hh
        · rw [List.chain'_append]
          refine ⟨hch, List.chain'_singleton y, ?_⟩
          intro a ha b hb
          rw [hl] at ha
          rw [List.head?_singleton] at hb
          cases Option.some.inj ha
          cases Option.some.inj hb
          exact heF
        · rw [List.length_append]
          simp only [List.length_singleton]
          omega

/-- The last node of a duplicate-free list does not occur before the
end. -/
theorem getLast_not_mem_dropLast {α : Type} {cs : List α} {z : α}
    (hnd : cs.Nodup) (hl : cs.getLast? = some z) : z ∉ cs.dropLast := by
  intro hmem
  have hsplit : cs.dropLast ++ [z] = cs :=
    List.dropLast_append_getLast? z (Option.mem_def.mpr hl)
  rw [← hsplit] at hnd
  rcases List.nodup_append.mp hnd with ⟨_, _, hdisj⟩
  exact hdisj hmem (List.mem_singleton_self z)

/-- Removing a duplicate-free flow cycle keeps the flow and strictly
shrinks it. -/
theorem cycle_removal {G : BGraph} {F : Finset (FEdge G.N)} {s t : FNode G.N} {k : Nat}
    (hF : IsFlow G F s t k) {cy : List (FNode G.N)} {w z : FNode G.N}
    (hnd : cy.Nodup) (hch : List.Chain' (fun a b => (a, b) ∈ F) cy)
    (hh : cy.head? = some w) (hl : cy.getLast? = some z) (hzw : (z, w) ∈ F) :
    IsFlow G (F \ insert (z, w) (chainEdges cy)) s t k ∧
      0 < (insert (z, w) (chainEdges cy)).card ∧
      insert (z, w) (chainEdges cy) ⊆ F := by
  have hnotin : ((z : FNode G.N), w) ∉ chainEdges cy := by
    intro hc
    have h1 := (mem_zip_tail (List.mem_toFinset.mp hc)).1
    exact getLast_not_mem_dropLast hnd hl h1
  have hsub : insert ((z : FNode G.N), w) (chainEdges cy) ⊆ F := by
    rw [Finset.insert_subset_iff]
    exact ⟨hzw, chainEdges_subset hch⟩
  have hE0 : ∀ x, excess (insert ((z : FNode G.N), w) (chainEdges cy)) x = 0 := by
    intro x
    have h1 : excess (insert ((z : FNode G.N), w) (chainEdges cy)) x =
        excess (chainEdges cy) x + (if z = x then 1 else 0) - (if w = x then 1 else 0) :=
      excess_insert hnotin x
    rw [h1, chainEdges_excess hnd x, hh, hl]
    simp only [Option.some.injEq]
    by_cases hzx : z = x <;> by_cases hwx : w = x
    · simp only [if_pos hzx, if_pos hwx]
      omega
    · simp only [if_pos hzx, if_neg hwx]
      omega
    · simp only [if_neg hzx, if_pos hwx]
      omega
    · simp only [if_neg hzx, if_neg hwx]
      omega
  refine ⟨⟨?_, ?_, ?_⟩, ?_, hsub⟩
  · intro e he
    exact hF.1 e (Finset.mem_sdiff.mp he).1
  · rw [excess_sdiff hsub s, hE0 s, hF.2.1]
    ring
  · intro x hxs hxt
    rw [excess_sdiff hsub x, hE0 x, hF.2.2 x hxs hxt]
    ring
  · exact Finset.card_pos.mpr ⟨(z, w), Finset.mem_insert_self _ _⟩

/-- Removing a duplicate-free flow path from source to sink lowers the
value by exactly one. -/
theorem path_removal {G : BGraph} {F : Finset (FEdge G.N)} {s t : FNode G.N} {k : Nat}
    (hF : IsFlow G F s t k) (hst : s ≠ t) (hk : 0 < k) {ps : List (FNode G.N)}
    (hnd : ps.Nodup) (hch : List.Chain' (fun a b => (a, b) ∈ F) ps)
    (hh : ps.head? = some s) (hl : ps.getLast? = some t) :
    IsFlow G (F \ chainEdges ps) s t (k - 1) ∧ 0 < (chainEdges ps).card ∧
      chainEdges ps ⊆ F := by
  have hsub : chainEdges ps ⊆ F := chainEdges_subset hch
  have hpos : 0 < (chainEdges ps).card := by
    rcases ps with _ | ⟨a, l⟩
    · exact Option.noConfusion hh
    · rcases l with _ | ⟨b, l'⟩
      · exfalso
        have h1 : a = s := Option.some.inj hh
        have h2 : a = t := by simpa using hl
        exact hst (h1 ▸ h2)
      · refine Finset.card_pos.mpr ⟨(a, b), ?_⟩
        rw [chainEdges_cons_cons]
        exact Finset.mem_insert_self _ _
  refine ⟨⟨?_, ?_, ?_⟩, hpos, hsub⟩
  · intro e he
    exact hF.1 e (Finset.mem_sdiff.mp he).1
  · rw [excess_sdiff hsub s, chainEdges_excess hnd s, hh, hl, hF.2.1,
      if_pos rfl, if_neg (fun hc => hst (Option.some.inj hc).symm)]
    push_cast [Nat.cast_sub hk]
    ring
  · intro x hxs hxt
    rw [excess_sdiff hsub x, chainEdges_excess hnd x, hh, hl, hF.2.2 x hxs hxt,
      if_neg (fun hc => hxs (Option.some.inj hc).symm),
      if_neg (fun hc => hxt (Option.some.inj hc).symm)]
    ring

/-- Unfolding of the node-split walk at a cons. -/
theorem splitChain_cons {N : Nat} (u v y : Fin N) (p : List (Fin N)) :
    splitChain u v (y :: p) = outN u :: inN y :: splitChain y v p := rfl

/-- The members of the interior segment of a node-split walk. -/
theorem mem_flat_iff {N : Nat} {x : FNode N} {p : List (Fin N)} :
    x ∈ p.flatMap (fun b => [inN b, outN b]) ↔ ∃ b ∈ p, x = inN b ∨ x = outN b := by
  rw [List.mem_flatMap]
  constructor
  · rintro ⟨b, hb, hx⟩
    rcases List.mem_cons.mp hx with rfl | hx'
    · exact ⟨b, hb, Or.inl rfl⟩
    · rw [List.mem_singleton] at hx'
      exact ⟨b, hb, Or.inr hx'⟩
  · rintro ⟨b, hb, rfl | rfl⟩
    · exact ⟨b, hb, List.mem_cons_self _ _⟩
    · exact ⟨b, hb, List.mem_cons_of_mem _ (List.mem_singleton_self _)⟩

/-- An interior block's IN node lies on the node-split walk. -/
theorem inN_mem_splitChain {N : Nat} {x : Fin N} {p : List (Fin N)} (hx : x ∈ p)
    (u v : Fin N) : inN x ∈ splitChain u v p := by
  unfold splitChain
  refine List.mem_cons_of_mem _ (List.mem_append.mpr (Or.inl ?_))
  exact mem_flat_iff.mpr ⟨x, hx, Or.inl rfl⟩

/-- An interior block's OUT node lies on the node-split walk. -/
theorem outN_mem_splitChain {N : Nat} {x : Fin N} {p : List (Fin N)} (hx : x ∈ p)
    (u v : Fin N) : outN x ∈ splitChain u v p := by
  unfold splitChain
  refine List.mem_cons_of_mem _ (List.mem_append.mpr (Or.inl ?_))
  exact mem_flat_iff.mpr ⟨x, hx, Or.inr rfl⟩

/-- The node-split walk ends at the sink's IN node. -/
theorem splitChain_getLast {N : Nat} (u v : Fin N) (p : List (Fin N)) :
    (splitChain u v p).getLast? = some (inN v) := by
  rw [show splitChain u v p =
    (outN u :: p.flatMap (fun b => [inN b, outN b])) ++ [inN v] from rfl]
  exact List.getLast?_concat _

/-- The interior segment of a duplicate-free block list has no duplicate
nodes. -/
theorem flat_nodup {N : Nat} :
    ∀ {p : List (Fin N)}, p.Nodup → (p.flatMap (fun b => [inN b, outN b])).Nodup := by
  intro p
  induction p with
  | nil => exact fun _ => List.nodup_nil
  | cons y p' ih =>
    intro hnd
    rw [List.flatMap_cons, List.nodup_append]
    refine ⟨?_, ih (List.nodup_cons.mp hnd).2, ?_⟩
    · simp [inN, outN]
    · intro a ha ha'
      obtain ⟨b, hb, hab⟩ := mem_flat_iff.mp ha'
      have hyb : y ≠ b := fun hc => (List.nodup_cons.mp hnd).1 (hc ▸ hb)
      rcases List.mem_cons.mp ha with rfl | ha2
      · rcases hab with h | h
        · exact hyb (by simpa [inN] using h)
        · exact absurd h (by simp [inN, outN])
      · rw [List.mem_singleton] at ha2
        subst ha2
        rcases hab with h | h
        · exact absurd h (by simp [inN, outN])
        · exact hyb (by simpa [outN] using h)

/-- The node-split walk of a vertex-simple block path has no duplicate
nodes. -/
theorem splitChain_nodup {G : BGraph} {u v : Fin G.N} {p : List (Fin G.N)}
    (hsp : SPath G u v p) : (splitChain u v p).Nodup := by
  obtain ⟨_, hndp, hup, hvp⟩ := hsp
  unfold splitChain
  rw [List.nodup_cons, List.nodup_append]
  refine ⟨?_, flat_nodup hndp, List.nodup_singleton _, ?_⟩
  · intro hc
    rcases List.mem_append.mp hc with h | h
    · obtain ⟨b, hb, hab⟩ := mem_flat_iff.mp h
      rcases hab with h' | h'
      · exact absurd h' (by simp [inN, outN])
      · exact hup (by rw [show u = b by simpa [outN] using h']; exact hb)
    · rw [List.mem_singleton] at h
      exact absurd h (by simp [inN, outN])
  · intro a ha ha'
    rw [List.mem_singleton] at ha'
    subst ha'
    obtain ⟨b, hb, hab⟩ := mem_flat_iff.mp ha
    rcases hab with h | h
    · exact hvp (by rw [show v = b by simpa [inN] using h]; exact hb)
    · exact absurd h (by simp [inN, outN])

/-- The steps of the node-split walk of a CFG path are network edges. -/
theorem splitChain_isEdge {G : BGraph} {v : Fin G.N} :
    ∀ (p : List (Fin G.N)) (u : Fin G.N),
      List.Chain (fun a b => b ∈ G.succ a) u (p ++ [v]) →
      List.Chain' (fun a b => G.isEdge a b = true) (splitChain u v p) := by
  intro p
  induction p with
  | nil =>
    intro u hch
    have hv : v ∈ G.succ u := by
      rw [List.nil_append] at hch
      exact (List.chain_cons.mp hch).1
    show List.Chain' _ [outN u, inN v]
    refine List.chain'_cons.mpr ⟨?_, List.chain'_singleton _⟩
    simp [BGraph.isEdge, outN, inN, hv]
  | cons y p' ih =>
    intro u hch
    rw [List.cons_append] at hch
    obtain ⟨huy, hch'⟩ := List.chain_cons.mp hch
    have htail := ih y hch'
    rw [splitChain_cons]
    refine List.chain'_cons.mpr ⟨?_, ?_⟩
    · simp [BGraph.isEdge, outN, inN, huy]
    · rw [show splitChain y v p' =
        outN y :: (p'.flatMap (fun b => [inN b, outN b]) ++ [inN v]) from rfl]
      refine List.chain'_cons.mpr ⟨?_, ?_⟩
      · simp [BGraph.isEdge, inN, outN]
      · exact htail

/-- A duplicate-free flow walk from `u.out` to `v.in` is the node-split
walk of a vertex-simple block path. -/
theorem split_walk_shape {G : BGraph} {F : Finset (FEdge G.N)}
    (hval : ∀ e ∈ F, G.isEdge e.1 e.2 = true) (v : Fin G.N) :
    ∀ (n : Nat) (u : Fin G.N) (ps : List (FNode G.N)), ps.length ≤ n →
      ps.head? = some (outN u) → ps.getLast? = some (inN v) → ps.Nodup →
      List.Chain' (fun a b => (a, b) ∈ F) ps →
      ∃ p : List (Fin G.N), ps = splitChain u v p ∧ SPath G u v p := by
  intro n
  induction n with
  | zero =>
    intro u ps hlen hh _ _ _
    rcases ps with _ | ⟨a, rest⟩
    · exact Option.noConfusion hh
    · simp at hlen
  | succ n ih =>
    intro u ps hlen hh hl hnd hch
    rcases ps with _ | ⟨a, rest⟩
    · exact Option.noConfusion hh
    have ha : a = outN u := Option.some.inj hh
    subst ha
    rcases rest with _ | ⟨b, rest'⟩
    · exfalso
      have hc : (outN u : FNode G.N) = inN v := by simpa using hl
      simpa [outN, inN] using hc
    have hedge1 : ((outN u : FNode G.N), b) ∈ F := (List.chain'_cons.mp hch).1
    have hisE1 := hval _ hedge1
    obtain ⟨tb, w⟩ := b
    cases tb
    · have hw : w ∈ G.succ u := by simpa [BGraph.isEdge, outN] using hisE1
      rcases rest' with _ | ⟨c, rest''⟩
      · have hwv : w = v := by
          have h2 : ((false, w) : FNode G.N) = inN v := by simpa using hl
          simpa [inN] using h2
        subst hwv
        refine ⟨[], rfl, ?_, List.nodup_nil, by simp, by simp⟩
        rw [List.nil_append]
        exact List.chain_cons.mpr ⟨hw, List.Chain.nil⟩
      · have hedge2 : (((false, w) : FNode G.N), c) ∈ F :=
          (List.chain'_cons.mp (List.chain'_cons.mp hch).2).1
        have hisE2 := hval _ hedge2
        obtain ⟨tc, w'⟩ := c
        cases tc
        · exfalso
          simpa [BGraph.isEdge] using hisE2
        · have hww' : w = w' := by simpa [BGraph.isEdge] using hisE2
          subst hww'
          have htail_last : (((true, w) : FNode G.N) :: rest'').getLast? = some (inN v) := by
            rw [List.getLast?_cons_cons, List.getLast?_cons_cons] at hl
            exact hl
          have htail_nd : (((true, w) : FNode G.N) :: rest'').Nodup :=
            (List.nodup_cons.mp (List.nodup_cons.mp hnd).2).2
          have htail_ch : List.Chain' (fun a b => (a, b) ∈ F)
              (((true, w) : FNode G.N) :: rest'') :=
            (List.chain'_cons.mp (List.chain'_cons.mp hch).2).2
          have hlen' : (((true, w) : FNode G.N) :: rest'').length ≤ n := by
            simp only [List.length_cons] at hlen ⊢
            omega
          obtain ⟨p', hps', hsp'⟩ :=
            ih w ((true, w) :: rest'') hlen' rfl htail_last htail_nd htail_ch
          refine ⟨w :: p', ?_, ?_, ?_, ?_, ?_⟩
          · rw [splitChain_cons, ← hps']
            rfl
          · rw [List.cons_append]
            exact List.chain_cons.mpr ⟨hw, hsp'.1⟩
          · rw [List.nodup_cons]
            refine ⟨?_, hsp'.2.1⟩
            intro hwp'
            have h1 : inN w ∈ splitChain w v p' := inN_mem_splitChain hwp' w v
            rw [← hps'] at h1
            exact (List.nodup_cons.mp (List.nodup_cons.mp hnd).2).1 h1
          · intro hu
            rcases List.mem_cons.mp hu with huw | hup'
            · subst huw
              exact (List.nodup_cons.mp hnd).1
                (List.mem_cons_of_mem _ (List.mem_cons_self _ _))
            · have h1 : outN u ∈ splitChain w v p' := outN_mem_splitChain hup' w v
              rw [← hps'] at h1
              exact (List.nodup_cons.mp hnd).1 (List.mem_cons_of_mem _ h1)
          · intro hv
            rcases List.mem_cons.mp hv with hvw | hvp'
            · have h1 : inN v ∈ (((true, w) : FNode G.N) :: rest'') := by
                obtain ⟨hne, heq⟩ := List.mem_getLast?_eq_getLast (Option.mem_def.mpr htail_last)
                rw [heq]
                exact List.getLast_mem hne
              rw [hvw] at h1
              exact (List.nodup_cons.mp (List.nodup_cons.mp hnd).2).1 h1
            · exact hsp'.2.2.2 hvp'
    · exfalso
      simpa [BGraph.isEdge, outN] using hisE1

/-- Flow decomposition: a flow of value `k` from `u.out` to `v.in` yields
`k` vertex-simple block paths whose edge sets are pairwise disjoint and lie
inside the flow. -/
theorem flow_decomp {G : BGraph} {u v : Fin G.N} :
    ∀ (m : Nat) (F : Finset (FEdge G.N)) (k : Nat), F.card ≤ m →
      IsFlow G F (outN u) (inN v) k →
      ∃ ps : List (List (Fin G.N)), ps.length = k ∧
        (∀ p ∈ ps, SPath G u v p ∧ pathEdges u v p ⊆ F) ∧
        List.Pairwise (fun p q => Disjoint (pathEdges u v p) (pathEdges u v q)) ps := by
  intro m
  induction m with
  | zero =>
    intro F k hcard hF
    have hF0 : F = ∅ := Finset.card_eq_zero.mp (Nat.le_antisymm hcard (Nat.zero_le _))
    subst hF0
    have hk0 : k = 0 := by
      have h := hF.2.1
      simp [excess, outdeg, indeg] at h
      omega
    subst hk0
    exact ⟨[], rfl, by simp, List.Pairwise.nil⟩
  | succ m ih =>
    intro F k hcard hF
    rcases Nat.eq_zero_or_pos k with rfl | hk
    · exact ⟨[], rfl, by simp, List.Pairwise.nil⟩
    · have hwalk := flow_walk hF hk (2 * G.N) [outN u] (outN u) (List.nodup_singleton _)
        rfl rfl (List.chain'_singleton _) (by simp)
      rcases hwalk with ⟨ps₀, hh, hl, hnd, hch⟩ | ⟨cy, w, z, hnd, hch, hh, hl, hzw⟩
      · obtain ⟨p, hps, hsp⟩ :=
          split_walk_shape hF.1 v ps₀.length u ps₀ (le_refl _) hh hl hnd hch
        have hsub : chainEdges ps₀ ⊆ F := chainEdges_subset hch
        have hne : (outN u : FNode G.N) ≠ inN v := by simp [outN, inN]
        obtain ⟨hflow', hpos, _⟩ := path_removal hF hne hk hnd hch hh hl
        have hcard' : (F \ chainEdges ps₀).card ≤ m := by
          rw [Finset.card_sdiff hsub]
          have := Finset.card_le_card hsub
          omega
        obtain ⟨ps', hlen', hprops', hpw'⟩ := ih (F \ chainEdges ps₀) (k - 1) hcard' hflow'
        have hpe : pathEdges u v p = chainEdges ps₀ := by
          rw [pathEdges, ← hps]
        refine ⟨p :: ps', ?_, ?_, ?_⟩
        · rw [List.length_cons, hlen']
          omega
        · intro q hq
          rcases List.mem_cons.mp hq with rfl | hq'
          · refine ⟨hsp, ?_⟩
            rw [hpe]
            exact hsub
          · obtain ⟨h1, h2⟩ := hprops' q hq'
            exact ⟨h1, h2.trans Finset.sdiff_subset⟩
        · rw [List.pairwise_cons]
          refine ⟨?_, hpw'⟩
          intro q hq
          obtain ⟨_, h2⟩ := hprops' q hq
          rw [hpe, Finset.disjoint_left]
          intro e he hq'
          exact (Finset.mem_sdiff.mp (h2 hq')).2 he
      · obtain ⟨hflow', hpos, hsub⟩ := cycle_removal hF hnd hch hh hl hzw
        have hcard' : (F \ insert (z, w) (chainEdges cy)).card ≤ m := by
          rw [Finset.card_sdiff hsub]
          have := Finset.card_le_card hsub
          omega
        obtain ⟨ps', hlen', hprops', hpw'⟩ := ih _ k hcard' hflow'
        refine ⟨ps', hlen', ?_, hpw'⟩
        intro q hq
        obtain ⟨h1, h2⟩ := hprops' q hq
        exact ⟨h1, h2.trans Finset.sdiff_subset⟩

/-- In a duplicate-free list the only consecutive pair starting at the head
continues with the second element. -/
theorem zip_tail_first {α : Type} :
    ∀ {cs : List α} {a c : α}, cs.Nodup → (a, c) ∈ cs.zip cs.tail →
      cs.head? = some a → cs.tail.head? = some c := by
  intro cs
  induction cs with
  | nil =>
    intro a c _ hmem
    exact absurd hmem (by simp)
  | cons a₀ l ih =>
    intro a c hnd hmem hh
    have ha : a₀ = a := Option.some.inj hh
    subst ha
    cases l with
    | nil => exact absurd hmem (by simp)
    | cons b l' =>
      rw [List.tail_cons, List.zip_cons_cons, List.mem_cons] at hmem
      rcases hmem with heq | hmem'
      · have hc : c = b := congrArg Prod.snd heq
        subst hc
        rfl
      · exfalso
        have hmem'' : ((a₀, c) : α × α) ∈ (b :: l').zip (b :: l').tail := by
          rw [List.tail_cons]
          exact hmem'
        have h1 := (mem_zip_tail hmem'').1
        have h2 : a₀ ∈ b :: l' := (List.dropLast_sublist _).subset h1
        exact (List.nodup_cons.mp hnd).1 h2

/-- The split edge of an interior block lies on the path's edge set. -/
theorem splitEdge_mem_pathEdges {N : Nat} {x : Fin N} :
    ∀ {p : List (Fin N)} (u v : Fin N), x ∈ p →
      ((inN x : FNode N), outN x) ∈ pathEdges u v p := by
  intro p
  induction p with
  | nil =>
    intro u v hx
    exact absurd hx (List.not_mem_nil x)
  | cons y p' ih =>
    intro u v hx
    rw [pathEdges, splitChain_cons, chainEdges_cons_cons,
      show (inN y :: splitChain y v p' : List (FNode N)) =
        inN y :: outN y :: (p'.flatMap (fun b => [inN b, outN b]) ++ [inN v]) from rfl,
      chainEdges_cons_cons]
    rcases List.mem_cons.mp hx with rfl | hx'
    · exact Finset.mem_insert_of_mem (Finset.mem_insert_self _ _)
    · refine Finset.mem_insert_of_mem (Finset.mem_insert_of_mem ?_)
      exact ih y v hx'

/-- Every path edge set is nonempty. -/
theorem pathEdges_nonempty {N : Nat} (u v : Fin N) (p : List (Fin N)) :
    (pathEdges u v p).Nonempty := by
  cases p with
  | nil =>
    refine ⟨((outN u : FNode N), inN v), ?_⟩
    rw [pathEdges, show splitChain u v [] = outN u :: inN v :: [] from rfl,
      chainEdges_cons_cons]
    exact Finset.mem_insert_self _ _
  | cons y p' =>
    refine ⟨((outN u : FNode N), inN y), ?_⟩
    rw [pathEdges, splitChain_cons, chainEdges_cons_cons]
    exact Finset.mem_insert_self _ _

/-- Endpoints of a path edge are nodes of the node-split walk, classified
by position. -/
theorem mem_pathEdges_nodes {N : Nat} {u v : Fin N} {p : List (Fin N)} {e : FEdge N}
    (he : e ∈ pathEdges u v p) :
    (e.1 = outN u ∨ ∃ b ∈ p, e.1 = inN b ∨ e.1 = outN b) ∧
      (e.2 = inN v ∨ ∃ b ∈ p, e.2 = inN b ∨ e.2 = outN b) := by
  have h := mem_zip_tail (List.mem_toFinset.mp he)
  constructor
  · have e1 : (splitChain u v p).dropLast =
        outN u :: p.flatMap (fun b => [inN b, outN b]) := by
      rw [show splitChain u v p =
        (outN u :: p.flatMap (fun b => [inN b, outN b])) ++ [inN v] from rfl,
        List.dropLast_concat]
    have h1 := h.1
    rw [e1] at h1
    rcases List.mem_cons.mp h1 with h2 | h2
    · exact Or.inl h2
    · exact Or.inr (mem_flat_iff.mp h2)
  · have h2 := h.2
    rw [show (splitChain u v p).tail =
      p.flatMap (fun b => [inN b, outN b]) ++ [inN v] from rfl] at h2
    rcases List.mem_append.mp h2 with h3 | h3
    · exact Or.inr (mem_flat_iff.mp h3)
    · exact Or.inl (List.mem_singleton.mp h3)

/-- Pairwise edge-disjoint vertex-simple paths are distinct and share no
interior block. -/
theorem pathEdges_vertex_disjoint {G : BGraph} {u v : Fin G.N} {p q : List (Fin G.N)}
    (hdis : Disjoint (pathEdges u v p) (pathEdges u v q)) :
    p ≠ q ∧ ∀ x ∈ p, x ∉ q := by
  constructor
  · intro heq
    subst heq
    obtain ⟨e, he⟩ := pathEdges_nonempty u v p
    exact Finset.disjoint_left.mp hdis he he
  · intro x hxp hxq
    exact Finset.disjoint_left.mp hdis (splitEdge_mem_pathEdges u v hxp)
      (splitEdge_mem_pathEdges u v hxq)

/-- Distinct vertex-disjoint simple paths use disjoint edge sets in the
node-split network. -/
theorem pathEdges_edge_disjoint {G : BGraph} {u v : Fin G.N} {p q : List (Fin G.N)}
    (hp : SPath G u v p) (hq : SPath G u v q) (hne : p ≠ q)
    (hdis : ∀ x ∈ p, x ∉ q) :
    Disjoint (pathEdges u v p) (pathEdges u v q) := by
  rw [Finset.disjoint_left]
  intro e hep heq
  obtain ⟨h1p, h2p⟩ := mem_pathEdges_nodes hep
  obtain ⟨h1q, h2q⟩ := mem_pathEdges_nodes heq
  have he1 : e.1 = outN u := by
    rcases h1p with h | ⟨b, hb, hb'⟩
    · exact h
    · exfalso
      rcases h1q with h' | ⟨c, hc, hc'⟩
      · rcases hb' with hb' | hb'
        · rw [h'] at hb'
          exact absurd hb' (by simp [inN, outN])
        · rw [h'] at hb'
          have hbu : u = b := by simpa [outN] using hb'
          exact hp.2.2.1 (hbu ▸ hb)
      · rcases hb' with hb' | hb' <;> rcases hc' with hc' | hc'
        · rw [hb'] at hc'
          have hbc : b = c := by simpa [inN] using hc'
          exact hdis b hb (hbc ▸ hc)
        · rw [hb'] at hc'
          exact absurd hc' (by simp [inN, outN])
        · rw [hb'] at hc'
          exact absurd hc' (by simp [inN, outN])
        · rw [hb'] at hc'
          have hbc : b = c := by simpa [outN] using hc'
          exact hdis b hb (hbc ▸ hc)
  have he2 : e.2 = inN v := by
    rcases h2p with h | ⟨b, hb, hb'⟩
    · exact h
    · exfalso
      rcases h2q with h' | ⟨c, hc, hc'⟩
      · rcases hb' with hb' | hb'
        · rw [h'] at hb'
          have hbv : v = b := by simpa [inN] using hb'
          exact hp.2.2.2 (hbv ▸ hb)
        · rw [h'] at hb'
          exact absurd hb' (by simp [inN, outN])
      · rcases hb' with hb' | hb' <;> rcases hc' with hc' | hc'
        · rw [hb'] at hc'
          have hbc : b = c := by simpa [inN] using hc'
          exact hdis b hb (hbc ▸ hc)
        · rw [hb'] at hc'
          exact absurd hc' (by simp [inN, outN])
        · rw [hb'] at hc'
          exact absurd hc' (by simp [inN, outN])
        · rw [hb'] at hc'
          have hbc : b = c := by simpa [outN] using hc'
          exact hdis b hb (hbc ▸ hc)
  have hfirst : ∀ (r : List (Fin G.N)), SPath G u v r →
      ((outN u : FNode G.N), inN v) ∈ pathEdges u v r → r = [] := by
    intro r hr hmem
    have hnd := splitChain_nodup hr
    have hz := zip_tail_first hnd (List.mem_toFinset.mp hmem) rfl
    rcases r with _ | ⟨y, r'⟩
    · rfl
    · exfalso
      rw [show (splitChain u v (y :: r')).tail =
        inN y :: splitChain y v r' from rfl] at hz
      have hyv : inN v = inN y := Option.some.inj (hz.symm)
      have hyv' : v = y := by simpa [inN] using hyv
      exact hr.2.2.2 (hyv' ▸ List.mem_cons_self y r')
  have hep' : ((outN u : FNode G.N), inN v) ∈ pathEdges u v p := by
    rw [show ((outN u : FNode G.N), inN v) = e from Prod.ext he1.symm he2.symm]
    exact hep
  have heq' : ((outN u : FNode G.N), inN v) ∈ pathEdges u v q := by
    rw [show ((outN u : FNode G.N), inN v) = e from Prod.ext he1.symm he2.symm]
    exact heq
  exact hne ((hfirst p hp hep').trans (hfirst q hq heq').symm)

/-- The consecutive pairs of a chain satisfy the chain's relation. -/
theorem mem_chainEdges_rel {N : Nat} {R : FNode N → FNode N → Prop} :
    ∀ {cs : List (FNode N)}, List.Chain' R cs → ∀ e ∈ chainEdges cs, R e.1 e.2 := by
  intro cs
  induction cs with
  | nil =>
    intro _ e he
    exact absurd he (by simp [chainEdges])
  | cons a l ih =>
    intro hch e he
    cases l with
    | nil => exact absurd he (by simp [chainEdges])
    | cons b l' =>
      rw [chainEdges_cons_cons] at he
      rcases Finset.mem_insert.mp he with rfl | he'
      · exact (List.chain'_cons.mp hch).1
      · exact ih (List.chain'_cons.mp hch).2 e he'

/-- Net outflow adds over a disjoint union of edge sets. -/
theorem excess_union_disjoint {N : Nat} {A B : Finset (FEdge N)} (h : Disjoint A B)
    (x : FNode N) : excess (A ∪ B) x = excess A x + excess B x := by
  unfold excess outdeg indeg
  rw [Finset.filter_union, Finset.filter_union,
    Finset.card_union_of_disjoint (Finset.disjoint_filter_filter h),
    Finset.card_union_of_disjoint (Finset.disjoint_filter_filter h)]
  push_cast
  ring

/-- The edge set of a vertex-simple block path is a unit flow of value
one. -/
theorem pathEdges_isFlow {G : BGraph} {u v : Fin G.N} {p : List (Fin G.N)}
    (hp : SPath G u v p) : IsFlow G (pathEdges u v p) (outN u) (inN v) 1 := by
  refine ⟨?_, ?_, ?_⟩
  · intro e he
    exact mem_chainEdges_rel (splitChain_isEdge p u hp.1) e he
  · rw [pathEdges, chainEdges_excess (splitChain_nodup hp) (outN u), splitChain_getLast,
      show (splitChain u v p).head? = some (outN u) from rfl, if_pos rfl,
      if_neg (fun hc => (by simp [outN, inN] : (inN v : FNode G.N) ≠ outN u)
        (Option.some.inj hc))]
    norm_num
  · intro x hxs hxt
    rw [pathEdges, chainEdges_excess (splitChain_nodup hp) x, splitChain_getLast,
      show (splitChain u v p).head? = some (outN u) from rfl,
      if_neg (fun hc => hxs (Option.some.inj hc).symm),
      if_neg (fun hc => hxt (Option.some.inj hc).symm)]
    ring

/-- Pairwise distinct, vertex-disjoint simple paths assemble into a flow
whose value is their number. -/
theorem paths_to_flow {G : BGraph} {u v : Fin G.N} :
    ∀ (ps : List (List (Fin G.N))), (∀ p ∈ ps, SPath G u v p) →
      List.Pairwise (fun p q => p ≠ q ∧ ∀ x ∈ p, x ∉ q) ps →
      ∃ F : Finset (FEdge G.N), IsFlow G F (outN u) (inN v) ps.length ∧
        ∀ e ∈ F, ∃ q ∈ ps, e ∈ pathEdges u v q := by
  intro ps
  induction ps with
  | nil =>
    intro _ _
    refine ⟨∅, ⟨?_, ?_, ?_⟩, ?_⟩ <;> simp [excess, outdeg, indeg]
  | cons p ps' ih =>
    intro hsp hpw
    obtain ⟨hhead, hpw'⟩ := List.pairwise_cons.mp hpw
    obtain ⟨F', hF', hFsub⟩ := ih (fun q hq => hsp q (List.mem_cons_of_mem p hq)) hpw'
    have hp : SPath G u v p := hsp p (List.mem_cons_self p ps')
    have hdisj : Disjoint (pathEdges u v p) F' := by
      rw [Finset.disjoint_left]
      intro e he heF'
      obtain ⟨q, hq, heq⟩ := hFsub e heF'
      obtain ⟨hne, hvd⟩ := hhead q hq
      exact Finset.disjoint_left.mp
        (pathEdges_edge_disjoint hp (hsp q (List.mem_cons_of_mem p hq)) hne hvd) he heq
    refine ⟨pathEdges u v p ∪ F', ⟨?_, ?_, ?_⟩, ?_⟩
    · intro e he
      rcases Finset.mem_union.mp he with h | h
      · exact (pathEdges_isFlow hp).1 e h
      · exact hF'.1 e h
    · rw [excess_union_disjoint hdisj, (pathEdges_isFlow hp).2.1, hF'.2.1]
      rw [List.length_cons]
      push_cast
      ring
    · intro x hxs hxt
      rw [excess_union_disjoint hdisj, (pathEdges_isFlow hp).2.2 x hxs hxt,
        hF'.2.2 x hxs hxt]
      ring
    · intro e he
      rcases Finset.mem_union.mp he with h | h
      · exact ⟨p, List.mem_cons_self _ _, h⟩
      · obtain ⟨q, hq, heq⟩ := hFsub e h
        exact ⟨q, List.mem_cons_of_mem p hq, heq⟩

/-- **C1.** `DivPathDecider::disjointPaths(u, v, n)` — the bounded
Ford-Fulkerson loop on the node-split unit-capacity network — returns a
boolean for every input, and it returns `true` exactly when the CFG has `n`
pairwise vertex-disjoint paths from `u` to `v`: pairwise distinct paths
sharing no block other than the endpoints. -/
theorem claim_C1 (G : BGraph) (u v : Fin G.N) (n : Nat) :
    disjointPaths G u v n = true ↔ HasNDisjointPaths G u v n := by
  have hst : (outN u : FNode G.N) ≠ inN v := by simp [outN, inN]
  have h0 : IsFlow G (∅ : Finset (FEdge G.N)) (outN u) (inN v) 0 := by
    refine ⟨?_, ?_, ?_⟩ <;> simp [excess, outdeg, indeg]
  constructor
  · intro h
    unfold disjointPaths at h
    obtain ⟨F, hF⟩ := disjointPathsAux_true_flow hst n ∅ 0 h0 h
    rw [Nat.zero_add] at hF
    obtain ⟨ps, hlen, hprops, hpw⟩ := flow_decomp F.card F n (le_refl _) hF
    refine ⟨ps, hlen, fun p hp => (hprops p hp).1, ?_⟩
    exact hpw.imp (fun hdis => pathEdges_vertex_disjoint hdis)
  · intro hex
    obtain ⟨ps, hlen, hsp, hpw⟩ := hex
    by_contra hfalse
    have hb : disjointPaths G u v n = false := by
      revert hfalse
      cases disjointPaths G u v n <;> simp
    unfold disjointPaths at hb
    obtain ⟨F, hF, _⟩ := paths_to_flow ps hsp hpw
    rw [hlen] at hF
    have hcontra := disjointPathsAux_false_bound hst n ∅ 0 h0 hb F n hF
    omega

end VPlanRV
